import Mathlib

/-!
Verification of the timeline-editor engine of this repository.

The development shallowly embeds the Pinia store `useEditorStore`
(src/src/stores/editorStore.ts) and the per-overlay body of the text
compositor loop `animateTexts` (the canvas component). JavaScript numbers
are modelled by `ℚ` (all constants in the engine are exact decimals), the
string ids produced by `generateId` by a fresh-counter `nextId` (the code
relies on these ids being fresh), and the JavaScript value `undefined` in
an id position by `Option.none`. Clip objects carry the base fields the
engine reads or writes; the type-specific styling/media payload fields
(src, fileName, transform, filters, font settings, ...) are copied verbatim
by every modelled operation and never read by any of them, so they are not
represented. Mutation of the live object graph is modelled by rebuilding
the track list around the mutated clip, which the helper functions below
do at exactly the position the source's `find`/`findIndex`/`splice` calls
address (always the first clip whose `id` matches, in track order).
-/

namespace VideoEditor

/-- Track type tag: `'video' | 'audio' | 'text'`. -/
inductive TrackType where
  | video
  | audio
  | text
deriving DecidableEq, Repr

/-- The base fields shared by VideoClip / AudioClip / TextClip, plus the union
tag `type`. `id : Option Nat` because the code assigns `id: undefined` to
pasted and duplicated clips (the final `...clipData` spread in `addClip`
overrides the generated id with an explicitly-undefined property). -/
structure Clip where
  id : Option Nat
  trackId : Nat
  type : TrackType
  startTime : ℚ
  endTime : ℚ
  sourceStartTime : ℚ
  duration : ℚ
  isSelected : Bool
deriving DecidableEq, Repr

/-- A track. `name` is carried for deep-equality faithfulness. -/
structure Track where
  id : Nat
  type : TrackType
  name : String
  order : Nat
  isLocked : Bool
  isVisible : Bool
  isMuted : Bool
  clips : List Clip
deriving DecidableEq, Repr

/-- One history entry: deep copies of the track list and the selection. -/
structure HistoryState where
  tracks : List Track
  selectedClipIds : List (Option Nat)
deriving DecidableEq, Repr

/-- The store state. Fields that are pure DOM glue (videoFile, videoUrl,
videoElement, timelineScrollX, projectName) are not represented; every
field an engine operation or a claim reads or writes is. `aspectRatio`
holds the preset string ("16:9", ...). -/
structure EditorStore where
  projectDuration : ℚ
  aspectRatio : String
  isPlaying : Bool
  currentTime : ℚ
  duration : ℚ
  tracks : List Track
  selectedClipIds : List (Option Nat)
  selectedTrackId : Option Nat
  timelineZoom : ℚ
  isSnappingEnabled : Bool
  snapThreshold : ℚ
  clipboard : List Clip
  history : List HistoryState
  historyIndex : Int
  nextId : Nat
deriving DecidableEq, Repr

/-- The store's initial state (the `ref(...)` initialisers). -/
def initialStore : EditorStore :=
  { projectDuration := 0
    aspectRatio := "16:9"
    isPlaying := false
    currentTime := 0
    duration := 0
    tracks := []
    selectedClipIds := []
    selectedTrackId := none
    timelineZoom := 1
    isSnappingEnabled := true
    snapThreshold := 10
    clipboard := []
    history := []
    historyIndex := -1
    nextId := 0 }

/-- `Math.max` on exact rationals. -/
def qmax (a b : ℚ) : ℚ := if b ≤ a then a else b

/-- `Math.min` on exact rationals. -/
def qmin (a b : ℚ) : ℚ := if a ≤ b then a else b

/-- `Math.abs` on exact rationals. -/
def rabs (x : ℚ) : ℚ := if x < 0 then -x else x

/-- `track.clips.find(c => c.id === clipId)`: first clip whose id matches. -/
def findClip (cid : Option Nat) : List Clip → Option Clip
  | [] => none
  | c :: rest => if c.id = cid then some c else findClip cid rest

/-- `getClipById`: scan the tracks in order, return the first matching clip. -/
def getClipById (ts : List Track) (cid : Option Nat) : Option Clip :=
  match ts with
  | [] => none
  | tr :: rest =>
    match findClip cid tr.clips with
    | some c => some c
    | none => getClipById rest cid

/-- `getTrackByClipId`: the first track holding a clip whose id matches. -/
def getTrackByClipId (ts : List Track) (cid : Option Nat) : Option Track :=
  match ts with
  | [] => none
  | tr :: rest =>
    if (findClip cid tr.clips).isSome then some tr else getTrackByClipId rest cid

/-- Splitting a clip list at the first clip whose id matches:
`some (before, clip, after)` with `clips = before ++ clip :: after` and no
match in `before`. This is what `findIndex` + `splice` address. -/
def findClipSplit (cid : Option Nat) : List Clip → Option (List Clip × Clip × List Clip)
  | [] => none
  | c :: rest =>
    if c.id = cid then some ([], c, rest)
    else
      match findClipSplit cid rest with
      | some (b, x, a) => some (c :: b, x, a)
      | none => none

/-- Splitting a track list at the first track whose id matches. -/
def findTrackSplit (tid : Nat) : List Track → Option (List Track × Track × List Track)
  | [] => none
  | tr :: rest =>
    if tr.id = tid then some ([], tr, rest)
    else
      match findTrackSplit tid rest with
      | some (b, x, a) => some (tr :: b, x, a)
      | none => none

/-- `tracks.find(t => t.id === trackId)`. -/
def findTrack (ts : List Track) (tid : Nat) : Option Track :=
  match ts with
  | [] => none
  | tr :: rest => if tr.id = tid then some tr else findTrack rest tid

/-- `tracks.find(t => t.type === ty)`: first track of a given type. -/
def findTrackOfType (ty : TrackType) : List Track → Option Track
  | [] => none
  | tr :: rest => if tr.type = ty then some tr else findTrackOfType ty rest

/-- In-place mutation of the first clip with id `cid` inside one clip list;
`none` when the list has no such clip. -/
def modifyClipInList (cid : Option Nat) (f : Clip → Clip) : List Clip → Option (List Clip)
  | [] => none
  | c :: rest =>
    if c.id = cid then some (f c :: rest)
    else
      match modifyClipInList cid f rest with
      | some rest2 => some (c :: rest2)
      | none => none

/-- In-place mutation of the clip `getClipById` would return: the first
matching clip of the first track that has one. -/
def modifyClipInTracks (cid : Option Nat) (f : Clip → Clip) : List Track → List Track
  | [] => []
  | tr :: rest =>
    match modifyClipInList cid f tr.clips with
    | some cs => { tr with clips := cs } :: rest
    | none => tr :: modifyClipInTracks cid f rest

/-- Remove the first clip with id `cid` from the first track holding one
(`findIndex` + `splice(index, 1)`); `none` when no track holds one. -/
def removeClipFromTracks (cid : Option Nat) : List Track → Option (List Track)
  | [] => none
  | tr :: rest =>
    match findClipSplit cid tr.clips with
    | some (b, _, a) => some ({ tr with clips := b ++ a } :: rest)
    | none =>
      match removeClipFromTracks cid rest with
      | some ts => some (tr :: ts)
      | none => none

/-- `selectedClipIds.indexOf(x)` + `splice(idx, 1)`: drop the first
occurrence of `x`, keep the list as is when absent. -/
def removeFirstId (x : Option Nat) : List (Option Nat) → List (Option Nat)
  | [] => []
  | y :: rest => if y = x then rest else y :: removeFirstId x rest

/-- `updateProjectDuration`'s scan: running maximum of clip end times. -/
def maxEndClips : ℚ → List Clip → ℚ
  | acc, [] => acc
  | acc, c :: rest => maxEndClips (if c.endTime > acc then c.endTime else acc) rest

/-- The same scan over all tracks, starting from `acc`. -/
def maxEndTracks : ℚ → List Track → ℚ
  | acc, [] => acc
  | acc, tr :: rest => maxEndTracks (maxEndClips acc tr.clips) rest

/-- `updateProjectDuration`: recompute `projectDuration`; raise `duration`
when a clip now ends past it. -/
def updateProjectDuration (s : EditorStore) : EditorStore :=
  let m := maxEndTracks 0 s.tracks
  { s with projectDuration := m, duration := if m > s.duration then m else s.duration }

/-- `maxHistorySize = 50`. -/
def maxHistorySize : Nat := 50

/-- `saveHistory`: truncate the redo tail, push a snapshot of the current
tracks + selection, then either advance the cursor or (at capacity) shift
out the oldest entry leaving the cursor in place. -/
def saveHistory (s : EditorStore) : EditorStore :=
  let h := s.history.take (s.historyIndex + 1).toNat ++ [⟨s.tracks, s.selectedClipIds⟩]
  if h.length > maxHistorySize then { s with history := h.drop 1 }
  else { s with history := h, historyIndex := s.historyIndex + 1 }

/-- `undo`: step the cursor back and restore that entry's tracks + selection;
a no-op at cursor 0 or below. (The out-of-range alternative of the inner
match cannot arise in states the store's own operations produce; the source
would read `undefined` there.) -/
def undo (s : EditorStore) : EditorStore :=
  if 0 < s.historyIndex then
    match s.history.get? (s.historyIndex - 1).toNat with
    | some st =>
      { s with historyIndex := s.historyIndex - 1
               tracks := st.tracks
               selectedClipIds := st.selectedClipIds }
    | none => s
  else s

/-- `redo`: step the cursor forward and restore that entry; a no-op at the tail. -/
def redo (s : EditorStore) : EditorStore :=
  if s.historyIndex < (s.history.length : Int) - 1 then
    match s.history.get? (s.historyIndex + 1).toNat with
    | some st =>
      { s with historyIndex := s.historyIndex + 1
               tracks := st.tracks
               selectedClipIds := st.selectedClipIds }
    | none => s
  else s

/-- Default track names: `Video` / `Audio` / `Text`. -/
def trackTypeName : TrackType → String
  | .video => "Video"
  | .audio => "Audio"
  | .text => "Text"

/-- `tracks.filter(t => t.type === type).length`. -/
def countTracksOfType (ty : TrackType) : List Track → Nat
  | [] => 0
  | tr :: rest => (if tr.type = ty then 1 else 0) + countTracksOfType ty rest

/-- `addTrack`: append a fresh track and snapshot history. (`name ||
default`: an absent or empty name argument falls back to the default.) -/
def addTrack (s : EditorStore) (ty : TrackType) (nameArg : Option String) : EditorStore × Track :=
  let cnt := countTracksOfType ty s.tracks
  let newTrack : Track :=
    { id := s.nextId
      type := ty
      name :=
        match nameArg with
        | some n => if n.isEmpty then trackTypeName ty ++ " " ++ toString (cnt + 1) else n
        | none => trackTypeName ty ++ " " ++ toString (cnt + 1)
      order := s.tracks.length
      isLocked := false
      isVisible := true
      isMuted := false
      clips := [] }
  (saveHistory { s with tracks := s.tracks ++ [newTrack], nextId := s.nextId + 1 }, newTrack)

/-- Drop the first occurrence of each of the removed track's clip ids from
the selection (the `forEach` in `removeTrack`). -/
def removeClipsSel (sel : List (Option Nat)) : List Clip → List (Option Nat)
  | [] => sel
  | c :: rest => removeClipsSel (removeFirstId c.id sel) rest

/-- `removeTrack`: deselect the track's clips, splice the track out, snapshot. -/
def removeTrack (s : EditorStore) (trackId : Nat) : EditorStore :=
  match findTrackSplit trackId s.tracks with
  | none => s
  | some (before, tr, after) =>
    saveHistory
      { s with tracks := before ++ after
               selectedClipIds := removeClipsSel s.selectedClipIds tr.clips }

/-- The `Partial<Clip>` argument of `addClip` / `updateClip`: the outer
`Option` is property presence (an absent property is not copied by the
`...clipData` spread). For `id` the inner `Option` distinguishes a real id
from an explicitly-`undefined` one, which `pasteClips` and
`duplicateSelectedClips` pass and which then overrides the generated id.
No caller passes an explicitly-undefined value for any other field, so for
the other fields presence alone is modelled. -/
structure PartialClip where
  id : Option (Option Nat) := none
  trackId : Option Nat := none
  type : Option TrackType := none
  startTime : Option ℚ := none
  endTime : Option ℚ := none
  sourceStartTime : Option ℚ := none
  duration : Option ℚ := none
  isSelected : Option Bool := none
deriving DecidableEq, Repr

/-- The clip `addClip` builds: defaults overridden by the caller's present
properties. Each base field nets to "caller's value when the property is
present, the default otherwise": the object literal computes
`clipData.f || default` but the final `...clipData` spread re-applies every
present property (so a present falsy `0` wins over the default, and a
present `id: undefined` wins over the generated id). -/
def builtClip (s : EditorStore) (trackId : Nat) (trackType : TrackType) (d : PartialClip) :
    Clip :=
  { id := d.id.getD (some s.nextId)
    trackId := d.trackId.getD trackId
    type := d.type.getD trackType
    startTime := d.startTime.getD s.currentTime
    endTime := d.endTime.getD (s.currentTime + 5)
    sourceStartTime := d.sourceStartTime.getD 0
    duration := d.duration.getD 5
    isSelected := d.isSelected.getD false }

/-- `addClip`: build the clip from defaults overridden by the caller's data,
append it to the found track, recompute the project duration, snapshot.
`generateId` is consumed unconditionally (the nextId counter advances even
when the caller's explicit id overrides the generated one). -/
def addClip (s : EditorStore) (trackId : Nat) (d : PartialClip) : EditorStore × Option Clip :=
  match findTrackSplit trackId s.tracks with
  | none => (s, none)
  | some (before, track, after) =>
    let newClip : Clip := builtClip s trackId track.type d
    let s1 :=
      { s with nextId := s.nextId + 1
               tracks := before ++ { track with clips := track.clips ++ [newClip] } :: after }
    (saveHistory (updateProjectDuration s1), some newClip)

/-- `removeClip`: splice the clip out of its track, drop its id from the
selection, recompute project duration, snapshot; silent no-op when absent. -/
def removeClip (s : EditorStore) (cid : Option Nat) : EditorStore :=
  match removeClipFromTracks cid s.tracks with
  | none => s
  | some ts =>
    saveHistory (updateProjectDuration
      { s with tracks := ts, selectedClipIds := removeFirstId cid s.selectedClipIds })

/-- `Object.assign(clip, updates)`: shallow merge of present properties.
Note it does not recompute `duration`. -/
def mergeUpdate (u : PartialClip) (c : Clip) : Clip :=
  { id := u.id.getD c.id
    trackId := u.trackId.getD c.trackId
    type := u.type.getD c.type
    startTime := u.startTime.getD c.startTime
    endTime := u.endTime.getD c.endTime
    sourceStartTime := u.sourceStartTime.getD c.sourceStartTime
    duration := u.duration.getD c.duration
    isSelected := u.isSelected.getD c.isSelected }

/-- `updateClip`: merge into the found clip, recompute project duration.
Does not snapshot history. -/
def updateClip (s : EditorStore) (cid : Option Nat) (u : PartialClip) : EditorStore :=
  match getClipById s.tracks cid with
  | none => s
  | some _ =>
    updateProjectDuration { s with tracks := modifyClipInTracks cid (mergeUpdate u) s.tracks }

/-- Replace the first clip with id `cid` by `fst` and insert `snd` right
after it, in the first track holding such a clip (the in-place mutation of
the original plus `clips.splice(clipIndex + 1, 0, secondClip)`). -/
def splitInsert (cid : Option Nat) (fst snd : Clip) : List Track → List Track
  | [] => []
  | tr :: rest =>
    match findClipSplit cid tr.clips with
    | some (b, _, a) => { tr with clips := b ++ fst :: snd :: a } :: rest
    | none => tr :: splitInsert cid fst snd rest

/-- The mutated original of a split: it now ends at the split time and its
duration is the consumed part. -/
def splitFirstClip (clip : Clip) (splitTime : ℚ) : Clip :=
  { clip with endTime := splitTime, duration := splitTime - clip.startTime }

/-- The clone of a split: the deep copy of the (mutated) original with a
fresh id, the remaining extent, `sourceStartTime` advanced by the consumed
duration and the selection flag cleared.
(`clip.sourceStartTime || 0` collapses to the field itself over `ℚ`.) -/
def splitSecondClip (clip : Clip) (splitTime : ℚ) (nid : Nat) : Clip :=
  { splitFirstClip clip splitTime with
      id := some nid
      startTime := splitTime
      endTime := clip.endTime
      duration := clip.endTime - splitTime
      sourceStartTime := clip.sourceStartTime + (splitTime - clip.startTime)
      isSelected := false }

/-- `splitClip`: shorten the original to end at `splitTime`, clone it into a
second clip starting there, insert the clone right after the original,
snapshot. Returns `none` (and changes nothing) when the clip or track is
missing or `splitTime` is at or outside the clip's bounds. -/
def splitClip (s : EditorStore) (cid : Option Nat) (splitTime : ℚ) :
    EditorStore × Option (Clip × Clip) :=
  match getClipById s.tracks cid, getTrackByClipId s.tracks cid with
  | some clip, some _ =>
    if splitTime ≤ clip.startTime ∨ clip.endTime ≤ splitTime then (s, none)
    else
      (saveHistory
        { s with nextId := s.nextId + 1
                 tracks := splitInsert cid (splitFirstClip clip splitTime)
                   (splitSecondClip clip splitTime s.nextId) s.tracks },
       some (splitFirstClip clip splitTime, splitSecondClip clip splitTime s.nextId))
  | _, _ => (s, none)

/-- The snap-point candidates a single track contributes: each clip's start
and end, in clip order, skipping the moved clip. -/
def snapPointsClips (excl : Option Nat) : List Clip → List ℚ
  | [] => []
  | c :: rest =>
    if c.id = excl then snapPointsClips excl rest
    else c.startTime :: c.endTime :: snapPointsClips excl rest

/-- Candidates from all tracks, in track order. -/
def snapPointsTracks (excl : Option Nat) : List Track → List ℚ
  | [] => []
  | tr :: rest => snapPointsClips excl tr.clips ++ snapPointsTracks excl rest

/-- The full candidate list of `getSnappedTime`: `[0, currentTime]` then
every other clip's start/end in track order. -/
def snapPoints (s : EditorStore) (excl : Option Nat) : List ℚ :=
  0 :: s.currentTime :: snapPointsTracks excl s.tracks

/-- The scan of `getSnappedTime`: the first candidate strictly within the
threshold, if any. -/
def firstSnap (time thr : ℚ) : List ℚ → Option ℚ
  | [] => none
  | p :: rest => if rabs (time - p) < thr then some p else firstSnap time thr rest

/-- `getSnappedTime`: threshold is `snapThreshold / (100 * timelineZoom)`
seconds; the first candidate strictly within it wins, else the time is
returned unchanged. -/
def getSnappedTime (s : EditorStore) (time : ℚ) (excl : Option Nat) : ℚ :=
  (firstSnap time (s.snapThreshold / (100 * s.timelineZoom)) (snapPoints s excl)).getD time

/-- `newTrack.clips.push(clip)` on the first track with id `tid`. -/
def pushClipToTrack (tid : Nat) (c : Clip) : List Track → List Track
  | [] => []
  | tr :: rest =>
    if tr.id = tid then { tr with clips := tr.clips ++ [c] } :: rest
    else tr :: pushClipToTrack tid c rest

/-- `moveClip`: snap (when enabled), clamp the start to `≥ 0`, keep the
duration, then re-parent to the destination track only when it exists, is a
different track and its type matches; finally recompute project duration.
Silent no-op when the clip is missing. The re-parenting removes the moved
clip from its track and appends it (with `trackId` retargeted) to the
destination. -/
def moveClip (s : EditorStore) (cid : Option Nat) (newStartTime : ℚ) (newTrackId : Option Nat) :
    EditorStore :=
  match getClipById s.tracks cid, getTrackByClipId s.tracks cid with
  | some clip, some currentTrack =>
    let clipDuration := clip.endTime - clip.startTime
    let t := if s.isSnappingEnabled then getSnappedTime s newStartTime cid else newStartTime
    let newStart := qmax 0 t
    let moved := { clip with startTime := newStart, endTime := newStart + clipDuration }
    let tracks1 := modifyClipInTracks cid (fun _ => moved) s.tracks
    let tracks2 :=
      match newTrackId with
      | some ntid =>
        if ntid = currentTrack.id then tracks1
        else
          match findTrack tracks1 ntid with
          | some newTrack =>
            if newTrack.type = currentTrack.type then
              pushClipToTrack ntid { moved with trackId := ntid }
                (match removeClipFromTracks cid tracks1 with
                 | some ts => ts
                 | none => tracks1)
            else tracks1
          | none => tracks1
      | none => tracks1
    updateProjectDuration { s with tracks := tracks2 }
  | _, _ => s

/-- `trimClipStart`: clamp the requested start by
`max(0, min(endTime - 0.1, t))`, shift `sourceStartTime` by the applied
delta, recompute `duration`; `endTime` untouched, no history snapshot,
silent no-op when the clip is missing. -/
def trimClipStart (s : EditorStore) (cid : Option Nat) (newStartTime : ℚ) : EditorStore :=
  match getClipById s.tracks cid with
  | none => s
  | some _ =>
    { s with
        tracks :=
          modifyClipInTracks cid
            (fun clip =>
              let ns := qmax 0 (qmin (clip.endTime - 1/10) newStartTime)
              { clip with
                  startTime := ns
                  sourceStartTime := clip.sourceStartTime + (ns - clip.startTime)
                  duration := clip.endTime - ns })
            s.tracks }

/-- `trimClipEnd`: clamp the requested end to `≥ startTime + 0.1`, recompute
`duration`, recompute project duration; no history snapshot. -/
def trimClipEnd (s : EditorStore) (cid : Option Nat) (newEndTime : ℚ) : EditorStore :=
  match getClipById s.tracks cid with
  | none => s
  | some _ =>
    updateProjectDuration
      { s with
          tracks :=
            modifyClipInTracks cid
              (fun clip =>
                let ne := qmax (clip.startTime + 1/10) newEndTime
                { clip with endTime := ne, duration := ne - clip.startTime })
              s.tracks }

/-- Clear every clip's `isSelected` flag. -/
def clearAllFlags (ts : List Track) : List Track :=
  ts.map (fun tr => { tr with clips := tr.clips.map (fun c => { c with isSelected := false }) })

/-- `selectClip`: without `addToSelection` first clear all flags and the id
set; then flag the found clip and add its id unless already present. -/
def selectClip (s : EditorStore) (cid : Option Nat) (addToSelection : Bool) : EditorStore :=
  let s1 :=
    if addToSelection then s
    else { s with tracks := clearAllFlags s.tracks, selectedClipIds := [] }
  match getClipById s1.tracks cid with
  | none => s1
  | some _ =>
    { s1 with
        tracks := modifyClipInTracks cid (fun c => { c with isSelected := true }) s1.tracks
        selectedClipIds :=
          if cid ∈ s1.selectedClipIds then s1.selectedClipIds
          else s1.selectedClipIds ++ [cid] }

/-- `deselectClip`: clear the found clip's flag and drop its id. -/
def deselectClip (s : EditorStore) (cid : Option Nat) : EditorStore :=
  match getClipById s.tracks cid with
  | none => s
  | some _ =>
    { s with
        tracks := modifyClipInTracks cid (fun c => { c with isSelected := false }) s.tracks
        selectedClipIds := removeFirstId cid s.selectedClipIds }

/-- `deselectAll`: clear every flag, the id set and the active track. -/
def deselectAll (s : EditorStore) : EditorStore :=
  { s with tracks := clearAllFlags s.tracks, selectedClipIds := [], selectedTrackId := none }

/-- The id-accumulating pass of `selectAllClips` over one clip list. -/
def selectAllFold (sel : List (Option Nat)) : List Clip → List (Option Nat)
  | [] => sel
  | c :: rest => selectAllFold (if c.id ∈ sel then sel else sel ++ [c.id]) rest

/-- The same pass over all tracks. -/
def selectAllTracksFold (sel : List (Option Nat)) : List Track → List (Option Nat)
  | [] => sel
  | tr :: rest => selectAllTracksFold (selectAllFold sel tr.clips) rest

/-- `selectAllClips`: flag every clip and append every missing id. -/
def selectAllClips (s : EditorStore) : EditorStore :=
  { s with
      tracks :=
        s.tracks.map (fun tr =>
          { tr with clips := tr.clips.map (fun c => { c with isSelected := true }) })
      selectedClipIds := selectAllTracksFold s.selectedClipIds s.tracks }

/-- The `selectedClips` getter: clips whose id is in the selection, in
track order. -/
def selectedClipsIn (sel : List (Option Nat)) : List Track → List Clip
  | [] => []
  | tr :: rest => tr.clips.filter (fun c => decide (c.id ∈ sel)) ++ selectedClipsIn sel rest

/-- `copySelectedClips`: deep-copy the current selection to the clipboard. -/
def copySelectedClips (s : EditorStore) : EditorStore :=
  { s with clipboard := selectedClipsIn s.selectedClipIds s.tracks }

/-- `Math.min(...clipboard.map(c => c.startTime))` (used on a nonempty list). -/
def minStart : List Clip → ℚ
  | [] => 0
  | [c] => c.startTime
  | c :: rest => qmin c.startTime (minStart rest)

/-- The `Partial<Clip>` that `pasteClips` passes for one clipboard clip:
the full clip spread, then `id: undefined`, the re-based times and a
cleared selection flag. -/
def pasteData (pasteTime m : ℚ) (c : Clip) : PartialClip :=
  { id := some none
    trackId := some c.trackId
    type := some c.type
    startTime := some (pasteTime + (c.startTime - m))
    endTime := some (pasteTime + (c.startTime - m) + c.duration)
    sourceStartTime := some c.sourceStartTime
    duration := some c.duration
    isSelected := some false }

/-- The clip `addClip` builds from `pasteData pt m c` (every field present
in the data, so every default is overridden): the re-based copy, with an
undefined id and a cleared selection flag. -/
def pastedClip (pt m : ℚ) (c : Clip) : Clip :=
  { id := none
    trackId := c.trackId
    type := c.type
    startTime := pt + (c.startTime - m)
    endTime := pt + (c.startTime - m) + c.duration
    sourceStartTime := c.sourceStartTime
    duration := c.duration
    isSelected := false }

/-- Total number of clips across all tracks. -/
def totalClips : List Track → Nat
  | [] => 0
  | tr :: rest => tr.clips.length + totalClips rest

/-- How many of the given clipboard clips `pasteClips` inserts against this
track list: one per clip whose first type-matching track exists and is
unlocked. -/
def eligibleCount (ts : List Track) : List Clip → Nat
  | [] => 0
  | c :: rest =>
    (match findTrackOfType c.type ts with
     | some tr => if tr.isLocked then 0 else 1
     | none => 0) + eligibleCount ts rest

/-- One track list extends another pointwise: same tracks (id, type, lock
state) with possibly more clips appended at the tail of each clip list —
exactly how the paste/duplicate loops grow the model. -/
def TracksExtend : List Track → List Track → Prop
  | [], [] => True
  | tr :: rest, tr' :: rest' =>
    (tr.id = tr'.id ∧ tr.type = tr'.type ∧ tr.isLocked = tr'.isLocked ∧
      ∃ l, tr'.clips = tr.clips ++ l) ∧ TracksExtend rest rest'
  | _, _ => False

/-- The `forEach` of `pasteClips`: for each clipboard clip, the first track
of its type receives the copy unless that track is locked (then the clip is
simply skipped). -/
def pasteLoop (pasteTime m : ℚ) : List Clip → EditorStore → EditorStore
  | [], s => s
  | c :: rest, s =>
    pasteLoop pasteTime m rest
      (match findTrackOfType c.type s.tracks with
       | some track =>
         if track.isLocked then s else (addClip s track.id (pasteData pasteTime m c)).1
       | none => s)

/-- `pasteClips`: no-op on an empty clipboard; otherwise re-base every
clipboard clip by the delta between the earliest copied start and the
playhead and add each to the first track of its type when unlocked. -/
def pasteClips (s : EditorStore) : EditorStore :=
  if s.clipboard.isEmpty then s
  else pasteLoop s.currentTime (minStart s.clipboard) s.clipboard s

/-- The `Partial<Clip>` that `duplicateSelectedClips` passes for one source
clip: the full clip spread, then `id: undefined` and the shifted times. -/
def dupData (c : Clip) : PartialClip :=
  { id := some none
    trackId := some c.trackId
    type := some c.type
    startTime := some c.endTime
    endTime := some (c.endTime + c.duration)
    sourceStartTime := some c.sourceStartTime
    duration := some c.duration
    isSelected := some c.isSelected }

/-- The `forEach` of `duplicateSelectedClips`: look the source clip's track
up live, add the clone when the track is unlocked, then `selectClip` the
clone's id (which is `undefined`) additively. -/
def dupLoop : List Clip → EditorStore → EditorStore
  | [], s => s
  | c :: rest, s =>
    dupLoop rest
      (match getTrackByClipId s.tracks c.id with
       | some track =>
         if track.isLocked then s
         else
           match addClip s track.id (dupData c) with
           | (s1, some newClip) => selectClip s1 newClip.id true
           | (s1, none) => s1
       | none => s)

/-- `duplicateSelectedClips`: capture the selected clips, deselect all, then
clone each after its source and re-select the clones. The captured list
models the live references the code keeps: `deselectAll` has already
cleared their selection flags when the per-iteration deep copy is taken. -/
def duplicateSelectedClips (s : EditorStore) : EditorStore :=
  let captured :=
    (selectedClipsIn s.selectedClipIds s.tracks).map (fun c => { c with isSelected := false })
  dupLoop captured (deselectAll s)

/-- The `forEach` of `deleteSelectedClips` over a snapshot of the id list. -/
def deleteLoop : List (Option Nat) → EditorStore → EditorStore
  | [], s => s
  | i :: rest, s => deleteLoop rest (removeClip s i)

/-- `deleteSelectedClips`. -/
def deleteSelectedClips (s : EditorStore) : EditorStore :=
  deleteLoop s.selectedClipIds s

/-- `cutSelectedClips` = copy + delete. -/
def cutSelectedClips (s : EditorStore) : EditorStore :=
  deleteSelectedClips (copySelectedClips s)

/-- `updateTime`: reseat the playhead. -/
def updateTime (s : EditorStore) (t : ℚ) : EditorStore :=
  { s with currentTime := t }

/-- One public edit operation with its arguments, for reasoning about
operation sequences. -/
inductive EditOp where
  | addTrack (ty : TrackType) (nameArg : Option String)
  | removeTrack (tid : Nat)
  | addClip (tid : Nat) (d : PartialClip)
  | removeClip (cid : Option Nat)
  | updateClip (cid : Option Nat) (u : PartialClip)
  | splitClip (cid : Option Nat) (t : ℚ)
  | moveClip (cid : Option Nat) (t : ℚ) (ntid : Option Nat)
  | trimClipStart (cid : Option Nat) (t : ℚ)
  | trimClipEnd (cid : Option Nat) (t : ℚ)
  | selectClip (cid : Option Nat) (add : Bool)
  | deselectClip (cid : Option Nat)
  | deselectAll
  | selectAllClips
  | copySelectedClips
  | pasteClips
  | duplicateSelectedClips
  | deleteSelectedClips
  | undo
  | redo
  | updateTime (t : ℚ)
deriving DecidableEq, Repr

/-- Apply one operation (discarding its return value). -/
def applyOp : EditOp → EditorStore → EditorStore
  | .addTrack ty n, s => (addTrack s ty n).1
  | .removeTrack tid, s => removeTrack s tid
  | .addClip tid d, s => (addClip s tid d).1
  | .removeClip cid, s => removeClip s cid
  | .updateClip cid u, s => updateClip s cid u
  | .splitClip cid t, s => (splitClip s cid t).1
  | .moveClip cid t ntid, s => moveClip s cid t ntid
  | .trimClipStart cid t, s => trimClipStart s cid t
  | .trimClipEnd cid t, s => trimClipEnd s cid t
  | .selectClip cid a, s => selectClip s cid a
  | .deselectClip cid, s => deselectClip s cid
  | .deselectAll, s => deselectAll s
  | .selectAllClips, s => selectAllClips s
  | .copySelectedClips, s => copySelectedClips s
  | .pasteClips, s => pasteClips s
  | .duplicateSelectedClips, s => duplicateSelectedClips s
  | .deleteSelectedClips, s => deleteSelectedClips s
  | .undo, s => undo s
  | .redo, s => redo s
  | .updateTime t, s => updateTime s t

/-- Apply a sequence of operations, left to right. -/
def applyOps : List EditOp → EditorStore → EditorStore
  | [], s => s
  | op :: rest, s => applyOps rest (applyOp op s)

/-- Call `undo` n times. -/
def iterUndo : Nat → EditorStore → EditorStore
  | 0, s => s
  | n + 1, s => iterUndo n (undo s)

/-- Call `redo` n times. -/
def iterRedo : Nat → EditorStore → EditorStore
  | 0, s => s
  | n + 1, s => iterRedo n (redo s)

/-- The per-clip time invariant of the data model (spec section 3):
a nonnegative start, a positive extent and a consistent re-derived
duration. -/
def ClipOK (c : Clip) : Prop :=
  0 ≤ c.startTime ∧ c.startTime < c.endTime ∧ c.duration = c.endTime - c.startTime

/-- The time invariant over a track list. -/
def TracksTimeOK (ts : List Track) : Prop :=
  ∀ tr ∈ ts, ∀ c ∈ tr.clips, ClipOK c

/-- The state-wide time invariant: live tracks, every history entry, a
positive duration for every clipboard clip (what a pasted copy's extent
becomes), and a nonnegative playhead (what a pasted copy's start time is
based on). -/
def TimeInv (s : EditorStore) : Prop :=
  TracksTimeOK s.tracks ∧ (∀ e ∈ s.history, TracksTimeOK e.tracks) ∧
    (∀ c ∈ s.clipboard, 0 < c.duration) ∧ 0 ≤ s.currentTime

instance (c : Clip) : Decidable (ClipOK c) := by
  unfold ClipOK
  infer_instance

instance (ts : List Track) : Decidable (TracksTimeOK ts) := by
  unfold TracksTimeOK
  infer_instance

instance (s : EditorStore) : Decidable (TimeInv s) := by
  unfold TimeInv
  infer_instance

/-- Operations under which the time invariant is claimed to be preserved:
everything except `updateClip` (a blind shallow merge), with `addClip`
restricted to caller data whose effective time fields are themselves
consistent and `updateTime` to a nonnegative playhead. -/
def safeTime (op : EditOp) (s : EditorStore) : Bool :=
  match op with
  | .updateClip _ _ => false
  | .addClip _ d =>
    decide (0 ≤ d.startTime.getD s.currentTime) &&
      decide (d.startTime.getD s.currentTime < d.endTime.getD (s.currentTime + 5)) &&
      decide (d.duration.getD 5 =
        d.endTime.getD (s.currentTime + 5) - d.startTime.getD s.currentTime)
  | .updateTime t => decide (0 ≤ t)
  | _ => true

/-- `safeTime` holding along a whole sequence. -/
def SafeTimeSeq : List EditOp → EditorStore → Bool
  | [], _ => true
  | op :: rest, s => safeTime op s && SafeTimeSeq rest (applyOp op s)

/-- All clip ids of a track list, in track order. -/
def clipIds : List Track → List (Option Nat)
  | [] => []
  | tr :: rest => tr.clips.map (fun c => c.id) ++ clipIds rest

/-- The selection-consistency invariant over one track list + id set:
a clip is flagged exactly when its id is in the set. -/
def SelOK (ts : List Track) (sel : List (Option Nat)) : Prop :=
  ∀ tr ∈ ts, ∀ c ∈ tr.clips, (c.isSelected = true ↔ c.id ∈ sel)

/-- A real id is below the fresh-id counter (an `undefined` id trivially
is). -/
def idBound (n : Nat) : Option Nat → Prop
  | some k => k < n
  | none => True

instance (n : Nat) (x : Option Nat) : Decidable (idBound n x) := by
  unfold idBound
  cases x <;> infer_instance

/-- The structural side conditions selection consistency is preserved
under: all clip ids distinct, no duplicate selection entries, and every
real id (of a clip or in the selection) below the fresh-id counter. -/
def IdsOK (ts : List Track) (sel : List (Option Nat)) (n : Nat) : Prop :=
  (clipIds ts).Nodup ∧ sel.Nodup ∧
    (∀ x ∈ clipIds ts, idBound n x) ∧ ∀ x ∈ sel, idBound n x

/-- The state-wide selection invariant: the live state and every history
entry are consistent and structurally sound. -/
def SelInv (s : EditorStore) : Prop :=
  SelOK s.tracks s.selectedClipIds ∧ IdsOK s.tracks s.selectedClipIds s.nextId ∧
    ∀ e ∈ s.history, SelOK e.tracks e.selectedClipIds ∧
      IdsOK e.tracks e.selectedClipIds s.nextId

instance (ts : List Track) (sel : List (Option Nat)) : Decidable (SelOK ts sel) := by
  unfold SelOK
  infer_instance

instance (ts : List Track) (sel : List (Option Nat)) (n : Nat) :
    Decidable (IdsOK ts sel n) := by
  unfold IdsOK
  infer_instance

instance (s : EditorStore) : Decidable (SelInv s) := by
  unfold SelInv
  infer_instance

/-- Operations under which selection consistency is claimed to be
preserved: the claim's list minus `pasteClips` and
`duplicateSelectedClips` (which insert clips with `undefined` ids). -/
def safeSel (op : EditOp) : Bool :=
  match op with
  | .selectClip _ _ => true
  | .deselectClip _ => true
  | .deselectAll => true
  | .selectAllClips => true
  | .removeClip _ => true
  | .removeTrack _ => true
  | .splitClip _ _ => true
  | .undo => true
  | .redo => true
  | _ => false

/-- `safeSel` along a whole sequence. -/
def SafeSelSeq : List EditOp → Bool
  | [] => true
  | op :: rest => safeSel op && SafeSelSeq rest

/-- A state whose current tracks + selection are recorded at the history
cursor (the steady state every history-snapshotting operation leaves
behind). -/
def Steady (s : EditorStore) : Prop :=
  0 ≤ s.historyIndex ∧
    s.history.get? s.historyIndex.toNat = some ⟨s.tracks, s.selectedClipIds⟩

/-- The operations that record exactly one history snapshot, with the
conditions under which they do (their target exists; for split, the time
is strictly inside the clip). -/
def snapOnce (op : EditOp) (s : EditorStore) : Bool :=
  match op with
  | .addTrack _ _ => true
  | .removeTrack tid => (findTrackSplit tid s.tracks).isSome
  | .addClip tid _ => (findTrackSplit tid s.tracks).isSome
  | .removeClip cid => (removeClipFromTracks cid s.tracks).isSome
  | .splitClip cid t =>
    match getClipById s.tracks cid with
    | some c => decide (c.startTime < t) && decide (t < c.endTime)
    | none => false
  | _ => false

/-- `snapOnce` along a whole sequence. -/
def SnapSeq : List EditOp → EditorStore → Bool
  | [], _ => true
  | op :: rest, s => snapOnce op s && SnapSeq rest (applyOp op s)

/-! ### Text animation (the per-overlay body of `animateTexts`) -/

/-- Text animation kinds (`typewriter` is entrance-only: the exit switch
has no case for it). -/
inductive TextAnimType where
  | noAnim
  | fade
  | slide
  | scale
  | typewriter
deriving DecidableEq, Repr

/-- An entrance or exit animation setting. (The optional slide `direction`
is ignored by the compositor's switch, so it is not represented.) -/
structure TextAnimation where
  type : TextAnimType
  duration : ℚ
deriving DecidableEq, Repr

/-- The projection of a text clip the `textOverlays` getter feeds to
`animateTexts`. -/
structure TextOverlay where
  startTime : ℚ
  endTime : ℚ
  x : ℚ
  y : ℚ
  text : String
  isSelected : Bool
  animationIn : TextAnimation
  animationOut : TextAnimation
deriving DecidableEq, Repr

/-- What `animateTexts` writes onto a visible text object each frame. -/
structure TextRenderState where
  alpha : ℚ
  x : ℚ
  y : ℚ
  scaleX : ℚ
  scaleY : ℚ
  text : String
deriving DecidableEq, Repr

/-- `Math.max(0, Math.min(1, progress))`. -/
def clamp01 (t : ℚ) : ℚ := qmax 0 (qmin 1 t)

/-- The entrance effect, applied only while `currentTime - startTime` is
inside the entrance window. -/
def applyInAnim (ov : TextOverlay) (ct : ℚ) (st : TextRenderState) : TextRenderState :=
  if ov.animationIn.type = TextAnimType.noAnim then st
  else if ct - ov.startTime < ov.animationIn.duration then
    let t := clamp01 ((ct - ov.startTime) / ov.animationIn.duration)
    match ov.animationIn.type with
    | .fade => { st with alpha := st.alpha * t }
    | .slide => { st with y := st.y + (1 - t) * 50 }
    | .scale => { st with scaleX := t, scaleY := t }
    | .typewriter =>
      { st with text := st.text.take (Int.toNat ((st.text.length : ℚ) * t).floor) }
    | .noAnim => st
  else st

/-- The exit effect, applied only while the remaining time is inside the
exit window; note fade multiplies into whatever alpha the entrance left
and slide offsets the entrance's y, while scale overwrites. -/
def applyOutAnim (ov : TextOverlay) (ct : ℚ) (st : TextRenderState) : TextRenderState :=
  if ov.animationOut.type = TextAnimType.noAnim then st
  else if ov.endTime - ct < ov.animationOut.duration then
    let t := clamp01 ((ov.animationOut.duration - (ov.endTime - ct)) / ov.animationOut.duration)
    match ov.animationOut.type with
    | .fade => { st with alpha := st.alpha * (1 - t) }
    | .slide => { st with y := st.y - t * 50 }
    | .scale => { st with scaleX := 1 - t, scaleY := 1 - t }
    | _ => st
  else st

/-- The per-overlay body of `animateTexts`: `none` when the overlay is not
visible at `ct`, otherwise the rendered state after the base state, the
entrance effect and then the exit effect. (`isSelected ? 1 : 1` is the
source's own base alpha.) -/
def animateText (ov : TextOverlay) (ct : ℚ) : Option TextRenderState :=
  if ct < ov.startTime ∨ ov.endTime < ct then none
  else
    let base : TextRenderState :=
      { alpha := if ov.isSelected then 1 else 1
        x := ov.x
        y := ov.y
        scaleX := 1
        scaleY := 1
        text := ov.text }
    some (applyOutAnim ov ct (applyInAnim ov ct base))

/-! ### Concrete states for witnesses and counterexamples -/

/-- A store with two (empty) history entries and the cursor on the second. -/
def exTwoEntries : EditorStore :=
  { initialStore with history := [⟨[], []⟩, ⟨[], []⟩], historyIndex := 1 }

/-- A fresh store holding one empty video track (created by `addTrack`). -/
def exOneTrack : EditorStore := (addTrack initialStore TrackType.video none).1

/-- `exOneTrack` with a clip `[2,5)` added (id 1). -/
def exClipA : EditorStore :=
  (addClip exOneTrack 0
    { startTime := some 2, endTime := some 5, duration := some 3 }).1

/-- `exClipA` with a second clip `[5,8)` added (id 2). -/
def exClipB : EditorStore :=
  (addClip exClipA 0
    { startTime := some 5, endTime := some 8, duration := some 3 }).1

/-- `exClipB` with both clips selected. -/
def exBothSelected : EditorStore :=
  selectClip (selectClip exClipB (some 1) false) (some 2) true

/-- `exBothSelected` copied to the clipboard and the playhead at 10. -/
def exReadyToPaste : EditorStore :=
  updateTime (copySelectedClips exBothSelected) 10

/-- `exOneTrack` with a degenerate clip `[0, 0.05)` (shorter than the 0.1
minimum trim duration). -/
def exTinyClip : EditorStore :=
  (addClip exOneTrack 0
    { startTime := some 0, endTime := some (1/20), duration := some (1/20) }).1

/-- The clip `addClip` created in `exClipA`, as a value. -/
def exClipAClip : Clip :=
  { id := some 1
    trackId := 0
    type := TrackType.video
    startTime := 2
    endTime := 5
    sourceStartTime := 0
    duration := 3
    isSelected := false }

/-- A text overlay `[0,3)` with 2-second fade in and fade out: the two
animation windows overlap on `(1,2)`. -/
def exOverlayFade : TextOverlay :=
  { startTime := 0
    endTime := 3
    x := 0
    y := 0
    text := "hi"
    isSelected := false
    animationIn := ⟨TextAnimType.fade, 2⟩
    animationOut := ⟨TextAnimType.fade, 2⟩ }

/-! ### Helper lemmas -/

theorem findClipSplit_eq (cid : Option Nat) (cs : List Clip) (b : List Clip) (c : Clip)
    (a : List Clip) (h : findClipSplit cid cs = some (b, c, a)) :
    cs = b ++ c :: a ∧ c.id = cid ∧ ∀ x ∈ b, x.id ≠ cid := by
  induction cs generalizing b with
  | nil => simp [findClipSplit] at h
  | cons hd tl ih =>
    rw [findClipSplit] at h
    split at h
    · rename_i hid
      cases h
      exact ⟨rfl, hid, by simp⟩
    · rename_i hid
      split at h
      · rename_i b' c' a' hsplit
        cases h
        obtain ⟨h1, h2, h3⟩ := ih _ hsplit
        refine ⟨by simp [h1], h2, ?_⟩
        intro x hx
        rcases List.mem_cons.mp hx with hx | hx
        · exact hx ▸ hid
        · exact h3 x hx
      · cases h

theorem findClipSplit_none (cid : Option Nat) (cs : List Clip)
    (h : findClipSplit cid cs = none) : ∀ x ∈ cs, x.id ≠ cid := by
  induction cs with
  | nil => simp
  | cons hd tl ih =>
    rw [findClipSplit] at h
    split at h
    · cases h
    · rename_i hid
      split at h
      · cases h
      · rename_i hsplit
        intro x hx
        rcases List.mem_cons.mp hx with hx | hx
        · exact hx ▸ hid
        · exact ih hsplit x hx

theorem findClip_eq_split (cid : Option Nat) (cs : List Clip) :
    findClip cid cs = (findClipSplit cid cs).map (fun p => p.2.1) := by
  induction cs with
  | nil => rfl
  | cons hd tl ih =>
    rw [findClip, findClipSplit]
    split
    · rfl
    · rw [ih]
      cases findClipSplit cid tl with
      | none => rfl
      | some p => rfl

theorem modifyClipInList_eq_split (cid : Option Nat) (f : Clip → Clip) (cs : List Clip) :
    modifyClipInList cid f cs =
      (findClipSplit cid cs).map (fun p => p.1 ++ f p.2.1 :: p.2.2) := by
  induction cs with
  | nil => rfl
  | cons hd tl ih =>
    rw [modifyClipInList, findClipSplit]
    split
    · rfl
    · rw [ih]
      cases findClipSplit cid tl with
      | none => rfl
      | some p => rfl

theorem findClip_append_none (cid : Option Nat) (b l : List Clip)
    (hb : ∀ x ∈ b, x.id ≠ cid) : findClip cid (b ++ l) = findClip cid l := by
  induction b with
  | nil => rfl
  | cons hd tl ih =>
    rw [List.cons_append, findClip, if_neg (hb hd (by simp))]
    exact ih fun x hx => hb x (by simp [hx])

theorem findClip_cons_self (cid : Option Nat) (c : Clip) (a : List Clip) (hc : c.id = cid) :
    findClip cid (c :: a) = some c := by
  rw [findClip, if_pos hc]

theorem findClip_none_iff (cid : Option Nat) (cs : List Clip) :
    findClip cid cs = none ↔ ∀ x ∈ cs, x.id ≠ cid := by
  induction cs with
  | nil => simp [findClip]
  | cons hd tl ih =>
    rw [findClip]
    split
    · rename_i hid
      constructor
      · intro h; cases h
      · intro h; exact absurd hid (h hd (by simp))
    · rename_i hid
      rw [ih]
      constructor
      · intro h x hx
        rcases List.mem_cons.mp hx with hx | hx
        · exact hx ▸ hid
        · exact h x hx
      · intro h x hx; exact h x (by simp [hx])

theorem findTrackSplit_eq (tid : Nat) (ts : List Track) (b : List Track) (tr : Track)
    (a : List Track) (h : findTrackSplit tid ts = some (b, tr, a)) :
    ts = b ++ tr :: a ∧ tr.id = tid ∧ ∀ x ∈ b, x.id ≠ tid := by
  induction ts generalizing b with
  | nil => simp [findTrackSplit] at h
  | cons hd tl ih =>
    rw [findTrackSplit] at h
    split at h
    · rename_i hid
      cases h
      exact ⟨rfl, hid, by simp⟩
    · rename_i hid
      split at h
      · rename_i b' c' a' hsplit
        cases h
        obtain ⟨h1, h2, h3⟩ := ih _ hsplit
        refine ⟨by simp [h1], h2, ?_⟩
        intro x hx
        rcases List.mem_cons.mp hx with hx | hx
        · exact hx ▸ hid
        · exact h3 x hx
      · cases h

theorem findTrackSplit_none (tid : Nat) (ts : List Track)
    (h : findTrackSplit tid ts = none) : ∀ x ∈ ts, x.id ≠ tid := by
  induction ts with
  | nil => simp
  | cons hd tl ih =>
    rw [findTrackSplit] at h
    split at h
    · cases h
    · rename_i hid
      split at h
      · cases h
      · rename_i hsplit
        intro x hx
        rcases List.mem_cons.mp hx with hx | hx
        · exact hx ▸ hid
        · exact ih hsplit x hx

/-- `undo` rewrites at most the tracks, the selection and the cursor. -/
theorem undo_shape (s : EditorStore) :
    ∃ t sel i, undo s = { s with tracks := t, selectedClipIds := sel, historyIndex := i } := by
  unfold undo
  split
  · split
    · exact ⟨_, _, _, rfl⟩
    · exact ⟨s.tracks, s.selectedClipIds, s.historyIndex, rfl⟩
  · exact ⟨s.tracks, s.selectedClipIds, s.historyIndex, rfl⟩

/-- `redo` rewrites at most the tracks, the selection and the cursor. -/
theorem redo_shape (s : EditorStore) :
    ∃ t sel i, redo s = { s with tracks := t, selectedClipIds := sel, historyIndex := i } := by
  unfold redo
  split
  · split
    · exact ⟨_, _, _, rfl⟩
    · exact ⟨s.tracks, s.selectedClipIds, s.historyIndex, rfl⟩
  · exact ⟨s.tracks, s.selectedClipIds, s.historyIndex, rfl⟩

theorem getClipById_of_decomp (cid : Option Nat) (tb : List Track) (tr : Track)
    (ta : List Track) (b : List Clip) (c : Clip) (a : List Clip)
    (hpre : ∀ t ∈ tb, findClip cid t.clips = none)
    (htr : tr.clips = b ++ c :: a) (hb : ∀ x ∈ b, x.id ≠ cid) (hc : c.id = cid) :
    getClipById (tb ++ tr :: ta) cid = some c := by
  induction tb with
  | nil =>
    rw [List.nil_append, getClipById, htr, findClip_append_none cid b _ hb,
      findClip_cons_self cid c a hc]
  | cons hd tl ih =>
    rw [List.cons_append, getClipById, hpre hd (by simp)]
    exact ih fun t ht => hpre t (by simp [ht])

theorem getTrackByClipId_of_decomp (cid : Option Nat) (tb : List Track) (tr : Track)
    (ta : List Track) (b : List Clip) (c : Clip) (a : List Clip)
    (hpre : ∀ t ∈ tb, findClip cid t.clips = none)
    (htr : tr.clips = b ++ c :: a) (hb : ∀ x ∈ b, x.id ≠ cid) (hc : c.id = cid) :
    getTrackByClipId (tb ++ tr :: ta) cid = some tr := by
  induction tb with
  | nil =>
    rw [List.nil_append, getTrackByClipId, if_pos]
    rw [htr, findClip_append_none cid b _ hb, findClip_cons_self cid c a hc]
    rfl
  | cons hd tl ih =>
    rw [List.cons_append, getTrackByClipId, if_neg]
    · exact ih fun t ht => hpre t (by simp [ht])
    · rw [hpre hd (by simp)]
      simp

theorem findClipSplit_of_decomp (cid : Option Nat) (b : List Clip) (c : Clip) (a : List Clip)
    (hb : ∀ x ∈ b, x.id ≠ cid) (hc : c.id = cid) :
    findClipSplit cid (b ++ c :: a) = some (b, c, a) := by
  induction b with
  | nil => rw [List.nil_append, findClipSplit, if_pos hc]
  | cons hd tl ih =>
    rw [List.cons_append, findClipSplit, if_neg (hb hd (by simp)),
      ih fun x hx => hb x (by simp [hx])]

theorem modifyClipInTracks_of_decomp (cid : Option Nat) (f : Clip → Clip) (tb : List Track)
    (tr : Track) (ta : List Track) (b : List Clip) (c : Clip) (a : List Clip)
    (hpre : ∀ t ∈ tb, findClip cid t.clips = none)
    (htr : tr.clips = b ++ c :: a) (hb : ∀ x ∈ b, x.id ≠ cid) (hc : c.id = cid) :
    modifyClipInTracks cid f (tb ++ tr :: ta) =
      tb ++ { tr with clips := b ++ f c :: a } :: ta := by
  induction tb with
  | nil =>
    rw [List.nil_append, modifyClipInTracks, modifyClipInList_eq_split, htr,
      findClipSplit_of_decomp cid b c a hb hc]
    rfl
  | cons hd tl ih =>
    rw [List.cons_append, modifyClipInTracks, modifyClipInList_eq_split]
    have : findClipSplit cid hd.clips = none := by
      have h1 := hpre hd (by simp)
      rw [findClip_eq_split] at h1
      cases hfs : findClipSplit cid hd.clips with
      | none => rfl
      | some p => rw [hfs] at h1; cases h1
    rw [this]
    rw [ih fun t ht => hpre t (by simp [ht])]
    rfl

theorem splitInsert_of_decomp (cid : Option Nat) (fst snd : Clip) (tb : List Track)
    (tr : Track) (ta : List Track) (b : List Clip) (c : Clip) (a : List Clip)
    (hpre : ∀ t ∈ tb, findClip cid t.clips = none)
    (htr : tr.clips = b ++ c :: a) (hb : ∀ x ∈ b, x.id ≠ cid) (hc : c.id = cid) :
    splitInsert cid fst snd (tb ++ tr :: ta) =
      tb ++ { tr with clips := b ++ fst :: snd :: a } :: ta := by
  induction tb with
  | nil =>
    rw [List.nil_append, splitInsert, htr, findClipSplit_of_decomp cid b c a hb hc]
    rfl
  | cons hd tl ih =>
    rw [List.cons_append, splitInsert]
    have : findClipSplit cid hd.clips = none := by
      have h1 := hpre hd (by simp)
      rw [findClip_eq_split] at h1
      cases hfs : findClipSplit cid hd.clips with
      | none => rfl
      | some p => rw [hfs] at h1; cases h1
    rw [this]
    rw [ih fun t ht => hpre t (by simp [ht])]
    rfl

theorem removeClipFromTracks_of_decomp (cid : Option Nat) (tb : List Track)
    (tr : Track) (ta : List Track) (b : List Clip) (c : Clip) (a : List Clip)
    (hpre : ∀ t ∈ tb, findClip cid t.clips = none)
    (htr : tr.clips = b ++ c :: a) (hb : ∀ x ∈ b, x.id ≠ cid) (hc : c.id = cid) :
    removeClipFromTracks cid (tb ++ tr :: ta) =
      some (tb ++ { tr with clips := b ++ a } :: ta) := by
  induction tb with
  | nil =>
    rw [List.nil_append, removeClipFromTracks, htr, findClipSplit_of_decomp cid b c a hb hc]
    rfl
  | cons hd tl ih =>
    rw [List.cons_append, removeClipFromTracks]
    have : findClipSplit cid hd.clips = none := by
      have h1 := hpre hd (by simp)
      rw [findClip_eq_split] at h1
      cases hfs : findClipSplit cid hd.clips with
      | none => rfl
      | some p => rw [hfs] at h1; cases h1
    rw [this]
    rw [ih fun t ht => hpre t (by simp [ht])]
    rfl

theorem getClipById_decomp (cid : Option Nat) (ts : List Track) (c : Clip)
    (h : getClipById ts cid = some c) :
    ∃ tb tr ta b a, ts = tb ++ tr :: ta ∧ (∀ t ∈ tb, findClip cid t.clips = none) ∧
      tr.clips = b ++ c :: a ∧ (∀ x ∈ b, x.id ≠ cid) ∧ c.id = cid := by
  induction ts with
  | nil => cases h
  | cons hd tl ih =>
    rw [getClipById] at h
    split at h
    · rename_i c' hfind
      cases h
      rw [findClip_eq_split] at hfind
      cases hfs : findClipSplit cid hd.clips with
      | none => rw [hfs] at hfind; cases hfind
      | some p =>
        rw [hfs] at hfind
        obtain ⟨pb, pc, pa⟩ := p
        obtain ⟨h1, h2, h3⟩ := findClipSplit_eq cid hd.clips pb pc pa hfs
        have hcc : pc = c := by simpa using hfind
        subst hcc
        exact ⟨[], hd, tl, pb, pa, rfl, by simp, h1, h3, h2⟩
    · rename_i hfind
      obtain ⟨tb, tr, ta, b, a, h1, h2, h3, h4, h5⟩ := ih h
      exact ⟨hd :: tb, tr, ta, b, a, by simp [h1], by
        intro t ht
        rcases List.mem_cons.mp ht with ht | ht
        · exact ht ▸ hfind
        · exact h2 t ht, h3, h4, h5⟩

theorem getClipById_none (cid : Option Nat) (ts : List Track)
    (h : getClipById ts cid = none) :
    (∀ tr ∈ ts, findClip cid tr.clips = none) ∧
      modifyClipInTracks cid (fun c => c) ts = ts ∧
      removeClipFromTracks cid ts = none ∧ getTrackByClipId ts cid = none := by
  induction ts with
  | nil => exact ⟨by simp, rfl, rfl, rfl⟩
  | cons hd tl ih =>
    rw [getClipById] at h
    split at h
    · cases h
    · rename_i hfind
      obtain ⟨ih1, ih2, ih3, ih4⟩ := ih h
      have hfs : findClipSplit cid hd.clips = none := by
        rw [findClip_eq_split] at hfind
        cases hx : findClipSplit cid hd.clips with
        | none => rfl
        | some p => rw [hx] at hfind; cases hfind
      refine ⟨?_, ?_, ?_, ?_⟩
      · intro t ht
        rcases List.mem_cons.mp ht with ht | ht
        · exact ht ▸ hfind
        · exact ih1 t ht
      · rw [modifyClipInTracks, modifyClipInList_eq_split, hfs, ih2]
        rfl
      · rw [removeClipFromTracks, hfs, ih3]
      · rw [getTrackByClipId, if_neg (by rw [hfind]; simp), ih4]

/-- The generic-`f` no-clip lemma (the `fun c => c` of `getClipById_none`
specialised away). -/
theorem modifyClipInTracks_none (cid : Option Nat) (f : Clip → Clip) (ts : List Track)
    (h : getClipById ts cid = none) : modifyClipInTracks cid f ts = ts := by
  induction ts with
  | nil => rfl
  | cons hd tl ih =>
    rw [getClipById] at h
    split at h
    · cases h
    · rename_i hfind
      have hfs : findClipSplit cid hd.clips = none := by
        rw [findClip_eq_split] at hfind
        cases hx : findClipSplit cid hd.clips with
        | none => rfl
        | some p => rw [hx] at hfind; cases hfind
      rw [modifyClipInTracks, modifyClipInList_eq_split, hfs, ih h]
      rfl

/-- Modifying the found clip with an id-preserving function is visible
through `getClipById`. -/
theorem getClipById_id (cid : Option Nat) (ts : List Track) (c : Clip)
    (h : getClipById ts cid = some c) : c.id = cid := by
  obtain ⟨_, _, _, _, _, _, _, _, _, hc⟩ := getClipById_decomp cid ts c h
  exact hc

theorem getClipById_modify (cid : Option Nat) (f : Clip → Clip) (ts : List Track) (c : Clip)
    (h : getClipById ts cid = some c) (hf : (f c).id = cid) :
    getClipById (modifyClipInTracks cid f ts) cid = some (f c) := by
  obtain ⟨tb, tr, ta, b, a, rfl, hpre, htr, hb, hc⟩ := getClipById_decomp cid ts c h
  rw [modifyClipInTracks_of_decomp cid f tb tr ta b c a hpre htr hb hc]
  exact getClipById_of_decomp cid tb _ ta b (f c) a hpre rfl hb hf

theorem findTrackSplit_none_of (tid : Nat) (ts : List Track)
    (h : ∀ tr ∈ ts, tr.id ≠ tid) : findTrackSplit tid ts = none := by
  induction ts with
  | nil => rfl
  | cons hd tl ih =>
    rw [findTrackSplit, if_neg (h hd (by simp)), ih fun tr htr => h tr (by simp [htr])]

theorem getClipById_none_of (cid : Option Nat) (ts : List Track)
    (h : ∀ tr ∈ ts, ∀ c ∈ tr.clips, c.id ≠ cid) : getClipById ts cid = none := by
  induction ts with
  | nil => rfl
  | cons hd tl ih =>
    rw [getClipById, (findClip_none_iff cid hd.clips).mpr (h hd (by simp))]
    exact ih fun tr htr => h tr (by simp [htr])

theorem saveHistory_tracks (s : EditorStore) : (saveHistory s).tracks = s.tracks := by
  simp only [saveHistory]
  split <;> rfl

theorem saveHistory_sel (s : EditorStore) :
    (saveHistory s).selectedClipIds = s.selectedClipIds := by
  simp only [saveHistory]
  split <;> rfl

theorem updateProjectDuration_tracks (s : EditorStore) :
    (updateProjectDuration s).tracks = s.tracks := rfl

theorem mem_snapPointsClips (excl : Option Nat) (cs : List Clip) (p : ℚ) :
    p ∈ snapPointsClips excl cs ↔
      ∃ c ∈ cs, c.id ≠ excl ∧ (p = c.startTime ∨ p = c.endTime) := by
  induction cs with
  | nil => simp [snapPointsClips]
  | cons hd tl ih =>
    rw [snapPointsClips]
    split
    · rename_i hid
      rw [ih]
      constructor
      · rintro ⟨c, hc, hne, hp⟩
        exact ⟨c, by simp [hc], hne, hp⟩
      · rintro ⟨c, hc, hne, hp⟩
        rcases List.mem_cons.mp hc with rfl | hc
        · exact absurd hid hne
        · exact ⟨c, hc, hne, hp⟩
    · rename_i hid
      simp only [List.mem_cons, ih]
      constructor
      · rintro (rfl | rfl | ⟨c, hc, hne, hp⟩)
        · exact ⟨hd, by simp, hid, Or.inl rfl⟩
        · exact ⟨hd, by simp, hid, Or.inr rfl⟩
        · exact ⟨c, by simp [hc], hne, hp⟩
      · rintro ⟨c, hc, hne, hp⟩
        rcases hc with rfl | hc
        · rcases hp with rfl | rfl
          · exact Or.inl rfl
          · exact Or.inr (Or.inl rfl)
        · exact Or.inr (Or.inr ⟨c, hc, hne, hp⟩)

theorem mem_snapPointsTracks (excl : Option Nat) (ts : List Track) (p : ℚ) :
    p ∈ snapPointsTracks excl ts ↔
      ∃ tr ∈ ts, ∃ c ∈ tr.clips, c.id ≠ excl ∧ (p = c.startTime ∨ p = c.endTime) := by
  induction ts with
  | nil => simp [snapPointsTracks]
  | cons hd tl ih =>
    rw [snapPointsTracks, List.mem_append, ih, mem_snapPointsClips]
    constructor
    · rintro (⟨c, hc, hne, hp⟩ | ⟨tr, htr, hrest⟩)
      · exact ⟨hd, by simp, c, hc, hne, hp⟩
      · exact ⟨tr, by simp [htr], hrest⟩
    · rintro ⟨tr, htr, hrest⟩
      rcases List.mem_cons.mp htr with rfl | htr
      · exact Or.inl hrest
      · exact Or.inr ⟨tr, htr, hrest⟩

theorem firstSnap_eq_none_of (t thr : ℚ) (l : List ℚ)
    (h : ∀ p ∈ l, ¬rabs (t - p) < thr) : firstSnap t thr l = none := by
  induction l with
  | nil => rfl
  | cons hd tl ih =>
    rw [firstSnap, if_neg (h hd (by simp)), ih fun p hp => h p (by simp [hp])]

theorem firstSnap_first (t thr : ℚ) (l₁ : List ℚ) (p : ℚ) (l₂ : List ℚ)
    (hp : rabs (t - p) < thr) (h₁ : ∀ q ∈ l₁, ¬rabs (t - q) < thr) :
    firstSnap t thr (l₁ ++ p :: l₂) = some p := by
  induction l₁ with
  | nil => rw [List.nil_append, firstSnap, if_pos hp]
  | cons hd tl ih =>
    rw [List.cons_append, firstSnap, if_neg (h₁ hd (by simp)),
      ih fun q hq => h₁ q (by simp [hq])]

theorem firstSnap_mem (t thr : ℚ) (l : List ℚ) (q : ℚ) (h : firstSnap t thr l = some q) :
    q ∈ l ∧ rabs (t - q) < thr := by
  induction l with
  | nil => cases h
  | cons hd tl ih =>
    rw [firstSnap] at h
    split at h
    · rename_i hlt
      cases h
      exact ⟨by simp, hlt⟩
    · obtain ⟨h1, h2⟩ := ih h
      exact ⟨by simp [h1], h2⟩

theorem firstSnap_isSome (t thr : ℚ) (l : List ℚ) (p : ℚ) (hp : p ∈ l)
    (hlt : rabs (t - p) < thr) : ∃ q, firstSnap t thr l = some q := by
  induction l with
  | nil => cases hp
  | cons hd tl ih =>
    rw [firstSnap]
    split
    · exact ⟨hd, rfl⟩
    · rename_i hno
      rcases List.mem_cons.mp hp with rfl | hp
      · exact absurd hlt hno
      · exact ih hp

theorem clamp01_of (v : ℚ) (h0 : 0 ≤ v) (h1 : v ≤ 1) : clamp01 v = v := by
  unfold clamp01 qmax qmin
  split_ifs <;> linarith

theorem applyInAnim_fade (ov : TextOverlay) (t : ℚ) (st : TextRenderState)
    (hty : ov.animationIn.type = TextAnimType.fade)
    (hwin : t - ov.startTime < ov.animationIn.duration) :
    applyInAnim ov t st =
      { st with alpha := st.alpha * clamp01 ((t - ov.startTime) / ov.animationIn.duration) } := by
  unfold applyInAnim
  rw [hty, if_neg (by simp), if_pos hwin]

theorem applyInAnim_scale (ov : TextOverlay) (t : ℚ) (st : TextRenderState)
    (hty : ov.animationIn.type = TextAnimType.scale)
    (hwin : t - ov.startTime < ov.animationIn.duration) :
    applyInAnim ov t st =
      { st with scaleX := clamp01 ((t - ov.startTime) / ov.animationIn.duration)
                scaleY := clamp01 ((t - ov.startTime) / ov.animationIn.duration) } := by
  unfold applyInAnim
  rw [hty, if_neg (by simp), if_pos hwin]

theorem applyOutAnim_fade (ov : TextOverlay) (t : ℚ) (st : TextRenderState)
    (hty : ov.animationOut.type = TextAnimType.fade)
    (hwin : ov.endTime - t < ov.animationOut.duration) :
    applyOutAnim ov t st =
      { st with alpha := st.alpha *
          (1 - clamp01 ((ov.animationOut.duration - (ov.endTime - t)) /
            ov.animationOut.duration)) } := by
  unfold applyOutAnim
  rw [hty, if_neg (by simp), if_pos hwin]

theorem applyOutAnim_scale (ov : TextOverlay) (t : ℚ) (st : TextRenderState)
    (hty : ov.animationOut.type = TextAnimType.scale)
    (hwin : ov.endTime - t < ov.animationOut.duration) :
    applyOutAnim ov t st =
      { st with
          scaleX := 1 - clamp01 ((ov.animationOut.duration - (ov.endTime - t)) /
            ov.animationOut.duration)
          scaleY := 1 - clamp01 ((ov.animationOut.duration - (ov.endTime - t)) /
            ov.animationOut.duration) } := by
  unfold applyOutAnim
  rw [hty, if_neg (by simp), if_pos hwin]

theorem applyInAnim_slide (ov : TextOverlay) (t : ℚ) (st : TextRenderState)
    (hty : ov.animationIn.type = TextAnimType.slide)
    (hwin : t - ov.startTime < ov.animationIn.duration) :
    applyInAnim ov t st =
      { st with y := st.y +
          (1 - clamp01 ((t - ov.startTime) / ov.animationIn.duration)) * 50 } := by
  unfold applyInAnim
  rw [hty, if_neg (by simp), if_pos hwin]

theorem applyOutAnim_slide (ov : TextOverlay) (t : ℚ) (st : TextRenderState)
    (hty : ov.animationOut.type = TextAnimType.slide)
    (hwin : ov.endTime - t < ov.animationOut.duration) :
    applyOutAnim ov t st =
      { st with y := st.y -
          clamp01 ((ov.animationOut.duration - (ov.endTime - t)) /
            ov.animationOut.duration) * 50 } := by
  unfold applyOutAnim
  rw [hty, if_neg (by simp), if_pos hwin]

theorem tracksExtend_refl (ts : List Track) : TracksExtend ts ts := by
  induction ts with
  | nil => trivial
  | cons hd tl ih => exact ⟨⟨rfl, rfl, rfl, [], by simp⟩, ih⟩

theorem tracksExtend_trans (t1 t2 t3 : List Track) (h12 : TracksExtend t1 t2)
    (h23 : TracksExtend t2 t3) : TracksExtend t1 t3 := by
  induction t1 generalizing t2 t3 with
  | nil =>
    cases t2 with
    | nil => cases t3 with
      | nil => trivial
      | cons _ _ => exact absurd h23 (by simp [TracksExtend])
    | cons _ _ => exact absurd h12 (by simp [TracksExtend])
  | cons hd tl ih =>
    cases t2 with
    | nil => exact absurd h12 (by simp [TracksExtend])
    | cons hd2 tl2 =>
      cases t3 with
      | nil => exact absurd h23 (by simp [TracksExtend])
      | cons hd3 tl3 =>
        obtain ⟨⟨hid12, hty12, hlk12, l12, hcl12⟩, htl12⟩ := h12
        obtain ⟨⟨hid23, hty23, hlk23, l23, hcl23⟩, htl23⟩ := h23
        exact ⟨⟨hid12.trans hid23, hty12.trans hty23, hlk12.trans hlk23, l12 ++ l23, by
          rw [hcl23, hcl12, List.append_assoc]⟩, ih tl2 tl3 htl12 htl23⟩

theorem tracksExtend_mid (xs ys : List Track) (tr tr' : Track)
    (hid : tr.id = tr'.id) (hty : tr.type = tr'.type) (hlk : tr.isLocked = tr'.isLocked)
    (hcl : ∃ l, tr'.clips = tr.clips ++ l) :
    TracksExtend (xs ++ tr :: ys) (xs ++ tr' :: ys) := by
  induction xs with
  | nil => exact ⟨⟨hid, hty, hlk, hcl⟩, tracksExtend_refl ys⟩
  | cons hd tl ih => exact ⟨⟨rfl, rfl, rfl, [], by simp⟩, ih⟩

theorem tracksExtend_findType (ty : TrackType) (ts ts' : List Track)
    (h : TracksExtend ts ts') :
    (findTrackOfType ty ts = none → findTrackOfType ty ts' = none) ∧
      ∀ tr, findTrackOfType ty ts = some tr →
        ∃ tr', findTrackOfType ty ts' = some tr' ∧ tr.id = tr'.id ∧
          tr.isLocked = tr'.isLocked := by
  induction ts generalizing ts' with
  | nil =>
    cases ts' with
    | nil => exact ⟨fun _ => rfl, fun tr htr => by cases htr⟩
    | cons _ _ => exact absurd h (by simp [TracksExtend])
  | cons hd tl ih =>
    cases ts' with
    | nil => exact absurd h (by simp [TracksExtend])
    | cons hd' tl' =>
      obtain ⟨⟨hid, hty, hlk, _, _⟩, htl⟩ := h
      constructor
      · intro hnone
        rw [findTrackOfType] at hnone
        rw [findTrackOfType]
        split at hnone
        · cases hnone
        · rename_i hne
          rw [if_neg (hty ▸ hne)]
          exact (ih tl' htl).1 hnone
      · intro tr htr
        rw [findTrackOfType] at htr
        rw [findTrackOfType]
        split at htr
        · rename_i heq
          cases htr
          rw [if_pos (hty ▸ heq)]
          exact ⟨hd', rfl, hid, hlk⟩
        · rename_i hne
          rw [if_neg (hty ▸ hne)]
          exact (ih tl' htl).2 tr htr

theorem tracksExtend_mem (tid : Nat) (c : Clip) (ts ts' : List Track)
    (h : TracksExtend ts ts') (hmem : ∃ tr ∈ ts, tr.id = tid ∧ c ∈ tr.clips) :
    ∃ tr' ∈ ts', tr'.id = tid ∧ c ∈ tr'.clips := by
  induction ts generalizing ts' with
  | nil => obtain ⟨tr, htr, _⟩ := hmem; cases htr
  | cons hd tl ih =>
    cases ts' with
    | nil => exact absurd h (by simp [TracksExtend])
    | cons hd' tl' =>
      obtain ⟨⟨hid, _, _, l, hcl⟩, htl⟩ := h
      obtain ⟨tr, htr, hrid, hrc⟩ := hmem
      rcases List.mem_cons.mp htr with rfl | htr
      · exact ⟨hd', by simp, hid ▸ hrid, by rw [hcl]; exact List.mem_append_left l hrc⟩
      · obtain ⟨tr', htr', h1, h2⟩ := ih tl' htl ⟨tr, htr, hrid, hrc⟩
        exact ⟨tr', by simp [htr'], h1, h2⟩

theorem findTrackOfType_mem (ty : TrackType) (ts : List Track) (tr : Track)
    (h : findTrackOfType ty ts = some tr) : tr ∈ ts ∧ tr.type = ty := by
  induction ts with
  | nil => cases h
  | cons hd tl ih =>
    rw [findTrackOfType] at h
    split at h
    · rename_i heq
      cases h
      exact ⟨by simp, heq⟩
    · obtain ⟨h1, h2⟩ := ih h
      exact ⟨by simp [h1], h2⟩

theorem findTrackSplit_of_mem (tr : Track) (ts : List Track) (hmem : tr ∈ ts) :
    ∃ b x a, findTrackSplit tr.id ts = some (b, x, a) ∧ x.id = tr.id := by
  induction ts with
  | nil => cases hmem
  | cons hd tl ih =>
    by_cases hid : hd.id = tr.id
    · exact ⟨[], hd, tl, by rw [findTrackSplit, if_pos hid], hid⟩
    · rcases List.mem_cons.mp hmem with rfl | hmem
      · exact absurd rfl hid
      · obtain ⟨b, x, a, hsplit, hx⟩ := ih hmem
        exact ⟨hd :: b, x, a, by rw [findTrackSplit, if_neg hid, hsplit], hx⟩

theorem addClip_eq (s : EditorStore) (tid : Nat) (d : PartialClip) (b : List Track)
    (track : Track) (a : List Track) (hsplit : findTrackSplit tid s.tracks = some (b, track, a)) :
    addClip s tid d =
      (saveHistory (updateProjectDuration
        { s with nextId := s.nextId + 1
                 tracks := b ++ { track with
                   clips := track.clips ++ [builtClip s tid track.type d] } :: a }),
       some (builtClip s tid track.type d)) := by
  unfold addClip
  rw [hsplit]

theorem totalClips_append (xs ys : List Track) :
    totalClips (xs ++ ys) = totalClips xs + totalClips ys := by
  induction xs with
  | nil => simp [totalClips]
  | cons hd tl ih => rw [List.cons_append, totalClips, totalClips, ih]; ring

theorem addClip_count (s : EditorStore) (tid : Nat) (d : PartialClip) (b : List Track)
    (track : Track) (a : List Track) (hsplit : findTrackSplit tid s.tracks = some (b, track, a)) :
    totalClips (addClip s tid d).1.tracks = totalClips s.tracks + 1 := by
  obtain ⟨hts, _, _⟩ := findTrackSplit_eq tid s.tracks b track a hsplit
  rw [addClip_eq s tid d b track a hsplit]
  dsimp only
  rw [saveHistory_tracks, updateProjectDuration_tracks]
  show totalClips (b ++ _ :: a) = _
  rw [hts, totalClips_append, totalClips_append, totalClips, totalClips]
  simp only [List.length_append, List.length_cons, List.length_nil]
  ring

theorem addClip_extend (s : EditorStore) (tid : Nat) (d : PartialClip) :
    TracksExtend s.tracks (addClip s tid d).1.tracks := by
  cases hsplit : findTrackSplit tid s.tracks with
  | none =>
    unfold addClip
    rw [hsplit]
    exact tracksExtend_refl s.tracks
  | some p =>
    obtain ⟨b, track, a⟩ := p
    obtain ⟨hts, _, _⟩ := findTrackSplit_eq tid s.tracks b track a hsplit
    rw [addClip_eq s tid d b track a hsplit]
    dsimp only
    rw [saveHistory_tracks, updateProjectDuration_tracks]
    show TracksExtend s.tracks (b ++ _ :: a)
    rw [hts]
    exact tracksExtend_mid b a track _ rfl rfl rfl ⟨_, rfl⟩

theorem eligibleCount_extend (ts ts' : List Track) (h : TracksExtend ts ts')
    (cb : List Clip) : eligibleCount ts cb = eligibleCount ts' cb := by
  induction cb with
  | nil => rfl
  | cons c rest ih =>
    rw [eligibleCount, eligibleCount, ih]
    congr 1
    cases hfind : findTrackOfType c.type ts with
    | none => rw [(tracksExtend_findType c.type ts ts' h).1 hfind]
    | some tr =>
      obtain ⟨tr', hfind', _, hlk⟩ := (tracksExtend_findType c.type ts ts' h).2 tr hfind
      rw [hfind']
      dsimp only
      rw [hlk]

theorem pasteLoop_extend (pt m : ℚ) (cb : List Clip) (s : EditorStore) :
    TracksExtend s.tracks (pasteLoop pt m cb s).tracks := by
  induction cb generalizing s with
  | nil => exact tracksExtend_refl s.tracks
  | cons c rest ih =>
    rw [pasteLoop]
    refine tracksExtend_trans s.tracks _ _ ?_ (ih _)
    cases hfind : findTrackOfType c.type s.tracks with
    | none => exact tracksExtend_refl s.tracks
    | some tr =>
      dsimp only
      by_cases hlk : tr.isLocked = true
      · rw [if_pos hlk]
        exact tracksExtend_refl s.tracks
      · rw [if_neg hlk]
        exact addClip_extend s tr.id (pasteData pt m c)

theorem addClip_clips (s : EditorStore) (tid : Nat) (d : PartialClip) (b : List Track)
    (track : Track) (a : List Track)
    (hsplit : findTrackSplit tid s.tracks = some (b, track, a)) :
    ∀ tr1 ∈ (addClip s tid d).1.tracks, ∀ c1 ∈ tr1.clips,
      (∃ tr ∈ s.tracks, c1 ∈ tr.clips) ∨ c1 = builtClip s tid track.type d := by
  obtain ⟨hts, _, _⟩ := findTrackSplit_eq tid s.tracks b track a hsplit
  rw [addClip_eq s tid d b track a hsplit]
  dsimp only
  rw [saveHistory_tracks, updateProjectDuration_tracks]
  intro tr1 htr1 c1 hc1
  show (∃ tr ∈ s.tracks, c1 ∈ tr.clips) ∨ _
  rw [hts]
  rcases List.mem_append.mp htr1 with hmem | hmem
  · exact Or.inl ⟨tr1, List.mem_append_left _ hmem, hc1⟩
  · rcases List.mem_cons.mp hmem with rfl | hmem
    · rcases List.mem_append.mp hc1 with hcl | hcl
      · exact Or.inl ⟨track, List.mem_append_right _ (by simp), hcl⟩
      · exact Or.inr (by simpa using hcl)
    · exact Or.inl ⟨tr1, List.mem_append_right _ (by simp [hmem]), hc1⟩

theorem pasteLoop_mem (pt m : ℚ) (cb : List Clip) (s : EditorStore) (c : Clip)
    (hc : c ∈ cb) (tr : Track) (htr : findTrackOfType c.type s.tracks = some tr)
    (hlk : tr.isLocked = false) :
    ∃ tr' ∈ (pasteLoop pt m cb s).tracks, tr'.id = tr.id ∧ pastedClip pt m c ∈ tr'.clips := by
  induction cb generalizing s tr with
  | nil => cases hc
  | cons d rest ih =>
    rw [pasteLoop]
    rcases List.mem_cons.mp hc with rfl | hc
    · rw [htr]
      dsimp only
      rw [if_neg (by rw [hlk]; exact Bool.false_ne_true)]
      obtain ⟨b, x, a, hsplit, hxid⟩ :=
        findTrackSplit_of_mem tr s.tracks (findTrackOfType_mem c.type s.tracks tr htr).1
      have hmem1 : ∃ tr1 ∈ (addClip s tr.id (pasteData pt m c)).1.tracks,
          tr1.id = tr.id ∧ pastedClip pt m c ∈ tr1.clips := by
        rw [addClip_eq s tr.id _ b x a hsplit]
        dsimp only
        rw [saveHistory_tracks, updateProjectDuration_tracks]
        refine ⟨{ x with clips := x.clips ++ [builtClip s tr.id x.type (pasteData pt m c)] },
          by simp, hxid, ?_⟩
        have hbuilt : builtClip s tr.id x.type (pasteData pt m c) = pastedClip pt m c := rfl
        rw [hbuilt]
        simp
      exact tracksExtend_mem tr.id _ _ _ (pasteLoop_extend pt m rest _) hmem1
    · have hstep : TracksExtend s.tracks
          ((match findTrackOfType d.type s.tracks with
            | some track =>
              if track.isLocked then s else (addClip s track.id (pasteData pt m d)).1
            | none => s)).tracks := by
        cases hfind : findTrackOfType d.type s.tracks with
        | none => exact tracksExtend_refl s.tracks
        | some t2 =>
          dsimp only
          by_cases hl : t2.isLocked = true
          · rw [if_pos hl]
            exact tracksExtend_refl s.tracks
          · rw [if_neg hl]
            exact addClip_extend s t2.id (pasteData pt m d)
      obtain ⟨tr1, hfind1, hid1, hlk1⟩ := (tracksExtend_findType c.type _ _ hstep).2 tr htr
      obtain ⟨tr', htr', hid', hmem'⟩ := ih _ hc tr1 hfind1 (by rw [← hlk1, hlk])
      exact ⟨tr', htr', hid'.trans hid1.symm, hmem'⟩

theorem pasteLoop_ids (pt m : ℚ) (cb : List Clip) (s : EditorStore) :
    ∀ tr' ∈ (pasteLoop pt m cb s).tracks, ∀ c' ∈ tr'.clips,
      (∃ tr ∈ s.tracks, c' ∈ tr.clips) ∨ c'.id = none := by
  induction cb generalizing s with
  | nil => exact fun tr' htr' c' hc' => Or.inl ⟨tr', htr', hc'⟩
  | cons d rest ih =>
    rw [pasteLoop]
    intro tr' htr' c' hc'
    have hstepids : ∀ tr1 ∈
        ((match findTrackOfType d.type s.tracks with
          | some track =>
            if track.isLocked then s else (addClip s track.id (pasteData pt m d)).1
          | none => s)).tracks, ∀ c1 ∈ tr1.clips,
          (∃ tr ∈ s.tracks, c1 ∈ tr.clips) ∨ c1.id = none := by
      cases hfind : findTrackOfType d.type s.tracks with
      | none => exact fun tr1 htr1 c1 hc1 => Or.inl ⟨tr1, htr1, hc1⟩
      | some t2 =>
        dsimp only
        by_cases hl : t2.isLocked = true
        · rw [if_pos hl]
          exact fun tr1 htr1 c1 hc1 => Or.inl ⟨tr1, htr1, hc1⟩
        · rw [if_neg hl]
          intro tr1 htr1 c1 hc1
          obtain ⟨b, x, a, hsplit, _⟩ :=
            findTrackSplit_of_mem t2 s.tracks (findTrackOfType_mem d.type s.tracks t2 hfind).1
          rcases addClip_clips s t2.id (pasteData pt m d) b x a hsplit tr1 htr1 c1 hc1 with
            hmem | hbuilt
          · exact Or.inl hmem
          · exact Or.inr (by rw [hbuilt]; rfl)
    rcases ih _ tr' htr' c' hc' with ⟨tr1, htr1, hc1⟩ | hnone
    · exact hstepids tr1 htr1 c' hc1
    · exact Or.inr hnone

theorem pasteLoop_count (pt m : ℚ) (cb : List Clip) (s : EditorStore) :
    totalClips (pasteLoop pt m cb s).tracks =
      totalClips s.tracks + eligibleCount s.tracks cb := by
  induction cb generalizing s with
  | nil =>
    rw [pasteLoop, eligibleCount]
    omega
  | cons d rest ih =>
    rw [pasteLoop, eligibleCount]
    cases hfind : findTrackOfType d.type s.tracks with
    | none =>
      dsimp only
      rw [ih]
      omega
    | some t2 =>
      dsimp only
      by_cases hl : t2.isLocked = true
      · rw [if_pos hl, if_pos hl, ih]
        omega
      · rw [if_neg hl, if_neg hl, ih]
        obtain ⟨b, x, a, hsplit, _⟩ :=
          findTrackSplit_of_mem t2 s.tracks (findTrackOfType_mem d.type s.tracks t2 hfind).1
        rw [addClip_count s t2.id (pasteData pt m d) b x a hsplit,
          ← eligibleCount_extend s.tracks _ (addClip_extend s t2.id (pasteData pt m d)) rest]
        omega

theorem qmin_le_left (a b : ℚ) : qmin a b ≤ a := by
  unfold qmin
  split_ifs <;> linarith

theorem qmin_le_right (a b : ℚ) : qmin a b ≤ b := by
  unfold qmin
  split_ifs <;> linarith

theorem qmin_cases (a b : ℚ) : qmin a b = a ∨ qmin a b = b := by
  unfold qmin
  split_ifs with h
  · exact Or.inl rfl
  · exact Or.inr rfl

theorem minStart_le (cb : List Clip) (c : Clip) (hc : c ∈ cb) :
    minStart cb ≤ c.startTime := by
  induction cb with
  | nil => cases hc
  | cons hd tl ih =>
    cases tl with
    | nil =>
      rcases List.mem_cons.mp hc with rfl | hc
      · exact le_refl _
      · cases hc
    | cons h2 t2 =>
      rcases List.mem_cons.mp hc with rfl | hc
      · exact qmin_le_left _ _
      · exact le_trans (qmin_le_right _ _) (ih hc)

theorem minStart_mem (cb : List Clip) (h : cb ≠ []) :
    ∃ c ∈ cb, minStart cb = c.startTime := by
  induction cb with
  | nil => exact absurd rfl h
  | cons hd tl ih =>
    cases tl with
    | nil => exact ⟨hd, by simp, rfl⟩
    | cons h2 t2 =>
      rcases qmin_cases hd.startTime (minStart (h2 :: t2)) with hq | hq
      · exact ⟨hd, by simp, hq⟩
      · obtain ⟨c, hc, hm⟩ := ih (by simp)
        exact ⟨c, by simp [List.mem_cons.mp hc], hq.trans hm⟩

theorem saveHistory_spec (s : EditorStore) (h0 : 0 ≤ s.historyIndex)
    (hcap : s.historyIndex ≤ 48) :
    (saveHistory s).historyIndex = s.historyIndex + 1 ∧
      (saveHistory s).history =
        s.history.take (s.historyIndex + 1).toNat ++ [⟨s.tracks, s.selectedClipIds⟩] ∧
      (saveHistory s).tracks = s.tracks ∧
      (saveHistory s).selectedClipIds = s.selectedClipIds := by
  have h2 := List.length_take_le (s.historyIndex + 1).toNat s.history
  have hlen : ¬(s.history.take (s.historyIndex + 1).toNat ++
      [(⟨s.tracks, s.selectedClipIds⟩ : HistoryState)]).length > maxHistorySize := by
    rw [List.length_append]
    simp only [List.length_cons, List.length_nil, maxHistorySize]
    have h1 : (s.historyIndex + 1).toNat ≤ 49 := by omega
    omega
  simp only [saveHistory]
  rw [if_neg hlen]
  exact ⟨rfl, rfl, rfl, rfl⟩

theorem applyOp_snap (op : EditOp) (s : EditorStore) (hop : snapOnce op s = true) :
    ∃ t sel pd d n, applyOp op s =
      saveHistory
        { s with projectDuration := pd, duration := d, tracks := t,
                 selectedClipIds := sel, nextId := n } := by
  cases op with
  | addTrack ty nm => exact ⟨_, s.selectedClipIds, s.projectDuration, s.duration, _, rfl⟩
  | removeTrack tid =>
    simp only [snapOnce] at hop
    cases hsplit : findTrackSplit tid s.tracks with
    | none => rw [hsplit] at hop; cases hop
    | some p =>
      obtain ⟨b, tr, a⟩ := p
      refine ⟨b ++ a, removeClipsSel s.selectedClipIds tr.clips, s.projectDuration,
        s.duration, s.nextId, ?_⟩
      show removeTrack s tid = _
      unfold removeTrack
      rw [hsplit]
  | addClip tid d =>
    simp only [snapOnce] at hop
    cases hsplit : findTrackSplit tid s.tracks with
    | none => rw [hsplit] at hop; cases hop
    | some p =>
      obtain ⟨b, track, a⟩ := p
      refine ⟨b ++ { track with clips := track.clips ++ [builtClip s tid track.type d] } :: a,
        s.selectedClipIds,
        maxEndTracks 0
          (b ++ { track with clips := track.clips ++ [builtClip s tid track.type d] } :: a),
        if maxEndTracks 0
            (b ++ { track with clips := track.clips ++ [builtClip s tid track.type d] } :: a) >
            s.duration then
          maxEndTracks 0
            (b ++ { track with clips := track.clips ++ [builtClip s tid track.type d] } :: a)
        else s.duration,
        s.nextId + 1, ?_⟩
      show (addClip s tid d).1 = _
      rw [addClip_eq s tid d b track a hsplit]
      rfl
  | removeClip cid =>
    simp only [snapOnce] at hop
    cases hrem : removeClipFromTracks cid s.tracks with
    | none => rw [hrem] at hop; cases hop
    | some ts =>
      refine ⟨ts, removeFirstId cid s.selectedClipIds, maxEndTracks 0 ts,
        if maxEndTracks 0 ts > s.duration then maxEndTracks 0 ts else s.duration,
        s.nextId, ?_⟩
      show removeClip s cid = _
      unfold removeClip
      rw [hrem]
      rfl
  | splitClip cid t =>
    simp only [snapOnce] at hop
    cases hget : getClipById s.tracks cid with
    | none => rw [hget] at hop; cases hop
    | some c =>
      rw [hget, Bool.and_eq_true, decide_eq_true_eq, decide_eq_true_eq] at hop
      obtain ⟨h1, h2⟩ := hop
      obtain ⟨tb, tr, ta, b, a, hts, hpre, htr, hb, hcid⟩ :=
        getClipById_decomp cid s.tracks c hget
      have htrk : getTrackByClipId s.tracks cid = some tr := by
        rw [hts]
        exact getTrackByClipId_of_decomp cid tb tr ta b c a hpre htr hb hcid
      refine ⟨splitInsert cid (splitFirstClip c t) (splitSecondClip c t s.nextId) s.tracks,
        s.selectedClipIds, s.projectDuration, s.duration, s.nextId + 1, ?_⟩
      show (splitClip s cid t).1 = _
      unfold splitClip
      simp only [hget, htrk]
      rw [if_neg (by push_neg; exact ⟨h1, h2⟩)]
  | updateClip cid u => simp [snapOnce] at hop
  | moveClip cid t ntid => simp [snapOnce] at hop
  | trimClipStart cid t => simp [snapOnce] at hop
  | trimClipEnd cid t => simp [snapOnce] at hop
  | selectClip cid b => simp [snapOnce] at hop
  | deselectClip cid => simp [snapOnce] at hop
  | deselectAll => simp [snapOnce] at hop
  | selectAllClips => simp [snapOnce] at hop
  | copySelectedClips => simp [snapOnce] at hop
  | pasteClips => simp [snapOnce] at hop
  | duplicateSelectedClips => simp [snapOnce] at hop
  | deleteSelectedClips => simp [snapOnce] at hop
  | undo => simp [snapOnce] at hop
  | redo => simp [snapOnce] at hop
  | updateTime t => simp [snapOnce] at hop

theorem snapStep (op : EditOp) (s : EditorStore) (hop : snapOnce op s = true)
    (hsteady : Steady s) (hcap : s.historyIndex ≤ 48) :
    Steady (applyOp op s) ∧
      (applyOp op s).historyIndex = s.historyIndex + 1 ∧
      ∀ j : Nat, j ≤ s.historyIndex.toNat →
        (applyOp op s).history.get? j = s.history.get? j := by
  obtain ⟨t, sel, pd, d, n, heq⟩ := applyOp_snap op s hop
  obtain ⟨h0, hmir⟩ := hsteady
  have hlen : s.historyIndex.toNat < s.history.length := by
    obtain ⟨hlt, _⟩ := List.get?_eq_some.mp hmir
    exact hlt
  obtain ⟨hi, hh, ht, hs⟩ :=
    saveHistory_spec
      { s with projectDuration := pd, duration := d, tracks := t,
               selectedClipIds := sel, nextId := n } h0 hcap
  rw [heq]
  have htakelen : (s.history.take (s.historyIndex + 1).toNat).length =
      (s.historyIndex + 1).toNat := by
    rw [List.length_take]
    omega
  refine ⟨?_, hi, ?_⟩
  · unfold Steady
    constructor
    · rw [hi]
      show (0 : Int) ≤ s.historyIndex + 1
      omega
    · rw [hh, ht, hs, hi]
      show (s.history.take (s.historyIndex + 1).toNat ++
          [(⟨t, sel⟩ : HistoryState)]).get? ((s.historyIndex + 1).toNat) = _
      rw [List.get?_append_right (by omega), htakelen, Nat.sub_self]
      rfl
  · intro j hj
    rw [hh]
    show (s.history.take (s.historyIndex + 1).toNat ++
        [(⟨t, sel⟩ : HistoryState)]).get? j = _
    rw [List.get?_append (by omega), List.get?_take (by omega)]

theorem snapSeq_spec (ops : List EditOp) (s : EditorStore) (hseq : SnapSeq ops s = true)
    (hsteady : Steady s) (hcap : s.historyIndex + ops.length ≤ 49) :
    Steady (applyOps ops s) ∧
      (applyOps ops s).historyIndex = s.historyIndex + ops.length ∧
      ∀ j : Nat, j ≤ s.historyIndex.toNat →
        (applyOps ops s).history.get? j = s.history.get? j := by
  induction ops generalizing s with
  | nil => exact ⟨hsteady, by simp [applyOps], fun j hj => rfl⟩
  | cons op rest ih =>
    rw [SnapSeq, Bool.and_eq_true] at hseq
    obtain ⟨hop, hrest⟩ := hseq
    have hlcons : ((op :: rest).length : Int) = (rest.length : Int) + 1 := by
      simp
    have hcap1 : s.historyIndex ≤ 48 := by omega
    obtain ⟨hst1, hidx1, hpre1⟩ := snapStep op s hop hsteady hcap1
    rw [applyOps]
    obtain ⟨hstf, hidxf, hpref⟩ :=
      ih (applyOp op s) hrest hst1 (by rw [hidx1]; omega)
    obtain ⟨h0, _⟩ := hsteady
    refine ⟨hstf, by rw [hidxf, hidx1]; omega, ?_⟩
    intro j hj
    rw [hpref j (by rw [hidx1]; omega), hpre1 j hj]

theorem iterUndo_spec (n : Nat) (u : EditorStore) (hn : (n : Int) ≤ u.historyIndex)
    (hlen : u.historyIndex.toNat < u.history.length)
    (hmir : u.history.get? u.historyIndex.toNat = some ⟨u.tracks, u.selectedClipIds⟩) :
    (iterUndo n u).history = u.history ∧
      (iterUndo n u).historyIndex = u.historyIndex - n ∧
      ∀ e, u.history.get? (u.historyIndex - n).toNat = some e →
        (iterUndo n u).tracks = e.tracks ∧
        (iterUndo n u).selectedClipIds = e.selectedClipIds := by
  induction n generalizing u with
  | zero =>
    refine ⟨rfl, by simp [iterUndo], ?_⟩
    intro e he
    rw [show u.historyIndex - ((0 : Nat) : Int) = u.historyIndex by omega, hmir] at he
    cases he
    exact ⟨rfl, rfl⟩
  | succ k ih =>
    have hpos : 0 < u.historyIndex := by omega
    have hlt1 : (u.historyIndex - 1).toNat < u.history.length := by omega
    have hget : ∃ e, u.history.get? (u.historyIndex - 1).toNat = some e := by
      cases hx : u.history.get? (u.historyIndex - 1).toNat with
      | none =>
        have := List.get?_eq_none.mp hx
        omega
      | some e => exact ⟨e, rfl⟩
    obtain ⟨e, he⟩ := hget
    have hundo : undo u =
        { u with historyIndex := u.historyIndex - 1, tracks := e.tracks,
                 selectedClipIds := e.selectedClipIds } := by
      unfold undo
      rw [if_pos hpos, he]
    rw [iterUndo]
    obtain ⟨hh, hi, hrest⟩ :=
      ih (undo u) (by rw [hundo]; show (k : Int) ≤ u.historyIndex - 1; omega)
        (by rw [hundo]; exact hlt1)
        (by rw [hundo]; exact he)
    refine ⟨by rw [hh, hundo], ?_, ?_⟩
    · rw [hi, hundo]
      show u.historyIndex - 1 - (k : Int) = _
      omega
    intro e' he'
    refine hrest e' ?_
    rw [hundo]
    show u.history.get? (u.historyIndex - 1 - (k : Int)).toNat = some e'
    rw [show u.historyIndex - 1 - (k : Int) = u.historyIndex - ((k : Int) + 1) by omega]
    rw [show u.historyIndex - (((k + 1 : Nat)) : Int) = u.historyIndex - ((k : Int) + 1)
      by omega] at he'
    exact he'

theorem iterRedo_spec (n : Nat) (u : EditorStore) (h0 : 0 ≤ u.historyIndex)
    (hlen : (u.historyIndex + n).toNat < u.history.length)
    (hmir : u.history.get? u.historyIndex.toNat = some ⟨u.tracks, u.selectedClipIds⟩) :
    (iterRedo n u).history = u.history ∧
      (iterRedo n u).historyIndex = u.historyIndex + n ∧
      ∀ e, u.history.get? (u.historyIndex + n).toNat = some e →
        (iterRedo n u).tracks = e.tracks ∧
        (iterRedo n u).selectedClipIds = e.selectedClipIds := by
  induction n generalizing u with
  | zero =>
    refine ⟨rfl, by simp [iterRedo], ?_⟩
    intro e he
    rw [show u.historyIndex + ((0 : Nat) : Int) = u.historyIndex by omega, hmir] at he
    cases he
    exact ⟨rfl, rfl⟩
  | succ k ih =>
    have hcond : u.historyIndex < (u.history.length : Int) - 1 := by omega
    have hlt1 : (u.historyIndex + 1).toNat < u.history.length := by omega
    have hget : ∃ e, u.history.get? (u.historyIndex + 1).toNat = some e := by
      cases hx : u.history.get? (u.historyIndex + 1).toNat with
      | none =>
        have := List.get?_eq_none.mp hx
        omega
      | some e => exact ⟨e, rfl⟩
    obtain ⟨e, he⟩ := hget
    have hredo : redo u =
        { u with historyIndex := u.historyIndex + 1, tracks := e.tracks,
                 selectedClipIds := e.selectedClipIds } := by
      unfold redo
      rw [if_pos hcond, he]
    rw [iterRedo]
    obtain ⟨hh, hi, hrest⟩ :=
      ih (redo u) (by rw [hredo]; show (0 : Int) ≤ u.historyIndex + 1; omega)
        (by rw [hredo]; show (u.historyIndex + 1 + (k : Int)).toNat < u.history.length; omega)
        (by rw [hredo]; exact he)
    refine ⟨by rw [hh, hredo], ?_, ?_⟩
    · rw [hi, hredo]
      show u.historyIndex + 1 + (k : Int) = _
      omega
    intro e' he'
    refine hrest e' ?_
    rw [hredo]
    show u.history.get? (u.historyIndex + 1 + (k : Int)).toNat = some e'
    rw [show u.historyIndex + 1 + (k : Int) = u.historyIndex + ((k : Int) + 1) by omega]
    rw [show u.historyIndex + (((k + 1 : Nat)) : Int) = u.historyIndex + ((k : Int) + 1)
      by omega] at he'
    exact he'

/-! ### The claims -/

/-- C10 (amended): `undo` and `redo` modify only the tracks, the
selectedClipIds set and the history cursor `historyIndex`; in particular
the clipboard contents, the playhead time, the playing flag, the timeline
zoom and the aspect ratio — and likewise the history list itself, the
project duration, the media duration, the active track, the snapping
settings and the fresh-id counter — are unchanged by every undo or redo
call. -/
theorem C10_undo_redo_frame (s : EditorStore) :
    (undo s).clipboard = s.clipboard ∧ (undo s).currentTime = s.currentTime ∧
    (undo s).isPlaying = s.isPlaying ∧ (undo s).timelineZoom = s.timelineZoom ∧
    (undo s).aspectRatio = s.aspectRatio ∧ (undo s).history = s.history ∧
    (undo s).projectDuration = s.projectDuration ∧ (undo s).duration = s.duration ∧
    (undo s).selectedTrackId = s.selectedTrackId ∧
    (undo s).isSnappingEnabled = s.isSnappingEnabled ∧
    (undo s).snapThreshold = s.snapThreshold ∧ (undo s).nextId = s.nextId ∧
    (redo s).clipboard = s.clipboard ∧ (redo s).currentTime = s.currentTime ∧
    (redo s).isPlaying = s.isPlaying ∧ (redo s).timelineZoom = s.timelineZoom ∧
    (redo s).aspectRatio = s.aspectRatio ∧ (redo s).history = s.history ∧
    (redo s).projectDuration = s.projectDuration ∧ (redo s).duration = s.duration ∧
    (redo s).selectedTrackId = s.selectedTrackId ∧
    (redo s).isSnappingEnabled = s.isSnappingEnabled ∧
    (redo s).snapThreshold = s.snapThreshold ∧ (redo s).nextId = s.nextId := by
  obtain ⟨t1, l1, i1, h1⟩ := undo_shape s
  obtain ⟨t2, l2, i2, h2⟩ := redo_shape s
  rw [h1, h2]
  repeat' constructor

/-- C10 counterexample: on a store whose cursor sits on the second of two
history entries, `undo` changes `historyIndex`, so `undo` does not modify
only the tracks and the selection as literally claimed. -/
theorem C10_counterexample :
    (undo exTwoEntries).historyIndex ≠ exTwoEntries.historyIndex := by decide

/-- C6 (amended): for every clip, `trimClipStart` leaves `endTime`
unchanged, shifts `sourceStartTime` by exactly the applied start-time
delta and recomputes `duration = endTime - startTime`; and whenever the
clip is at least the 0.1-second minimum long (so the clamp interval
`[0, endTime - 0.1]` is nonempty), the new start lies in that interval, an
in-range request is applied exactly, and an out-of-range request lands on
the nearer interval end. (For clips shorter than 0.1 the two clamp bounds
cross and the lower bound 0 wins, outside the claimed interval.) -/
theorem C6_trim_start_spec (s : EditorStore) (cid : Option Nat) (req : ℚ) (c : Clip)
    (h : getClipById s.tracks cid = some c) :
    ∃ c', getClipById (trimClipStart s cid req).tracks cid = some c' ∧
      c'.endTime = c.endTime ∧
      c'.sourceStartTime - c.sourceStartTime = c'.startTime - c.startTime ∧
      c'.duration = c'.endTime - c'.startTime ∧
      (1/10 ≤ c.endTime →
        0 ≤ c'.startTime ∧ c'.startTime ≤ c.endTime - 1/10 ∧
        (0 ≤ req → req ≤ c.endTime - 1/10 → c'.startTime = req) ∧
        (req < 0 → c'.startTime = 0) ∧
        (c.endTime - 1/10 < req → c'.startTime = c.endTime - 1/10)) := by
  have heq : trimClipStart s cid req =
      { s with tracks := modifyClipInTracks cid (fun clip =>
          let ns := qmax 0 (qmin (clip.endTime - 1/10) req)
          { clip with
              startTime := ns
              sourceStartTime := clip.sourceStartTime + (ns - clip.startTime)
              duration := clip.endTime - ns }) s.tracks } := by
    unfold trimClipStart
    rw [h]
  rw [heq]
  refine ⟨_, getClipById_modify cid _ s.tracks c h (getClipById_id cid s.tracks c h), rfl,
    by ring, rfl, ?_⟩
  intro hlong
  unfold qmax qmin
  refine ⟨?_, ?_, ?_, ?_, ?_⟩ <;> dsimp only <;> split_ifs <;> intros <;> linarith

/-- C6 counterexample: on a clip `[0, 0.05)` (shorter than the 0.1-second
minimum), `trimClipStart` sets the start to 0, which is not in the claimed
clamp interval `[0, endTime - 0.1] = [0, -0.05]`: the claim's universal
"clamps the new start to the interval" fails for clips shorter than 0.1. -/
theorem C6_counterexample :
    (getClipById (trimClipStart exTinyClip (some 1) 0).tracks (some 1)).map Clip.startTime =
        some 0 ∧
      ¬ (0 : ℚ) ≤ (1/20 : ℚ) - 1/10 := by with_unfolding_all decide

/-- C6 witness: the spec scenario, trimming the `[2,5)` clip to start 3. -/
theorem C6_witness :
    getClipById exClipA.tracks (some 1) = some exClipAClip ∧
      (∃ c', getClipById (trimClipStart exClipA (some 1) 3).tracks (some 1) = some c' ∧
        c'.endTime = exClipAClip.endTime ∧
        c'.sourceStartTime - exClipAClip.sourceStartTime =
          c'.startTime - exClipAClip.startTime ∧
        c'.duration = c'.endTime - c'.startTime ∧
        (1/10 ≤ exClipAClip.endTime →
          0 ≤ c'.startTime ∧ c'.startTime ≤ exClipAClip.endTime - 1/10 ∧
          (0 ≤ (3 : ℚ) → (3 : ℚ) ≤ exClipAClip.endTime - 1/10 → c'.startTime = 3) ∧
          ((3 : ℚ) < 0 → c'.startTime = 0) ∧
          (exClipAClip.endTime - 1/10 < 3 → c'.startTime = exClipAClip.endTime - 1/10))) :=
  ⟨by with_unfolding_all decide,
    C6_trim_start_spec exClipA (some 1) 3 exClipAClip (by with_unfolding_all decide)⟩

/-- C2 (confirmed): splitting a clip `[s,e)` at `m` with `s < m < e`
produces two clips exactly covering `[s,m)` and `[m,e)` with no gap or
overlap, the second's `sourceStartTime` is the first's plus `m - s`, the
second is inserted immediately after the original on the same track with
its selection flag cleared; for `m ≤ s` or `m ≥ e` the call returns `null`
and changes nothing. -/
theorem C2_split_partition (s : EditorStore) (cid : Option Nat) (m : ℚ) (c : Clip)
    (h : getClipById s.tracks cid = some c) :
    (m ≤ c.startTime ∨ c.endTime ≤ m → splitClip s cid m = (s, none)) ∧
      (c.startTime < m → m < c.endTime →
        ∃ fst snd, (splitClip s cid m).2 = some (fst, snd) ∧
          fst.startTime = c.startTime ∧ fst.endTime = m ∧
          snd.startTime = m ∧ snd.endTime = c.endTime ∧
          fst.duration = m - c.startTime ∧ snd.duration = c.endTime - m ∧
          fst.sourceStartTime = c.sourceStartTime ∧
          snd.sourceStartTime = fst.sourceStartTime + (m - c.startTime) ∧
          snd.isSelected = false ∧ fst.id = c.id ∧ fst.trackId = c.trackId ∧
          snd.trackId = c.trackId ∧
          ∃ tr ∈ (splitClip s cid m).1.tracks, ∃ l r, tr.clips = l ++ fst :: snd :: r) := by
  obtain ⟨tb, tr, ta, b, a, hts, hpre, htr, hb, hcid⟩ := getClipById_decomp cid s.tracks c h
  have htrk : getTrackByClipId s.tracks cid = some tr := by
    rw [hts]
    exact getTrackByClipId_of_decomp cid tb tr ta b c a hpre htr hb hcid
  constructor
  · intro hout
    unfold splitClip
    simp only [h, htrk]
    rw [if_pos hout]
  · intro h1 h2
    have hcond : ¬(m ≤ c.startTime ∨ c.endTime ≤ m) := by
      push_neg
      exact ⟨h1, h2⟩
    have heq : splitClip s cid m =
        (saveHistory
          { s with nextId := s.nextId + 1
                   tracks := splitInsert cid (splitFirstClip c m)
                     (splitSecondClip c m s.nextId) s.tracks },
         some (splitFirstClip c m, splitSecondClip c m s.nextId)) := by
      unfold splitClip
      simp only [h, htrk]
      rw [if_neg hcond]
    refine ⟨splitFirstClip c m, splitSecondClip c m s.nextId, by rw [heq], rfl, rfl, rfl, rfl,
      rfl, rfl, rfl, rfl, rfl, rfl, rfl, rfl, ?_⟩
    have htracks : (splitClip s cid m).1.tracks =
        tb ++ { tr with clips := b ++ splitFirstClip c m ::
          splitSecondClip c m s.nextId :: a } :: ta := by
      rw [heq, saveHistory_tracks]
      show splitInsert cid _ _ s.tracks = _
      rw [hts]
      exact splitInsert_of_decomp cid _ _ tb tr ta b c a hpre htr hb hcid
    rw [htracks]
    refine ⟨{ tr with clips := b ++ splitFirstClip c m :: splitSecondClip c m s.nextId :: a },
      ?_, b, a, rfl⟩
    simp

/-- C2 witness: the `[2,5)` clip of `exClipA` split at 4. -/
theorem C2_witness :
    ∃ fst snd, (splitClip exClipA (some 1) 4).2 = some (fst, snd) ∧
      fst.startTime = exClipAClip.startTime ∧ fst.endTime = 4 ∧
      snd.startTime = 4 ∧ snd.endTime = exClipAClip.endTime ∧
      fst.duration = 4 - exClipAClip.startTime ∧ snd.duration = exClipAClip.endTime - 4 ∧
      fst.sourceStartTime = exClipAClip.sourceStartTime ∧
      snd.sourceStartTime = fst.sourceStartTime + (4 - exClipAClip.startTime) ∧
      snd.isSelected = false ∧ fst.id = exClipAClip.id ∧ fst.trackId = exClipAClip.trackId ∧
      snd.trackId = exClipAClip.trackId ∧
      ∃ tr ∈ (splitClip exClipA (some 1) 4).1.tracks, ∃ l r, tr.clips = l ++ fst :: snd :: r :=
  (C2_split_partition exClipA (some 1) 4 exClipAClip (by with_unfolding_all decide)).2
    (by with_unfolding_all decide) (by with_unfolding_all decide)

/-- C7 (amended): every listed operation invoked with a nonexistent primary
target id (the trackId for `addClip`, the clipId for the rest) is total
(never throws), returns null / returns without a value, and leaves the
whole store — tracks, selection and history included — unchanged. The one
exception the code carries: `moveClip` called with a valid clipId but a
nonexistent destination `newTrackId` still applies the time move and only
skips the re-parenting (see the counterexample). -/
theorem C7_missing_id_noop (s : EditorStore) (tid : Nat) (cid : Option Nat)
    (d u : PartialClip) (t : ℚ) (ntid : Option Nat)
    (htid : ∀ tr ∈ s.tracks, tr.id ≠ tid)
    (hcid : ∀ tr ∈ s.tracks, ∀ c ∈ tr.clips, c.id ≠ cid) :
    addClip s tid d = (s, none) ∧ splitClip s cid t = (s, none) ∧
      moveClip s cid t ntid = s ∧ trimClipStart s cid t = s ∧ trimClipEnd s cid t = s ∧
      updateClip s cid u = s ∧ removeClip s cid = s := by
  have hts : findTrackSplit tid s.tracks = none := findTrackSplit_none_of tid s.tracks htid
  have hg : getClipById s.tracks cid = none := getClipById_none_of cid s.tracks hcid
  obtain ⟨hfc, hmod, hrem, htrk⟩ := getClipById_none cid s.tracks hg
  refine ⟨?_, ?_, ?_, ?_, ?_, ?_, ?_⟩
  · unfold addClip
    rw [hts]
  · unfold splitClip
    rw [hg]
  · unfold moveClip
    rw [hg]
  · unfold trimClipStart
    rw [hg]
  · unfold trimClipEnd
    rw [hg]
  · unfold updateClip
    rw [hg]
  · unfold removeClip
    rw [hrem]

/-- C7 counterexample: `moveClip` invoked with a valid clip id but a
destination track id that does not exist (999) does not leave the model
unchanged — the clip's start time still moves (here to 100); only the
re-parenting is skipped. -/
theorem C7_counterexample :
    (moveClip { exClipA with isSnappingEnabled := false } (some 1) 100 (some 999)).tracks ≠
        ({ exClipA with isSnappingEnabled := false } : EditorStore).tracks ∧
      (getClipById
          (moveClip { exClipA with isSnappingEnabled := false } (some 1) 100
            (some 999)).tracks (some 1)).map Clip.startTime = some 100 := by
  with_unfolding_all decide

/-- C7 witness: every operation applied to `exClipA` with the unused id 77. -/
theorem C7_witness :
    addClip exClipA 77 {} = (exClipA, none) ∧ splitClip exClipA (some 77) 3 = (exClipA, none) ∧
      moveClip exClipA (some 77) 3 none = exClipA ∧ trimClipStart exClipA (some 77) 3 = exClipA ∧
      trimClipEnd exClipA (some 77) 3 = exClipA ∧ updateClip exClipA (some 77) {} = exClipA ∧
      removeClip exClipA (some 77) = exClipA :=
  C7_missing_id_noop exClipA 77 (some 77) {} {} 3 none (by with_unfolding_all decide)
    (by with_unfolding_all decide)

/-- C5 (confirmed): with snapping enabled, `moveClip` snaps the requested
start to the first candidate whose distance is strictly below
`snapThreshold / (100 * timelineZoom)` seconds (then clamps at 0 as the
move contract requires); the candidate list is `{0, playhead} ∪ {every
other clip's start and end}` enumerated in a fixed stable order, a time at
or beyond the threshold from every candidate is left unchanged, and the
chosen candidate is the first one within the threshold in enumeration
order. (`0 < timelineZoom` holds for every zoom the UI can set; it keeps
the rational threshold faithful to the JavaScript division.) -/
theorem C5_snapping (s : EditorStore) (t : ℚ) (excl : Option Nat) (c : Clip)
    (cid : Option Nat) (hzoom : 0 < s.timelineZoom) :
    (∀ p : ℚ, p ∈ snapPoints s excl ↔
        (p = 0 ∨ p = s.currentTime ∨
          ∃ tr ∈ s.tracks, ∃ cc ∈ tr.clips, cc.id ≠ excl ∧
            (p = cc.startTime ∨ p = cc.endTime))) ∧
      ((∀ p ∈ snapPoints s excl, s.snapThreshold / (100 * s.timelineZoom) ≤ rabs (t - p)) →
        getSnappedTime s t excl = t) ∧
      (∀ l₁ p l₂, snapPoints s excl = l₁ ++ p :: l₂ →
        rabs (t - p) < s.snapThreshold / (100 * s.timelineZoom) →
        (∀ q ∈ l₁, ¬rabs (t - q) < s.snapThreshold / (100 * s.timelineZoom)) →
        getSnappedTime s t excl = p) ∧
      (∀ p ∈ snapPoints s excl, rabs (t - p) < s.snapThreshold / (100 * s.timelineZoom) →
        getSnappedTime s t excl ∈ snapPoints s excl ∧
          rabs (t - getSnappedTime s t excl) < s.snapThreshold / (100 * s.timelineZoom)) ∧
      (s.isSnappingEnabled = true → getClipById s.tracks cid = some c →
        ∃ c', getClipById (moveClip s cid t none).tracks cid = some c' ∧
          c'.startTime = qmax 0 (getSnappedTime s t cid) ∧
          c'.endTime = c'.startTime + (c.endTime - c.startTime)) := by
  refine ⟨?_, ?_, ?_, ?_, ?_⟩
  · intro p
    rw [snapPoints, List.mem_cons, List.mem_cons, mem_snapPointsTracks]
  · intro h
    unfold getSnappedTime
    rw [firstSnap_eq_none_of t _ _ fun p hp => not_lt.mpr (h p hp)]
    rfl
  · intro l₁ p l₂ hdecomp hp h₁
    unfold getSnappedTime
    rw [hdecomp, firstSnap_first t _ l₁ p l₂ hp h₁]
    rfl
  · intro p hp hlt
    obtain ⟨q, hq⟩ := firstSnap_isSome t _ (snapPoints s excl) p hp hlt
    obtain ⟨hq1, hq2⟩ := firstSnap_mem t _ (snapPoints s excl) q hq
    unfold getSnappedTime
    rw [hq]
    exact ⟨hq1, hq2⟩
  · intro hsnap hclip
    obtain ⟨tb, tr, ta, b, a, hts, hpre, htr, hb, hcid⟩ :=
      getClipById_decomp cid s.tracks c hclip
    have htrk : getTrackByClipId s.tracks cid = some tr := by
      rw [hts]
      exact getTrackByClipId_of_decomp cid tb tr ta b c a hpre htr hb hcid
    have heq : moveClip s cid t none =
        updateProjectDuration
          { s with
              tracks := modifyClipInTracks cid
                (fun _ =>
                  { c with
                      startTime := qmax 0 (getSnappedTime s t cid)
                      endTime := qmax 0 (getSnappedTime s t cid) + (c.endTime - c.startTime) })
                s.tracks } := by
      unfold moveClip
      simp only [hclip, htrk, hsnap, if_true]
    rw [heq, updateProjectDuration_tracks]
    refine ⟨_, getClipById_modify cid _ s.tracks c hclip ?_, rfl, rfl⟩
    exact getClipById_id cid s.tracks c hclip

/-- C5 witness: on the two-clip store, a request at 5.05 with threshold
0.1 snaps onto the clip boundary 5 — the first candidate within the
threshold in enumeration order `[0, playhead, 2, 5, 5, 8]`. -/
theorem C5_witness : getSnappedTime exClipB (101/20) none = 5 :=
  (C5_snapping exClipB (101/20) none exClipAClip (some 1)
        (by with_unfolding_all decide)).2.2.1
    [0, 0, 2] 5 [5, 8] (by with_unfolding_all decide) (by with_unfolding_all decide)
    (by with_unfolding_all decide)

/-- C9 (amended): when a text clip's entrance and exit animation windows
overlap, both effects apply in sequence — the rendered state is not
determined by the exit animation alone. A scale exit does overwrite the
entrance scale (exit wins for scale), but a fade exit multiplies into the
alpha the entrance fade produced: with fade in and fade out the rendered
alpha is the product `((t-start)/inDuration) * ((end-t)/outDuration)`, not
the exit-only `(end-t)/outDuration`; and a slide exit adds its offset to
the entrance offset: with slide in and slide out the rendered y is the
base y plus the entrance offset `(1 - (t-start)/inDuration) * 50` minus
the exit offset `((outDuration - (end-t))/outDuration) * 50`. -/
theorem C9_overlap_composition (ov : TextOverlay) (t : ℚ)
    (h1 : ov.startTime ≤ t) (h2 : t ≤ ov.endTime)
    (hin : t - ov.startTime < ov.animationIn.duration)
    (hout : ov.endTime - t < ov.animationOut.duration)
    (hdin : 0 < ov.animationIn.duration) (hdout : 0 < ov.animationOut.duration) :
    (ov.animationIn.type = TextAnimType.fade → ov.animationOut.type = TextAnimType.fade →
        ∃ st, animateText ov t = some st ∧
          st.alpha = ((t - ov.startTime) / ov.animationIn.duration) *
            ((ov.endTime - t) / ov.animationOut.duration)) ∧
      (ov.animationIn.type = TextAnimType.scale → ov.animationOut.type = TextAnimType.scale →
        ∃ st, animateText ov t = some st ∧
          st.scaleX = (ov.endTime - t) / ov.animationOut.duration ∧
          st.scaleY = (ov.endTime - t) / ov.animationOut.duration) ∧
      (ov.animationIn.type = TextAnimType.slide → ov.animationOut.type = TextAnimType.slide →
        ∃ st, animateText ov t = some st ∧
          st.y = ov.y + (1 - (t - ov.startTime) / ov.animationIn.duration) * 50 -
            ((ov.animationOut.duration - (ov.endTime - t)) / ov.animationOut.duration) * 50) := by
  have hvis : ¬(t < ov.startTime ∨ ov.endTime < t) := by
    push_neg
    exact ⟨h1, h2⟩
  have hclampIn : clamp01 ((t - ov.startTime) / ov.animationIn.duration) =
      (t - ov.startTime) / ov.animationIn.duration :=
    clamp01_of _ (div_nonneg (by linarith) (le_of_lt hdin))
      ((div_le_one hdin).mpr (by linarith))
  have hclampOut :
      clamp01 ((ov.animationOut.duration - (ov.endTime - t)) / ov.animationOut.duration) =
        (ov.animationOut.duration - (ov.endTime - t)) / ov.animationOut.duration :=
    clamp01_of _ (div_nonneg (by linarith) (le_of_lt hdout))
      ((div_le_one hdout).mpr (by linarith))
  have hone : (1 : ℚ) -
      (ov.animationOut.duration - (ov.endTime - t)) / ov.animationOut.duration =
      (ov.endTime - t) / ov.animationOut.duration := by
    field_simp
  have hbase : (if ov.isSelected then (1 : ℚ) else 1) = 1 := by
    split <;> rfl
  constructor
  · intro hfi hfo
    refine ⟨_, by unfold animateText; rw [if_neg hvis], ?_⟩
    rw [applyInAnim_fade ov t _ hfi hin, applyOutAnim_fade ov t _ hfo hout]
    dsimp only
    rw [hclampIn, hclampOut, hone, hbase, one_mul]
  · constructor
    · intro hsi hso
      refine ⟨_, by unfold animateText; rw [if_neg hvis], ?_⟩
      rw [applyInAnim_scale ov t _ hsi hin, applyOutAnim_scale ov t _ hso hout]
      dsimp only
      rw [hclampOut, hone]
      exact ⟨rfl, rfl⟩
    · intro hli hlo
      refine ⟨_, by unfold animateText; rw [if_neg hvis], ?_⟩
      rw [applyInAnim_slide ov t _ hli hin, applyOutAnim_slide ov t _ hlo hout]
      dsimp only
      rw [hclampIn, hclampOut]

/-- C9 counterexample: for a fade-in/fade-out overlay `[0,3)` with both
durations 2, at `t = 1.5` (inside both windows) the rendered alpha is
`0.75 * 0.75 = 0.5625`, while the exit animation alone (entrance disabled)
would render `0.75`: the exit does not take precedence, the two fades
compose. -/
theorem C9_counterexample :
    (animateText exOverlayFade (3/2)).map TextRenderState.alpha = some (9/16) ∧
      (animateText { exOverlayFade with animationIn := ⟨TextAnimType.noAnim, 2⟩ }
          (3/2)).map TextRenderState.alpha = some (3/4) ∧
      ((9 : ℚ)/16) ≠ 3/4 := by with_unfolding_all decide

/-- C9 witness: the fade/fade overlay at `t = 1.5`. -/
theorem C9_witness :
    ∃ st, animateText exOverlayFade (3/2) = some st ∧
      st.alpha = (((3 : ℚ)/2 - exOverlayFade.startTime) / exOverlayFade.animationIn.duration) *
        ((exOverlayFade.endTime - 3/2) / exOverlayFade.animationOut.duration) :=
  (C9_overlap_composition exOverlayFade (3/2) (by with_unfolding_all decide)
        (by with_unfolding_all decide) (by with_unfolding_all decide)
        (by with_unfolding_all decide) (by with_unfolding_all decide)
        (by with_unfolding_all decide)).1
    (by with_unfolding_all decide) (by with_unfolding_all decide)

/-- C4 (amended): `pasteClips` re-bases every clipboard clip by the delta
between the earliest copied clip's startTime (`minStart`) and the playhead,
preserving the clips' relative offsets, and appends each copy to the first
track whose type matches — provided that track is unlocked; a locked first
match causes the clip to be skipped outright, not diverted to a later
track (the total clip count grows by exactly the number of eligible
clipboard clips). Pasted clips do not receive fresh ids: the explicit
`id: undefined` in the paste data overrides the generated id, so every
inserted clip's id is undefined (and pasted clips collide with each
other). -/
theorem C4_paste_spec (s : EditorStore) :
    (s.clipboard = [] → pasteClips s = s) ∧
      (∀ c ∈ s.clipboard, minStart s.clipboard ≤ c.startTime) ∧
      (s.clipboard ≠ [] → ∃ c ∈ s.clipboard, minStart s.clipboard = c.startTime) ∧
      (∀ c ∈ s.clipboard, ∀ tr, findTrackOfType c.type s.tracks = some tr →
        tr.isLocked = false →
        ∃ tr' ∈ (pasteClips s).tracks, tr'.id = tr.id ∧
          pastedClip s.currentTime (minStart s.clipboard) c ∈ tr'.clips) ∧
      (∀ tr' ∈ (pasteClips s).tracks, ∀ c' ∈ tr'.clips,
        (∃ tr ∈ s.tracks, c' ∈ tr.clips) ∨ c'.id = none) ∧
      totalClips (pasteClips s).tracks =
        totalClips s.tracks + eligibleCount s.tracks s.clipboard := by
  by_cases hcb : s.clipboard = []
  · have hps : pasteClips s = s := by
      unfold pasteClips
      rw [if_pos (by rw [hcb]; rfl)]
    refine ⟨fun _ => hps, ?_, fun hne => absurd hcb hne, ?_, ?_, ?_⟩
    · intro c hcmem
      rw [hcb] at hcmem
      cases hcmem
    · intro c hcmem
      rw [hcb] at hcmem
      cases hcmem
    · rw [hps]
      exact fun tr' htr' c' hc' => Or.inl ⟨tr', htr', hc'⟩
    · rw [hps, hcb, eligibleCount]
      omega
  · have hps : pasteClips s =
        pasteLoop s.currentTime (minStart s.clipboard) s.clipboard s := by
      unfold pasteClips
      rw [if_neg]
      intro hemp
      exact hcb (List.isEmpty_iff.mp (by revert hemp; cases s.clipboard.isEmpty <;> simp))
    refine ⟨fun h => absurd h hcb, fun c hc => minStart_le s.clipboard c hc,
      fun _ => minStart_mem s.clipboard hcb, ?_, ?_, ?_⟩
    · intro c hc tr htr hlk
      rw [hps]
      exact pasteLoop_mem s.currentTime (minStart s.clipboard) s.clipboard s c hc tr htr hlk
    · rw [hps]
      exact pasteLoop_ids s.currentTime (minStart s.clipboard) s.clipboard s
    · rw [hps]
      exact pasteLoop_count s.currentTime (minStart s.clipboard) s.clipboard s

/-- C1 (amended): undo/redo round-trips hold from a steady state — one
whose current tracks + selection are recorded at the history cursor, which
is exactly what every history-snapshotting operation leaves behind — for
sequences of operations that record exactly one snapshot each (addTrack;
addClip, removeClip, removeTrack on existing targets; splitClip strictly
inside an existing clip), while the history stays within its 50-entry
capacity: after N such operations, N undos restore the pre-edit tracks and
selection exactly, and N redos then restore the post-edit tracks and
selection exactly. (From a state that is not steady — e.g. the initial
store, whose history is empty — or for operations that snapshot zero times
(moveClip, trim, updateClip) or several times (pasteClips and
duplicateSelectedClips snapshot once per inserted clip), the round-trip
fails; see the counterexample.) -/
theorem C1_history_roundtrip (s : EditorStore) (ops : List EditOp)
    (hsteady : Steady s) (hseq : SnapSeq ops s = true)
    (hcap : s.historyIndex + ops.length ≤ 49) :
    (iterUndo ops.length (applyOps ops s)).tracks = s.tracks ∧
      (iterUndo ops.length (applyOps ops s)).selectedClipIds = s.selectedClipIds ∧
      (iterRedo ops.length (iterUndo ops.length (applyOps ops s))).tracks =
        (applyOps ops s).tracks ∧
      (iterRedo ops.length (iterUndo ops.length (applyOps ops s))).selectedClipIds =
        (applyOps ops s).selectedClipIds := by
  obtain ⟨h0, hmir0⟩ := hsteady
  obtain ⟨hstf, hidxf, hpref⟩ := snapSeq_spec ops s hseq ⟨h0, hmir0⟩ hcap
  obtain ⟨h0f, hmirf⟩ := hstf
  have hlenf : (applyOps ops s).historyIndex.toNat < (applyOps ops s).history.length := by
    obtain ⟨hlt, _⟩ := List.get?_eq_some.mp hmirf
    exact hlt
  have hN : ((ops.length : Int)) ≤ (applyOps ops s).historyIndex := by
    rw [hidxf]
    omega
  obtain ⟨hhu, hiu, hresu⟩ := iterUndo_spec ops.length (applyOps ops s) hN hlenf hmirf
  have hidxu : (applyOps ops s).historyIndex - (ops.length : Int) = s.historyIndex := by
    rw [hidxf]
    omega
  have hentry : (applyOps ops s).history.get?
      ((applyOps ops s).historyIndex - (ops.length : Int)).toNat =
      some ⟨s.tracks, s.selectedClipIds⟩ := by
    rw [hidxu, hpref s.historyIndex.toNat (le_refl _)]
    exact hmir0
  obtain ⟨hut, hus⟩ := hresu ⟨s.tracks, s.selectedClipIds⟩ hentry
  have hvidx : (iterUndo ops.length (applyOps ops s)).historyIndex = s.historyIndex := by
    rw [hiu, hidxf]
    omega
  have hmirv : (iterUndo ops.length (applyOps ops s)).history.get?
      (iterUndo ops.length (applyOps ops s)).historyIndex.toNat =
      some ⟨(iterUndo ops.length (applyOps ops s)).tracks,
        (iterUndo ops.length (applyOps ops s)).selectedClipIds⟩ := by
    rw [hvidx, hhu, hut, hus, hpref s.historyIndex.toNat (le_refl _)]
    exact hmir0
  have hsum : s.historyIndex + (ops.length : Int) = (applyOps ops s).historyIndex := by
    rw [hidxf]
  have hlenv : ((iterUndo ops.length (applyOps ops s)).historyIndex +
      (ops.length : Int)).toNat < (iterUndo ops.length (applyOps ops s)).history.length := by
    rw [hvidx, hhu, hsum]
    exact hlenf
  obtain ⟨hhr, hir, hresr⟩ :=
    iterRedo_spec ops.length (iterUndo ops.length (applyOps ops s))
      (by rw [hvidx]; exact h0) hlenv hmirv
  have hentry2 : (iterUndo ops.length (applyOps ops s)).history.get?
      ((iterUndo ops.length (applyOps ops s)).historyIndex + (ops.length : Int)).toNat =
      some ⟨(applyOps ops s).tracks, (applyOps ops s).selectedClipIds⟩ := by
    rw [hvidx, hhu, hsum]
    exact hmirf
  obtain ⟨hrt, hrs⟩ :=
    hresr ⟨(applyOps ops s).tracks, (applyOps ops s).selectedClipIds⟩ hentry2
  exact ⟨hut, hus, hrt, hrs⟩

/-- C1 counterexample: from the initial store (empty history, cursor -1),
one `addTrack` then one `undo` does not restore the pre-edit state — the
pre-edit state was never snapshotted, `undo` is a no-op at cursor 0, and
the added track remains. -/
theorem C1_counterexample :
    (iterUndo 1 (applyOps [EditOp.addTrack TrackType.video none] initialStore)).tracks ≠
      initialStore.tracks := by
  with_unfolding_all decide

/-- C1 witness: from the steady one-track store, one clip insertion, one
undo and one redo. -/
theorem C1_witness :
    (iterUndo 1 (applyOps
        [EditOp.addClip 0 { startTime := some 2, endTime := some 5, duration := some 3 }]
        exOneTrack)).tracks = exOneTrack.tracks ∧
      (iterUndo 1 (applyOps
          [EditOp.addClip 0 { startTime := some 2, endTime := some 5, duration := some 3 }]
          exOneTrack)).selectedClipIds = exOneTrack.selectedClipIds ∧
      (iterRedo 1 (iterUndo 1 (applyOps
          [EditOp.addClip 0 { startTime := some 2, endTime := some 5, duration := some 3 }]
          exOneTrack))).tracks =
        (applyOps
          [EditOp.addClip 0 { startTime := some 2, endTime := some 5, duration := some 3 }]
          exOneTrack).tracks ∧
      (iterRedo 1 (iterUndo 1 (applyOps
          [EditOp.addClip 0 { startTime := some 2, endTime := some 5, duration := some 3 }]
          exOneTrack))).selectedClipIds =
        (applyOps
          [EditOp.addClip 0 { startTime := some 2, endTime := some 5, duration := some 3 }]
          exOneTrack).selectedClipIds :=
  C1_history_roundtrip exOneTrack
    [EditOp.addClip 0 { startTime := some 2, endTime := some 5, duration := some 3 }]
    ⟨by with_unfolding_all decide, by with_unfolding_all decide⟩
    (by with_unfolding_all decide) (by with_unfolding_all decide)

/-- C4 counterexample: pasting a clipboard of two clips onto the two-clip
store leaves the two pasted copies with equal (`undefined`) ids — the
pre-paste clip ids were pairwise distinct, the post-paste ones are not, so
pasteClips does not assign every pasted clip a fresh id distinct from all
existing clip ids. -/
theorem C4_counterexample :
    (clipIds exReadyToPaste.tracks).Nodup ∧
      ¬(clipIds (pasteClips exReadyToPaste).tracks).Nodup ∧
      clipIds (pasteClips exReadyToPaste).tracks = [some 1, some 2, none, none] := by
  with_unfolding_all decide

/-! ### C3: preservation of the clip time invariant -/

theorem le_qmax_left (a b : ℚ) : a ≤ qmax a b := by
  unfold qmax
  split_ifs with h <;> linarith

theorem qmax_lt_of (a b c : ℚ) (h1 : a < c) (h2 : b < c) : qmax a b < c := by
  unfold qmax
  split_ifs <;> assumption

theorem saveHistory_clipboard (s : EditorStore) : (saveHistory s).clipboard = s.clipboard := by
  simp only [saveHistory]
  split <;> rfl

theorem saveHistory_currentTime (s : EditorStore) :
    (saveHistory s).currentTime = s.currentTime := by
  simp only [saveHistory]
  split <;> rfl

theorem saveHistory_nextId (s : EditorStore) : (saveHistory s).nextId = s.nextId := by
  simp only [saveHistory]
  split <;> rfl

/-- Every history entry after `saveHistory` is an old entry or the freshly
pushed snapshot of the live tracks + selection. -/
theorem saveHistory_histMem (s : EditorStore) (e : HistoryState)
    (he : e ∈ (saveHistory s).history) :
    e ∈ s.history ∨ e = ⟨s.tracks, s.selectedClipIds⟩ := by
  simp only [saveHistory] at he
  split at he
  · have h2 := List.drop_subset 1 _ he
    rcases List.mem_append.mp h2 with h3 | h4
    · exact Or.inl (List.take_subset _ _ h3)
    · exact Or.inr (List.mem_singleton.mp h4)
  · rcases List.mem_append.mp he with h3 | h4
    · exact Or.inl (List.take_subset _ _ h3)
    · exact Or.inr (List.mem_singleton.mp h4)

/-- Clips after an in-place clip mutation: the image of an original clip,
or an untouched original. -/
theorem mem_of_modifyClipInTracks (cid : Option Nat) (f : Clip → Clip) (ts : List Track) :
    ∀ tr' ∈ modifyClipInTracks cid f ts, ∀ x ∈ tr'.clips,
      (∃ tr ∈ ts, ∃ y ∈ tr.clips, x = f y) ∨ ∃ tr ∈ ts, x ∈ tr.clips := by
  induction ts with
  | nil => intro tr' htr'; cases htr'
  | cons hd tl ih =>
    intro tr' htr' x hx
    rw [modifyClipInTracks] at htr'
    cases hml : modifyClipInList cid f hd.clips with
    | some cs =>
      rw [hml] at htr'
      rcases List.mem_cons.mp htr' with rfl | htl
      · rw [modifyClipInList_eq_split] at hml
        cases hfs : findClipSplit cid hd.clips with
        | none => rw [hfs] at hml; cases hml
        | some p =>
          obtain ⟨b, c, a⟩ := p
          rw [hfs] at hml
          obtain rfl : b ++ f c :: a = cs := by simpa using hml
          obtain ⟨hcs, _, _⟩ := findClipSplit_eq cid hd.clips b c a hfs
          rcases List.mem_append.mp hx with h1 | h2
          · exact Or.inr ⟨hd, List.mem_cons_self _ _, by
              rw [hcs]; exact List.mem_append.mpr (Or.inl h1)⟩
          · rcases List.mem_cons.mp h2 with rfl | h3
            · exact Or.inl ⟨hd, List.mem_cons_self _ _, c, by
                rw [hcs]; exact List.mem_append.mpr (Or.inr (List.mem_cons_self _ _)), rfl⟩
            · exact Or.inr ⟨hd, List.mem_cons_self _ _, by
                rw [hcs]; exact List.mem_append.mpr (Or.inr (List.mem_cons_of_mem _ h3))⟩
      · exact Or.inr ⟨tr', List.mem_cons_of_mem _ htl, hx⟩
    | none =>
      rw [hml] at htr'
      rcases List.mem_cons.mp htr' with rfl | htl
      · exact Or.inr ⟨tr', List.mem_cons_self _ _, hx⟩
      · rcases ih tr' htl x hx with ⟨tr, htr, y, hy, hxy⟩ | ⟨tr, htr, hxx⟩
        · exact Or.inl ⟨tr, List.mem_cons_of_mem _ htr, y, hy, hxy⟩
        · exact Or.inr ⟨tr, List.mem_cons_of_mem _ htr, hxx⟩

/-- Clips after a removal are clips of the original track list. -/
theorem mem_of_removeClipFromTracks (cid : Option Nat) (ts ts' : List Track)
    (h : removeClipFromTracks cid ts = some ts') :
    ∀ tr' ∈ ts', ∀ x ∈ tr'.clips, ∃ tr ∈ ts, x ∈ tr.clips := by
  induction ts generalizing ts' with
  | nil => cases h
  | cons hd tl ih =>
    rw [removeClipFromTracks] at h
    cases hfs : findClipSplit cid hd.clips with
    | some p =>
      obtain ⟨b, c, a⟩ := p
      rw [hfs] at h
      obtain rfl : ({ hd with clips := b ++ a } :: tl) = ts' := by simpa using h
      intro tr' htr' x hx
      rcases List.mem_cons.mp htr' with rfl | htl
      · obtain ⟨hcs, _, _⟩ := findClipSplit_eq cid hd.clips b c a hfs
        refine ⟨hd, List.mem_cons_self _ _, ?_⟩
        rw [hcs]
        rcases List.mem_append.mp hx with h1 | h2
        · exact List.mem_append.mpr (Or.inl h1)
        · exact List.mem_append.mpr (Or.inr (List.mem_cons_of_mem _ h2))
      · exact ⟨tr', List.mem_cons_of_mem _ htl, hx⟩
    | none =>
      rw [hfs] at h
      cases hrec : removeClipFromTracks cid tl with
      | some ts2 =>
        rw [hrec] at h
        obtain rfl : hd :: ts2 = ts' := by simpa using h
        intro tr' htr' x hx
        rcases List.mem_cons.mp htr' with rfl | htl
        · exact ⟨tr', List.mem_cons_self _ _, hx⟩
        · obtain ⟨tr, htr, hxx⟩ := ih ts2 hrec tr' htl x hx
          exact ⟨tr, List.mem_cons_of_mem _ htr, hxx⟩
      | none => rw [hrec] at h; cases h

/-- Clips after `pushClipToTrack`: the pushed clip or an original. -/
theorem mem_of_pushClipToTrack (tid : Nat) (c : Clip) (ts : List Track) :
    ∀ tr' ∈ pushClipToTrack tid c ts, ∀ x ∈ tr'.clips, x = c ∨ ∃ tr ∈ ts, x ∈ tr.clips := by
  induction ts with
  | nil => intro tr' htr'; cases htr'
  | cons hd tl ih =>
    intro tr' htr' x hx
    rw [pushClipToTrack] at htr'
    by_cases hid : hd.id = tid
    · rw [if_pos hid] at htr'
      rcases List.mem_cons.mp htr' with rfl | htl
      · rcases List.mem_append.mp hx with h1 | h2
        · exact Or.inr ⟨hd, List.mem_cons_self _ _, h1⟩
        · exact Or.inl (List.mem_singleton.mp h2)
      · exact Or.inr ⟨tr', List.mem_cons_of_mem _ htl, hx⟩
    · rw [if_neg hid] at htr'
      rcases List.mem_cons.mp htr' with rfl | htl
      · exact Or.inr ⟨tr', List.mem_cons_self _ _, hx⟩
      · rcases ih tr' htl x hx with h1 | ⟨tr, htr, hxx⟩
        · exact Or.inl h1
        · exact Or.inr ⟨tr, List.mem_cons_of_mem _ htr, hxx⟩

/-- Clips after `splitInsert`: the two split halves or an original. -/
theorem mem_of_splitInsert (cid : Option Nat) (fst snd : Clip) (ts : List Track) :
    ∀ tr' ∈ splitInsert cid fst snd ts, ∀ x ∈ tr'.clips,
      x = fst ∨ x = snd ∨ ∃ tr ∈ ts, x ∈ tr.clips := by
  induction ts with
  | nil => intro tr' htr'; cases htr'
  | cons hd tl ih =>
    intro tr' htr' x hx
    rw [splitInsert] at htr'
    cases hfs : findClipSplit cid hd.clips with
    | some p =>
      obtain ⟨b, cc, a⟩ := p
      rw [hfs] at htr'
      rcases List.mem_cons.mp htr' with rfl | htl
      · obtain ⟨hcs, _, _⟩ := findClipSplit_eq cid hd.clips b cc a hfs
        rcases List.mem_append.mp hx with h1 | h2
        · exact Or.inr (Or.inr ⟨hd, List.mem_cons_self _ _, by
            rw [hcs]; exact List.mem_append.mpr (Or.inl h1)⟩)
        · rcases List.mem_cons.mp h2 with rfl | h3
          · exact Or.inl rfl
          · rcases List.mem_cons.mp h3 with rfl | h4
            · exact Or.inr (Or.inl rfl)
            · exact Or.inr (Or.inr ⟨hd, List.mem_cons_self _ _, by
                rw [hcs]; exact List.mem_append.mpr (Or.inr (List.mem_cons_of_mem _ h4))⟩)
      · exact Or.inr (Or.inr ⟨tr', List.mem_cons_of_mem _ htl, hx⟩)
    | none =>
      rw [hfs] at htr'
      rcases List.mem_cons.mp htr' with rfl | htl
      · exact Or.inr (Or.inr ⟨tr', List.mem_cons_self _ _, hx⟩)
      · rcases ih tr' htl x hx with h1 | h2 | ⟨tr, htr, hxx⟩
        · exact Or.inl h1
        · exact Or.inr (Or.inl h2)
        · exact Or.inr (Or.inr ⟨tr, List.mem_cons_of_mem _ htr, hxx⟩)

/-- The `selectedClips` getter returns clips of the track list. -/
theorem mem_of_selectedClipsIn (sel : List (Option Nat)) (ts : List Track) :
    ∀ x ∈ selectedClipsIn sel ts, ∃ tr ∈ ts, x ∈ tr.clips := by
  induction ts with
  | nil => intro x hx; cases hx
  | cons hd tl ih =>
    intro x hx
    rw [selectedClipsIn] at hx
    rcases List.mem_append.mp hx with h1 | h2
    · exact ⟨hd, List.mem_cons_self _ _, List.mem_of_mem_filter h1⟩
    · obtain ⟨tr, htr, hxx⟩ := ih x h2
      exact ⟨tr, List.mem_cons_of_mem _ htr, hxx⟩

theorem tracksTimeOK_modify (cid : Option Nat) (f : Clip → Clip) (ts : List Track)
    (hts : TracksTimeOK ts) (hf : ∀ c, ClipOK c → ClipOK (f c)) :
    TracksTimeOK (modifyClipInTracks cid f ts) := by
  intro tr' htr' x hx
  rcases mem_of_modifyClipInTracks cid f ts tr' htr' x hx with
    ⟨tr, htr, y, hy, rfl⟩ | ⟨tr, htr, hxx⟩
  · exact hf y (hts tr htr y hy)
  · exact hts tr htr x hxx

theorem tracksTimeOK_mapClips (g : Clip → Clip) (hg : ∀ c, ClipOK c → ClipOK (g c))
    (ts : List Track) (hts : TracksTimeOK ts) :
    TracksTimeOK (ts.map fun tr => { tr with clips := tr.clips.map g }) := by
  intro tr' htr' x hx
  obtain ⟨tr, htr, rfl⟩ := List.mem_map.mp htr'
  obtain ⟨y, hy, rfl⟩ := List.mem_map.mp hx
  exact hg y (hts tr htr y hy)

theorem tracksTimeOK_clearAllFlags (ts : List Track) (hts : TracksTimeOK ts) :
    TracksTimeOK (clearAllFlags ts) :=
  tracksTimeOK_mapClips (fun c => { c with isSelected := false }) (fun c hc => hc) ts hts

theorem timeInv_saveHistory (s : EditorStore) (h : TimeInv s) : TimeInv (saveHistory s) := by
  refine ⟨?_, ?_, ?_, ?_⟩
  · rw [saveHistory_tracks]; exact h.1
  · intro e he
    rcases saveHistory_histMem s e he with h1 | h2
    · exact h.2.1 e h1
    · rw [h2]; exact h.1
  · rw [saveHistory_clipboard]; exact h.2.2.1
  · rw [saveHistory_currentTime]; exact h.2.2.2

theorem timeInv_updPD (s : EditorStore) (h : TimeInv s) : TimeInv (updateProjectDuration s) :=
  h

theorem timeInv_setTracks (s : EditorStore) (ts : List Track) (h : TimeInv s)
    (hts : TracksTimeOK ts) : TimeInv (updateProjectDuration { s with tracks := ts }) :=
  timeInv_updPD _ ⟨hts, h.2.1, h.2.2.1, h.2.2.2⟩

/-- A clip moved to a nonnegative start with its extent preserved stays
well-formed. -/
theorem clipOK_moveTo (clip : Clip) (ns : ℚ) (hclip : ClipOK clip) (hns : 0 ≤ ns) :
    ClipOK { clip with startTime := ns, endTime := ns + (clip.endTime - clip.startTime) } := by
  obtain ⟨h0, h1, h2⟩ := hclip
  refine ⟨hns, ?_, ?_⟩
  · show ns < ns + (clip.endTime - clip.startTime)
    linarith
  · show clip.duration = ns + (clip.endTime - clip.startTime) - ns
    rw [h2]
    ring

theorem timeInv_addTrack (s : EditorStore) (ty : TrackType) (n : Option String)
    (h : TimeInv s) : TimeInv (addTrack s ty n).1 := by
  refine timeInv_saveHistory _ ⟨?_, h.2.1, h.2.2.1, h.2.2.2⟩
  intro tr htr c hc
  rcases List.mem_append.mp htr with h1 | h2
  · exact h.1 tr h1 c hc
  · rw [List.mem_singleton.mp h2] at hc
    exact absurd hc (List.not_mem_nil c)

theorem timeInv_removeTrack (s : EditorStore) (tid : Nat) (h : TimeInv s) :
    TimeInv (removeTrack s tid) := by
  unfold removeTrack
  cases hts : findTrackSplit tid s.tracks with
  | none => exact h
  | some x =>
    obtain ⟨b, tr, a⟩ := x
    obtain ⟨he, _, _⟩ := findTrackSplit_eq tid s.tracks b tr a hts
    refine timeInv_saveHistory _ ⟨?_, h.2.1, h.2.2.1, h.2.2.2⟩
    intro tr' htr' c hc
    rcases List.mem_append.mp htr' with h1 | h2
    · exact h.1 tr' (by rw [he]; exact List.mem_append.mpr (Or.inl h1)) c hc
    · exact h.1 tr'
        (by rw [he]; exact List.mem_append.mpr (Or.inr (List.mem_cons_of_mem _ h2))) c hc

theorem timeInv_addClip (s : EditorStore) (tid : Nat) (d : PartialClip) (h : TimeInv s)
    (hok : ∀ ty : TrackType, ClipOK (builtClip s tid ty d)) :
    TimeInv (addClip s tid d).1 := by
  unfold addClip
  cases hts : findTrackSplit tid s.tracks with
  | none => exact h
  | some x =>
    obtain ⟨b, track, a⟩ := x
    obtain ⟨he, _, _⟩ := findTrackSplit_eq tid s.tracks b track a hts
    refine timeInv_saveHistory _ (timeInv_updPD _ ⟨?_, h.2.1, h.2.2.1, h.2.2.2⟩)
    intro tr' htr' c hc
    rcases List.mem_append.mp htr' with hb | hca
    · exact h.1 tr' (by rw [he]; exact List.mem_append.mpr (Or.inl hb)) c hc
    · rcases List.mem_cons.mp hca with rfl | ha
      · rcases List.mem_append.mp hc with hcc | hnc
        · exact h.1 track
            (by rw [he]; exact List.mem_append.mpr (Or.inr (List.mem_cons_self _ _))) c hcc
        · rw [List.mem_singleton.mp hnc]
          exact hok track.type
      · exact h.1 tr'
          (by rw [he]; exact List.mem_append.mpr (Or.inr (List.mem_cons_of_mem _ ha))) c hc

theorem timeInv_removeClip (s : EditorStore) (cid : Option Nat) (h : TimeInv s) :
    TimeInv (removeClip s cid) := by
  unfold removeClip
  cases hrem : removeClipFromTracks cid s.tracks with
  | none => exact h
  | some ts' =>
    refine timeInv_saveHistory _ (timeInv_updPD _ ⟨?_, h.2.1, h.2.2.1, h.2.2.2⟩)
    intro tr' htr' c hc
    obtain ⟨tr, htr, hcc⟩ := mem_of_removeClipFromTracks cid s.tracks ts' hrem tr' htr' c hc
    exact h.1 tr htr c hcc

theorem timeInv_splitClip (s : EditorStore) (cid : Option Nat) (m : ℚ) (h : TimeInv s) :
    TimeInv (splitClip s cid m).1 := by
  cases hget : getClipById s.tracks cid with
  | none =>
    have heq : splitClip s cid m = (s, none) := by
      unfold splitClip
      rw [hget]
    rw [heq]
    exact h
  | some clip =>
    cases htrk : getTrackByClipId s.tracks cid with
    | none =>
      have heq : splitClip s cid m = (s, none) := by
        unfold splitClip
        rw [hget]
        rw [htrk]
      rw [heq]
      exact h
    | some tr0 =>
      have hclipOK : ClipOK clip := by
        obtain ⟨tb, tr, ta, bb, aa, hts2, _, htrc, _, _⟩ :=
          getClipById_decomp cid s.tracks clip hget
        exact h.1 tr
          (by rw [hts2]; exact List.mem_append.mpr (Or.inr (List.mem_cons_self _ _))) clip
          (by rw [htrc]; exact List.mem_append.mpr (Or.inr (List.mem_cons_self _ _)))
      by_cases hb : m ≤ clip.startTime ∨ clip.endTime ≤ m
      · have heq : splitClip s cid m = (s, none) := by
          unfold splitClip
          simp only [hget, htrk]
          rw [if_pos hb]
        rw [heq]
        exact h
      · push_neg at hb
        obtain ⟨h1, h2⟩ := hb
        have heq : (splitClip s cid m).1 =
            saveHistory
              { s with nextId := s.nextId + 1
                       tracks := splitInsert cid (splitFirstClip clip m)
                         (splitSecondClip clip m s.nextId) s.tracks } := by
          unfold splitClip
          simp only [hget, htrk]
          rw [if_neg (by push_neg; exact ⟨h1, h2⟩)]
        rw [heq]
        refine timeInv_saveHistory _ ⟨?_, h.2.1, h.2.2.1, h.2.2.2⟩
        intro tr' htr' c hc
        rcases mem_of_splitInsert cid _ _ s.tracks tr' htr' c hc with rfl | rfl | ⟨tr, htr, hcc⟩
        · exact ⟨hclipOK.1, h1, rfl⟩
        · exact ⟨le_trans hclipOK.1 (le_of_lt h1), h2, rfl⟩
        · exact h.1 tr htr c hcc

/-- The re-parenting tail of `moveClip` preserves well-formed clip times:
whatever branch is taken, every clip is the moved clip or one of `ts1`. -/
theorem tracksTimeOK_reparent (n : Nat) (cid : Option Nat) (mv : Clip) (ty : TrackType)
    (ts1 : List Track) (h1 : TracksTimeOK ts1) (hmv : ClipOK mv) :
    TracksTimeOK
      (match findTrack ts1 n with
       | some newTrack =>
         if newTrack.type = ty then
           pushClipToTrack n mv
             (match removeClipFromTracks cid ts1 with
              | some ts => ts
              | none => ts1)
         else ts1
       | none => ts1) := by
  split
  · split
    · split
      · rename_i ts2 heq2
        intro tr' htr' x hx
        rcases mem_of_pushClipToTrack _ _ _ tr' htr' x hx with rfl | ⟨tr, htr, hxx⟩
        · exact hmv
        · obtain ⟨tr2, htr2, hxx2⟩ := mem_of_removeClipFromTracks _ _ _ heq2 tr htr x hxx
          exact h1 tr2 htr2 x hxx2
      · intro tr' htr' x hx
        rcases mem_of_pushClipToTrack _ _ _ tr' htr' x hx with rfl | ⟨tr, htr, hxx⟩
        · exact hmv
        · exact h1 tr htr x hxx
    · exact h1
  · exact h1

theorem timeInv_moveClip (s : EditorStore) (cid : Option Nat) (req : ℚ)
    (ntid : Option Nat) (h : TimeInv s) : TimeInv (moveClip s cid req ntid) := by
  cases hget : getClipById s.tracks cid with
  | none =>
    have heq : moveClip s cid req ntid = s := by
      unfold moveClip
      rw [hget]
    rw [heq]
    exact h
  | some clip =>
    cases htrk : getTrackByClipId s.tracks cid with
    | none =>
      have heq : moveClip s cid req ntid = s := by
        unfold moveClip
        rw [hget]
        rw [htrk]
      rw [heq]
      exact h
    | some curTr =>
      have hclipOK : ClipOK clip := by
        obtain ⟨tb, tr, ta, bb, aa, hts2, _, htrc, _, _⟩ :=
          getClipById_decomp cid s.tracks clip hget
        exact h.1 tr
          (by rw [hts2]; exact List.mem_append.mpr (Or.inr (List.mem_cons_self _ _))) clip
          (by rw [htrc]; exact List.mem_append.mpr (Or.inr (List.mem_cons_self _ _)))
      cases ntid with
      | none =>
        unfold moveClip
        simp only [hget, htrk]
        refine timeInv_setTracks s _ h ?_
        exact tracksTimeOK_modify _ _ _ h.1
          (fun c _ => clipOK_moveTo clip _ hclipOK (le_qmax_left 0 _))
      | some n =>
        unfold moveClip
        simp only [hget, htrk]
        refine timeInv_setTracks s _ h ?_
        by_cases hn : n = curTr.id
        · rw [if_pos hn]
          exact tracksTimeOK_modify _ _ _ h.1
            (fun c _ => clipOK_moveTo clip _ hclipOK (le_qmax_left 0 _))
        · rw [if_neg hn]
          exact tracksTimeOK_reparent n cid _ curTr.type _
            (tracksTimeOK_modify _ _ _ h.1
              (fun c _ => clipOK_moveTo clip _ hclipOK (le_qmax_left 0 _)))
            (clipOK_moveTo clip _ hclipOK (le_qmax_left 0 _))

theorem timeInv_trimClipStart (s : EditorStore) (cid : Option Nat) (req : ℚ)
    (h : TimeInv s) : TimeInv (trimClipStart s cid req) := by
  unfold trimClipStart
  split
  · exact h
  · refine ⟨?_, h.2.1, h.2.2.1, h.2.2.2⟩
    refine tracksTimeOK_modify _ _ _ h.1 ?_
    intro c hc
    obtain ⟨h0, h1, h2⟩ := hc
    refine ⟨?_, ?_, ?_⟩
    · show (0:ℚ) ≤ qmax 0 (qmin (c.endTime - 1/10) req)
      exact le_qmax_left 0 _
    · show qmax 0 (qmin (c.endTime - 1/10) req) < c.endTime
      refine qmax_lt_of _ _ _ (by linarith) ?_
      exact lt_of_le_of_lt (qmin_le_left _ _) (by linarith)
    · rfl

theorem timeInv_trimClipEnd (s : EditorStore) (cid : Option Nat) (req : ℚ)
    (h : TimeInv s) : TimeInv (trimClipEnd s cid req) := by
  unfold trimClipEnd
  split
  · exact h
  · refine timeInv_setTracks s _ h ?_
    refine tracksTimeOK_modify _ _ _ h.1 ?_
    intro c hc
    obtain ⟨h0, h1, h2⟩ := hc
    refine ⟨?_, ?_, ?_⟩
    · show (0:ℚ) ≤ c.startTime
      exact h0
    · show c.startTime < qmax (c.startTime + 1/10) req
      exact lt_of_lt_of_le (by linarith) (le_qmax_left _ _)
    · rfl

theorem timeInv_deselectAll (s : EditorStore) (h : TimeInv s) : TimeInv (deselectAll s) :=
  ⟨tracksTimeOK_clearAllFlags s.tracks h.1, h.2.1, h.2.2.1, h.2.2.2⟩

theorem timeInv_selectClip (s : EditorStore) (cid : Option Nat) (a : Bool) (h : TimeInv s) :
    TimeInv (selectClip s cid a) := by
  have h1 : TimeInv (if a = true then s
      else { s with tracks := clearAllFlags s.tracks, selectedClipIds := [] }) := by
    split
    · exact h
    · exact ⟨tracksTimeOK_clearAllFlags s.tracks h.1, h.2.1, h.2.2.1, h.2.2.2⟩
  simp only [selectClip]
  split
  · exact h1
  · exact ⟨tracksTimeOK_modify _ _ _ h1.1 (fun c hc => hc), h1.2.1, h1.2.2.1, h1.2.2.2⟩

theorem timeInv_deselectClip (s : EditorStore) (cid : Option Nat) (h : TimeInv s) :
    TimeInv (deselectClip s cid) := by
  unfold deselectClip
  split
  · exact h
  · exact ⟨tracksTimeOK_modify _ _ _ h.1 (fun c hc => hc), h.2.1, h.2.2.1, h.2.2.2⟩

theorem timeInv_selectAllClips (s : EditorStore) (h : TimeInv s) :
    TimeInv (selectAllClips s) :=
  ⟨tracksTimeOK_mapClips (fun c => { c with isSelected := true }) (fun c hc => hc) s.tracks h.1,
    h.2.1, h.2.2.1, h.2.2.2⟩

theorem timeInv_copySelectedClips (s : EditorStore) (h : TimeInv s) :
    TimeInv (copySelectedClips s) := by
  refine ⟨h.1, h.2.1, ?_, h.2.2.2⟩
  intro c hc
  obtain ⟨tr, htr, hcc⟩ := mem_of_selectedClipsIn s.selectedClipIds s.tracks c hc
  have hco := h.1 tr htr c hcc
  rw [hco.2.2]
  linarith [hco.2.1]

theorem timeInv_pasteLoop (pt m : ℚ) (cb : List Clip) :
    ∀ s : EditorStore, TimeInv s → 0 ≤ pt →
      (∀ c ∈ cb, 0 < c.duration ∧ m ≤ c.startTime) → TimeInv (pasteLoop pt m cb s) := by
  induction cb with
  | nil => intro s h _ _; exact h
  | cons c rest ih =>
    intro s h hpt hcb
    cases hft : findTrackOfType c.type s.tracks with
    | none =>
      rw [pasteLoop]
      refine ih _ ?_ hpt (fun x hx => hcb x (List.mem_cons_of_mem _ hx))
      simp only [hft]
      exact h
    | some track =>
      rw [pasteLoop]
      refine ih _ ?_ hpt (fun x hx => hcb x (List.mem_cons_of_mem _ hx))
      simp only [hft]
      by_cases hl : track.isLocked = true
      · rw [if_pos hl]; exact h
      · rw [if_neg hl]
        refine timeInv_addClip _ _ _ h ?_
        intro ty
        obtain ⟨hd, hm⟩ := hcb c (List.mem_cons_self _ _)
        refine ⟨?_, ?_, ?_⟩
        · show (0:ℚ) ≤ pt + (c.startTime - m)
          linarith
        · show pt + (c.startTime - m) < pt + (c.startTime - m) + c.duration
          linarith
        · show c.duration = pt + (c.startTime - m) + c.duration - (pt + (c.startTime - m))
          ring

theorem timeInv_pasteClips (s : EditorStore) (h : TimeInv s) : TimeInv (pasteClips s) := by
  unfold pasteClips
  split
  · exact h
  · refine timeInv_pasteLoop s.currentTime (minStart s.clipboard) s.clipboard s h h.2.2.2 ?_
    intro c hc
    exact ⟨h.2.2.1 c hc, minStart_le s.clipboard c hc⟩

theorem timeInv_dupLoop (cap : List Clip) :
    ∀ s : EditorStore, TimeInv s → (∀ c ∈ cap, ClipOK c) → TimeInv (dupLoop cap s) := by
  induction cap with
  | nil => intro s h _; exact h
  | cons c rest ih =>
    intro s h hcap
    cases htrk : getTrackByClipId s.tracks c.id with
    | none =>
      rw [dupLoop]
      refine ih _ ?_ (fun x hx => hcap x (List.mem_cons_of_mem _ hx))
      simp only [htrk]
      exact h
    | some track =>
      rw [dupLoop]
      refine ih _ ?_ (fun x hx => hcap x (List.mem_cons_of_mem _ hx))
      simp only [htrk]
      by_cases hl : track.isLocked = true
      · rw [if_pos hl]; exact h
      · rw [if_neg hl]
        have hadd : TimeInv (addClip s track.id (dupData c)).1 := by
          refine timeInv_addClip _ _ _ h ?_
          intro ty
          obtain ⟨h0, h1, h2⟩ := hcap c (List.mem_cons_self _ _)
          have hdur : (0:ℚ) < c.duration := by rw [h2]; linarith
          refine ⟨?_, ?_, ?_⟩
          · show (0:ℚ) ≤ c.endTime
            linarith
          · show c.endTime < c.endTime + c.duration
            linarith
          · show c.duration = c.endTime + c.duration - c.endTime
            ring
        cases hres : addClip s track.id (dupData c) with
        | mk s1 r =>
          rw [hres] at hadd
          cases r with
          | none => exact hadd
          | some nc => exact timeInv_selectClip s1 nc.id true hadd

theorem timeInv_duplicateSelectedClips (s : EditorStore) (h : TimeInv s) :
    TimeInv (duplicateSelectedClips s) := by
  unfold duplicateSelectedClips
  refine timeInv_dupLoop _ _ (timeInv_deselectAll s h) ?_
  intro c hc
  obtain ⟨c0, hc0, rfl⟩ := List.mem_map.mp hc
  obtain ⟨tr, htr, hcc⟩ := mem_of_selectedClipsIn s.selectedClipIds s.tracks c0 hc0
  exact h.1 tr htr c0 hcc

theorem timeInv_deleteLoop (ids : List (Option Nat)) :
    ∀ s : EditorStore, TimeInv s → TimeInv (deleteLoop ids s) := by
  induction ids with
  | nil => intro s h; exact h
  | cons i rest ih => intro s h; exact ih _ (timeInv_removeClip s i h)

theorem timeInv_deleteSelectedClips (s : EditorStore) (h : TimeInv s) :
    TimeInv (deleteSelectedClips s) :=
  timeInv_deleteLoop s.selectedClipIds s h

theorem timeInv_undo (s : EditorStore) (h : TimeInv s) : TimeInv (undo s) := by
  unfold undo
  split
  · split
    · rename_i st heq
      exact ⟨h.2.1 st (List.get?_mem heq), h.2.1, h.2.2.1, h.2.2.2⟩
    · exact h
  · exact h

theorem timeInv_redo (s : EditorStore) (h : TimeInv s) : TimeInv (redo s) := by
  unfold redo
  split
  · split
    · rename_i st heq
      exact ⟨h.2.1 st (List.get?_mem heq), h.2.1, h.2.2.1, h.2.2.2⟩
    · exact h
  · exact h

theorem timeInv_updateTime (s : EditorStore) (t : ℚ) (ht : 0 ≤ t) (h : TimeInv s) :
    TimeInv (updateTime s t) :=
  ⟨h.1, h.2.1, h.2.2.1, ht⟩

/-- One `safeTime` operation preserves the state-wide time invariant. -/
theorem timeInv_step (op : EditOp) (s : EditorStore) (hop : safeTime op s = true)
    (h : TimeInv s) : TimeInv (applyOp op s) := by
  cases op with
  | addTrack ty n => exact timeInv_addTrack s ty n h
  | removeTrack tid => exact timeInv_removeTrack s tid h
  | addClip tid d =>
    refine timeInv_addClip s tid d h ?_
    intro ty
    simp only [safeTime, Bool.and_eq_true, decide_eq_true_eq] at hop
    exact ⟨hop.1.1, hop.1.2, hop.2⟩
  | removeClip cid => exact timeInv_removeClip s cid h
  | updateClip cid u => exact Bool.noConfusion hop
  | splitClip cid t => exact timeInv_splitClip s cid t h
  | moveClip cid t ntid => exact timeInv_moveClip s cid t ntid h
  | trimClipStart cid t => exact timeInv_trimClipStart s cid t h
  | trimClipEnd cid t => exact timeInv_trimClipEnd s cid t h
  | selectClip cid a => exact timeInv_selectClip s cid a h
  | deselectClip cid => exact timeInv_deselectClip s cid h
  | deselectAll => exact timeInv_deselectAll s h
  | selectAllClips => exact timeInv_selectAllClips s h
  | copySelectedClips => exact timeInv_copySelectedClips s h
  | pasteClips => exact timeInv_pasteClips s h
  | duplicateSelectedClips => exact timeInv_duplicateSelectedClips s h
  | deleteSelectedClips => exact timeInv_deleteSelectedClips s h
  | undo => exact timeInv_undo s h
  | redo => exact timeInv_redo s h
  | updateTime t => exact timeInv_updateTime s t (of_decide_eq_true hop) h

theorem timeInv_seq (ops : List EditOp) :
    ∀ s : EditorStore, TimeInv s → SafeTimeSeq ops s = true → TimeInv (applyOps ops s) := by
  induction ops with
  | nil => intro s h _; exact h
  | cons op rest ih =>
    intro s h hsafe
    rw [SafeTimeSeq, Bool.and_eq_true] at hsafe
    exact ih _ (timeInv_step op s hsafe.1 h) hsafe.2

/-- C3 (amended): from a state satisfying the data-model time invariant
(every clip has `0 ≤ startTime < endTime` and `duration = endTime -
startTime`, in the live tracks, every history entry and the clipboard, and
the playhead is nonnegative), the invariant is preserved by every sequence
of operations that avoids `updateClip` (whose blind shallow merge can break
it), uses `addClip` only with effective time fields that are themselves
consistent, and keeps the playhead nonnegative; afterwards every clip on
every track satisfies `endTime > startTime` and
`duration = endTime - startTime` exactly. -/
theorem C3_time_invariant (s : EditorStore) (ops : List EditOp) (hinv : TimeInv s)
    (hsafe : SafeTimeSeq ops s = true) :
    TimeInv (applyOps ops s) ∧
      ∀ tr ∈ (applyOps ops s).tracks, ∀ c ∈ tr.clips,
        c.startTime < c.endTime ∧ c.duration = c.endTime - c.startTime := by
  have main := timeInv_seq ops s hinv hsafe
  exact ⟨main, fun tr htr c hc => ⟨(main.1 tr htr c hc).2.1, (main.1 tr htr c hc).2.2⟩⟩

/-- C3 counterexample: the claim includes `updateClip` among the
invariant-preserving operations, but `Object.assign(clip, updates)` never
recomputes `duration`: updating the `[2,5)` clip's start to 4 leaves
`duration = 3 ≠ 5 - 4`. -/
theorem C3_counterexample :
    TimeInv exClipA ∧
      ¬∀ tr ∈ (updateClip exClipA (some 1) { startTime := some 4 }).tracks, ∀ c ∈ tr.clips,
          c.startTime < c.endTime ∧ c.duration = c.endTime - c.startTime := by
  with_unfolding_all decide

/-- C3 witness: a concrete valid store, a concrete safe sequence, and the
invariant conclusion at them. -/
theorem C3_witness :
    TimeInv exClipA ∧
      SafeTimeSeq [EditOp.moveClip (some 1) 6 none, EditOp.undo] exClipA = true ∧
      (TimeInv (applyOps [EditOp.moveClip (some 1) 6 none, EditOp.undo] exClipA) ∧
        ∀ tr ∈ (applyOps [EditOp.moveClip (some 1) 6 none, EditOp.undo] exClipA).tracks,
          ∀ c ∈ tr.clips,
            c.startTime < c.endTime ∧ c.duration = c.endTime - c.startTime) :=
  ⟨by with_unfolding_all decide, by with_unfolding_all decide,
    C3_time_invariant exClipA [EditOp.moveClip (some 1) 6 none, EditOp.undo]
      (by with_unfolding_all decide) (by with_unfolding_all decide)⟩

/-! ### C8: preservation of selection consistency -/

theorem clipIds_append (xs ys : List Track) :
    clipIds (xs ++ ys) = clipIds xs ++ clipIds ys := by
  induction xs with
  | nil => rfl
  | cons hd tl ih => rw [List.cons_append, clipIds, ih, clipIds, List.append_assoc]

theorem mem_clipIds_of (ts : List Track) (tr : Track) (c : Clip) (htr : tr ∈ ts)
    (hc : c ∈ tr.clips) : c.id ∈ clipIds ts := by
  induction ts with
  | nil => cases htr
  | cons hd tl ih =>
    rw [clipIds]
    rcases List.mem_cons.mp htr with rfl | h2
    · exact List.mem_append.mpr (Or.inl (List.mem_map_of_mem _ hc))
    · exact List.mem_append.mpr (Or.inr (ih h2))

theorem clipIds_modify (cid : Option Nat) (f : Clip → Clip) (ts : List Track)
    (hf : ∀ c, (f c).id = c.id) :
    clipIds (modifyClipInTracks cid f ts) = clipIds ts := by
  induction ts with
  | nil => rfl
  | cons hd tl ih =>
    cases hml : modifyClipInList cid f hd.clips with
    | some cs =>
      simp only [modifyClipInTracks, hml]
      rw [clipIds, clipIds]
      rw [modifyClipInList_eq_split] at hml
      cases hfs : findClipSplit cid hd.clips with
      | none => rw [hfs] at hml; cases hml
      | some p =>
        obtain ⟨b, c, a⟩ := p
        rw [hfs] at hml
        obtain rfl : b ++ f c :: a = cs := by simpa using hml
        obtain ⟨hcs, _, _⟩ := findClipSplit_eq cid hd.clips b c a hfs
        rw [hcs]
        simp [hf c]
    | none =>
      simp only [modifyClipInTracks, hml]
      rw [clipIds, clipIds, ih]

theorem clipIds_mapClips (g : Clip → Clip) (hg : ∀ c, (g c).id = c.id) (ts : List Track) :
    clipIds (ts.map fun tr => { tr with clips := tr.clips.map g }) = clipIds ts := by
  induction ts with
  | nil => rfl
  | cons hd tl ih =>
    rw [List.map_cons, clipIds, clipIds, ih, List.map_map]
    congr 1
    exact List.map_congr_left (fun c _ => hg c)

theorem clipIds_clearAllFlags (ts : List Track) : clipIds (clearAllFlags ts) = clipIds ts :=
  clipIds_mapClips (fun c => { c with isSelected := false }) (fun c => rfl) ts

theorem idBound_mono (n m : Nat) (x : Option Nat) (h : idBound n x) (hnm : n ≤ m) :
    idBound m x := by
  cases x with
  | none => exact trivial
  | some k => exact lt_of_lt_of_le h hnm

theorem idsOK_mono (ts : List Track) (sel : List (Option Nat)) (n m : Nat)
    (h : IdsOK ts sel n) (hnm : n ≤ m) : IdsOK ts sel m :=
  ⟨h.1, h.2.1, fun x hx => idBound_mono n m x (h.2.2.1 x hx) hnm,
    fun x hx => idBound_mono n m x (h.2.2.2 x hx) hnm⟩

/-- Inserting a fresh element in the middle of a duplicate-free list keeps
it duplicate-free. -/
theorem nodup_insert_mid (A B C D : List (Option Nat)) (i a : Option Nat)
    (h : (A ++ ((B ++ i :: C) ++ D)).Nodup) (ha : a ∉ A ++ ((B ++ i :: C) ++ D)) :
    (A ++ ((B ++ i :: a :: C) ++ D)).Nodup := by
  have e1 : A ++ ((B ++ i :: a :: C) ++ D) = (A ++ B ++ [i]) ++ a :: (C ++ D) := by simp
  have e2 : A ++ ((B ++ i :: C) ++ D) = (A ++ B ++ [i]) ++ (C ++ D) := by simp
  rw [e2] at h ha
  rw [e1]
  exact List.nodup_middle.mpr (List.nodup_cons.mpr ⟨ha, h⟩)

/-- With globally distinct clip ids, the clips after the first match and the
clips of later tracks all have a different id. -/
theorem nodup_ne_facts (tb : List Track) (tr0 : Track) (ta : List Track) (b0 : List Clip)
    (c0 : Clip) (a0 : List Clip) (htr0 : tr0.clips = b0 ++ c0 :: a0)
    (hnd : (clipIds (tb ++ tr0 :: ta)).Nodup) :
    (∀ x ∈ a0, x.id ≠ c0.id) ∧ ∀ t ∈ ta, ∀ x ∈ t.clips, x.id ≠ c0.id := by
  have heq : clipIds (tb ++ tr0 :: ta) =
      (clipIds tb ++ b0.map (fun c => c.id)) ++ c0.id ::
        (a0.map (fun c => c.id) ++ clipIds ta) := by
    rw [clipIds_append, clipIds, htr0]
    simp
  rw [heq] at hnd
  have hnotin := (List.nodup_cons.mp (List.nodup_middle.mp hnd)).1
  constructor
  · intro x hx hxe
    exact hnotin (List.mem_append.mpr (Or.inr
      (List.mem_append.mpr (Or.inl (hxe ▸ List.mem_map_of_mem _ hx)))))
  · intro t ht x hx hxe
    exact hnotin (List.mem_append.mpr (Or.inr
      (List.mem_append.mpr (Or.inr (hxe ▸ mem_clipIds_of ta t x ht hx)))))

/-- With globally distinct clip ids, clips of a track and clips of every
other track have different ids. -/
theorem nodup_track_disjoint (tb : List Track) (tr0 : Track) (ta : List Track)
    (hnd : (clipIds (tb ++ tr0 :: ta)).Nodup) :
    ∀ t ∈ tb ++ ta, ∀ x ∈ t.clips, ∀ y ∈ tr0.clips, x.id ≠ y.id := by
  have heq : clipIds (tb ++ tr0 :: ta) =
      clipIds tb ++ (tr0.clips.map (fun c => c.id) ++ clipIds ta) := by
    rw [clipIds_append, clipIds]
  rw [heq] at hnd
  have hd1 := List.disjoint_of_nodup_append hnd
  have hd2 := List.disjoint_of_nodup_append (List.Nodup.of_append_right hnd)
  intro t ht x hx y hy hxy
  rcases List.mem_append.mp ht with h1 | h2
  · exact hd1 (mem_clipIds_of tb t x h1 hx)
      (List.mem_append.mpr (Or.inl (hxy ▸ List.mem_map_of_mem _ hy)))
  · exact hd2 (hxy ▸ List.mem_map_of_mem _ hy) (mem_clipIds_of ta t x h2 hx)

theorem mem_removeFirstId_ne (x i : Option Nat) (sel : List (Option Nat)) (hne : i ≠ x) :
    i ∈ removeFirstId x sel ↔ i ∈ sel := by
  induction sel with
  | nil => rfl
  | cons y rest ih =>
    rw [removeFirstId]
    by_cases hy : y = x
    · rw [if_pos hy]
      constructor
      · exact fun h => List.mem_cons_of_mem _ h
      · intro h
        rcases List.mem_cons.mp h with rfl | h2
        · exact absurd hy hne
        · exact h2
    · rw [if_neg hy, List.mem_cons, List.mem_cons, ih]

theorem not_mem_removeFirstId (x : Option Nat) (sel : List (Option Nat))
    (hnd : sel.Nodup) : x ∉ removeFirstId x sel := by
  induction sel with
  | nil => exact List.not_mem_nil x
  | cons y rest ih =>
    rw [removeFirstId]
    by_cases hy : y = x
    · rw [if_pos hy]
      rw [← hy]
      exact (List.nodup_cons.mp hnd).1
    · rw [if_neg hy]
      intro h
      rcases List.mem_cons.mp h with h1 | h2
      · exact hy h1.symm
      · exact ih (List.nodup_cons.mp hnd).2 h2

theorem removeFirstId_sublist (x : Option Nat) (sel : List (Option Nat)) :
    List.Sublist (removeFirstId x sel) sel := by
  induction sel with
  | nil => exact List.Sublist.refl _
  | cons y rest ih =>
    rw [removeFirstId]
    by_cases hy : y = x
    · rw [if_pos hy]
      exact List.sublist_cons_self _ _
    · rw [if_neg hy]
      exact List.Sublist.cons₂ _ ih

theorem removeClipsSel_sublist (cs : List Clip) :
    ∀ sel : List (Option Nat), List.Sublist (removeClipsSel sel cs) sel := by
  induction cs with
  | nil => intro sel; exact List.Sublist.refl _
  | cons c rest ih =>
    intro sel
    rw [removeClipsSel]
    exact (ih _).trans (removeFirstId_sublist c.id sel)

theorem mem_removeClipsSel_ne (cs : List Clip) :
    ∀ sel : List (Option Nat), ∀ i : Option Nat, (∀ x ∈ cs, x.id ≠ i) →
      (i ∈ removeClipsSel sel cs ↔ i ∈ sel) := by
  induction cs with
  | nil => intro sel i _; rfl
  | cons c rest ih =>
    intro sel i h
    rw [removeClipsSel, ih _ i (fun x hx => h x (List.mem_cons_of_mem _ hx)),
      mem_removeFirstId_ne c.id i sel (fun he => h c (List.mem_cons_self _ _) he.symm)]

theorem selectAllFold_sub (cs : List Clip) :
    ∀ sel : List (Option Nat), ∀ i ∈ sel, i ∈ selectAllFold sel cs := by
  induction cs with
  | nil => intro sel i hi; exact hi
  | cons c rest ih =>
    intro sel i hi
    rw [selectAllFold]
    refine ih _ i ?_
    by_cases hm : c.id ∈ sel
    · rw [if_pos hm]; exact hi
    · rw [if_neg hm]; exact List.mem_append.mpr (Or.inl hi)

theorem selectAllFold_self (cs : List Clip) :
    ∀ sel : List (Option Nat), ∀ c ∈ cs, c.id ∈ selectAllFold sel cs := by
  induction cs with
  | nil => intro sel c hc; cases hc
  | cons c rest ih =>
    intro sel x hx
    rw [selectAllFold]
    rcases List.mem_cons.mp hx with rfl | h2
    · refine selectAllFold_sub rest _ x.id ?_
      by_cases hm : x.id ∈ sel
      · rw [if_pos hm]; exact hm
      · rw [if_neg hm]; exact List.mem_append.mpr (Or.inr (List.mem_singleton.mpr rfl))
    · exact ih _ x h2

theorem mem_of_selectAllFold (cs : List Clip) :
    ∀ sel i, i ∈ selectAllFold sel cs → i ∈ sel ∨ ∃ c ∈ cs, i = c.id := by
  induction cs with
  | nil => intro sel i hi; exact Or.inl hi
  | cons c rest ih =>
    intro sel i hi
    rw [selectAllFold] at hi
    rcases ih _ i hi with h1 | ⟨c2, hc2, he⟩
    · by_cases hm : c.id ∈ sel
      · rw [if_pos hm] at h1; exact Or.inl h1
      · rw [if_neg hm] at h1
        rcases List.mem_append.mp h1 with h2 | h3
        · exact Or.inl h2
        · exact Or.inr ⟨c, List.mem_cons_self _ _, List.mem_singleton.mp h3⟩
    · exact Or.inr ⟨c2, List.mem_cons_of_mem _ hc2, he⟩

theorem nodup_selectAllFold (cs : List Clip) :
    ∀ sel : List (Option Nat), sel.Nodup → (selectAllFold sel cs).Nodup := by
  induction cs with
  | nil => intro sel h; exact h
  | cons c rest ih =>
    intro sel h
    rw [selectAllFold]
    refine ih _ ?_
    by_cases hm : c.id ∈ sel
    · rw [if_pos hm]; exact h
    · rw [if_neg hm]
      rw [List.nodup_append]
      refine ⟨h, List.nodup_singleton _, ?_⟩
      intro a ha hb
      rw [List.mem_singleton.mp hb] at ha
      exact hm ha

theorem selectAllTracksFold_sub (ts : List Track) :
    ∀ sel : List (Option Nat), ∀ i ∈ sel, i ∈ selectAllTracksFold sel ts := by
  induction ts with
  | nil => intro sel i hi; exact hi
  | cons hd tl ih =>
    intro sel i hi
    rw [selectAllTracksFold]
    exact ih _ i (selectAllFold_sub hd.clips sel i hi)

theorem selectAllTracksFold_self (ts : List Track) :
    ∀ sel : List (Option Nat), ∀ tr ∈ ts, ∀ c ∈ tr.clips,
      c.id ∈ selectAllTracksFold sel ts := by
  induction ts with
  | nil => intro sel tr htr; cases htr
  | cons hd tl ih =>
    intro sel tr htr c hc
    rw [selectAllTracksFold]
    rcases List.mem_cons.mp htr with rfl | h2
    · exact selectAllTracksFold_sub tl _ c.id (selectAllFold_self tr.clips sel c hc)
    · exact ih _ tr h2 c hc

theorem mem_of_selectAllTracksFold (ts : List Track) :
    ∀ sel i, i ∈ selectAllTracksFold sel ts →
      i ∈ sel ∨ ∃ tr ∈ ts, ∃ c ∈ tr.clips, i = c.id := by
  induction ts with
  | nil => intro sel i hi; exact Or.inl hi
  | cons hd tl ih =>
    intro sel i hi
    rw [selectAllTracksFold] at hi
    rcases ih _ i hi with h1 | ⟨tr, htr, c, hc, he⟩
    · rcases mem_of_selectAllFold hd.clips sel i h1 with h2 | ⟨c, hc, he⟩
      · exact Or.inl h2
      · exact Or.inr ⟨hd, List.mem_cons_self _ _, c, hc, he⟩
    · exact Or.inr ⟨tr, List.mem_cons_of_mem _ htr, c, hc, he⟩

theorem nodup_selectAllTracksFold (ts : List Track) :
    ∀ sel : List (Option Nat), sel.Nodup → (selectAllTracksFold sel ts).Nodup := by
  induction ts with
  | nil => intro sel h; exact h
  | cons hd tl ih =>
    intro sel h
    rw [selectAllTracksFold]
    exact ih _ (nodup_selectAllFold hd.clips sel h)

/-- Removing a clip only removes ids: the result's id list is a sublist. -/
theorem clipIds_remove_sublist (cid : Option Nat) (ts ts' : List Track)
    (h : removeClipFromTracks cid ts = some ts') :
    List.Sublist (clipIds ts') (clipIds ts) := by
  induction ts generalizing ts' with
  | nil => cases h
  | cons hd tl ih =>
    rw [removeClipFromTracks] at h
    cases hfs : findClipSplit cid hd.clips with
    | some p =>
      obtain ⟨b, c, a⟩ := p
      rw [hfs] at h
      obtain rfl : ({ hd with clips := b ++ a } :: tl) = ts' := by simpa using h
      obtain ⟨hcs, _, _⟩ := findClipSplit_eq cid hd.clips b c a hfs
      rw [clipIds, clipIds, hcs]
      refine List.Sublist.append ?_ (List.Sublist.refl _)
      simp only [List.map_append, List.map_cons]
      exact List.Sublist.append (List.Sublist.refl _) (List.sublist_cons_self _ _)
    | none =>
      rw [hfs] at h
      cases hrec : removeClipFromTracks cid tl with
      | some ts2 =>
        rw [hrec] at h
        obtain rfl : hd :: ts2 = ts' := by simpa using h
        rw [clipIds, clipIds]
        exact List.Sublist.append (List.Sublist.refl _) (ih ts2 hrec)
      | none => rw [hrec] at h; cases h

/-- The full positional description of a successful clip removal. -/
theorem removeClipFromTracks_decomp (cid : Option Nat) (ts ts' : List Track)
    (h : removeClipFromTracks cid ts = some ts') :
    ∃ tb tr ta b c a, ts = tb ++ tr :: ta ∧ (∀ t ∈ tb, findClip cid t.clips = none) ∧
      tr.clips = b ++ c :: a ∧ (∀ x ∈ b, x.id ≠ cid) ∧ c.id = cid ∧
      ts' = tb ++ { tr with clips := b ++ a } :: ta := by
  induction ts generalizing ts' with
  | nil => cases h
  | cons hd tl ih =>
    rw [removeClipFromTracks] at h
    cases hfs : findClipSplit cid hd.clips with
    | some p =>
      obtain ⟨b, c, a⟩ := p
      rw [hfs] at h
      obtain rfl : ({ hd with clips := b ++ a } :: tl) = ts' := by simpa using h
      obtain ⟨h1, h2, h3⟩ := findClipSplit_eq cid hd.clips b c a hfs
      exact ⟨[], hd, tl, b, c, a, rfl, by simp, h1, h3, h2, rfl⟩
    | none =>
      rw [hfs] at h
      cases hrec : removeClipFromTracks cid tl with
      | some ts2 =>
        rw [hrec] at h
        obtain rfl : hd :: ts2 = ts' := by simpa using h
        obtain ⟨tb, tr, ta, b, c, a, H1, H2, H3, H4, H5, H6⟩ := ih ts2 hrec
        refine ⟨hd :: tb, tr, ta, b, c, a, by simp [H1], ?_, H3, H4, H5, by simp [H6]⟩
        intro t ht
        rcases List.mem_cons.mp ht with rfl | ht2
        · rw [findClip_eq_split, hfs]
          rfl
        · exact H2 t ht2
      | none => rw [hrec] at h; cases h

theorem selOK_clear (ts : List Track) : SelOK (clearAllFlags ts) [] := by
  intro tr htr c hc
  obtain ⟨tr0, htr0, rfl⟩ := List.mem_map.mp htr
  obtain ⟨c0, hc0, rfl⟩ := List.mem_map.mp hc
  constructor
  · intro hfalse
    exact absurd hfalse (by simp)
  · intro hmem
    exact absurd hmem (List.not_mem_nil _)

theorem getClipById_mem (cid : Option Nat) (ts : List Track) (c : Clip)
    (h : getClipById ts cid = some c) : ∃ tr ∈ ts, c ∈ tr.clips := by
  obtain ⟨tb, tr, ta, b, a, hts, _, htr, _, _⟩ := getClipById_decomp cid ts c h
  exact ⟨tr, by rw [hts]; exact List.mem_append.mpr (Or.inr (List.mem_cons_self _ _)),
    by rw [htr]; exact List.mem_append.mpr (Or.inr (List.mem_cons_self _ _))⟩

/-- Setting the selection flag of the (unique) clip with id `cid` keeps
flags consistent with any selection set that agrees with the old one away
from `cid` and whose membership of `cid` matches the new flag. -/
theorem selOK_setFlag (cid : Option Nat) (flag : Bool) (ts : List Track)
    (sel sel' : List (Option Nat)) (hnd : (clipIds ts).Nodup) (hok : SelOK ts sel)
    (hmem : ∀ i, i ≠ cid → (i ∈ sel' ↔ i ∈ sel)) (hcid : (flag = true) ↔ cid ∈ sel') :
    SelOK (modifyClipInTracks cid (fun c => { c with isSelected := flag }) ts) sel' := by
  cases hget : getClipById ts cid with
  | none =>
    rw [modifyClipInTracks_none cid _ ts hget]
    intro tr htr c hc
    have hne : c.id ≠ cid :=
      (findClip_none_iff cid tr.clips).mp ((getClipById_none cid ts hget).1 tr htr) c hc
    rw [hok tr htr c hc]
    exact (hmem c.id hne).symm
  | some c0 =>
    obtain ⟨tb, tr0, ta, b0, a0, hts, hpre, htr0, hb0, hc0⟩ :=
      getClipById_decomp cid ts c0 hget
    have hndT : (clipIds (tb ++ tr0 :: ta)).Nodup := by rw [← hts]; exact hnd
    obtain ⟨ha0, hta⟩ := nodup_ne_facts tb tr0 ta b0 c0 a0 htr0 hndT
    rw [hts, modifyClipInTracks_of_decomp cid _ tb tr0 ta b0 c0 a0 hpre htr0 hb0 hc0]
    intro tr' htr' c hc
    rcases List.mem_append.mp htr' with h1 | h2
    · have hne : c.id ≠ cid := (findClip_none_iff cid tr'.clips).mp (hpre tr' h1) c hc
      rw [hok tr' (by rw [hts]; exact List.mem_append.mpr (Or.inl h1)) c hc]
      exact (hmem c.id hne).symm
    · rcases List.mem_cons.mp h2 with rfl | h3
      · rcases List.mem_append.mp hc with hcb | hcc
        · have hne : c.id ≠ cid := hb0 c hcb
          rw [hok tr0
            (by rw [hts]; exact List.mem_append.mpr (Or.inr (List.mem_cons_self _ _))) c
            (by rw [htr0]; exact List.mem_append.mpr (Or.inl hcb))]
          exact (hmem c.id hne).symm
        · rcases List.mem_cons.mp hcc with rfl | hca
          · show flag = true ↔ c0.id ∈ sel'
            rw [hc0]
            exact hcid
          · have hne : c.id ≠ cid := hc0 ▸ ha0 c hca
            rw [hok tr0
              (by rw [hts]; exact List.mem_append.mpr (Or.inr (List.mem_cons_self _ _))) c
              (by rw [htr0];
                  exact List.mem_append.mpr (Or.inr (List.mem_cons_of_mem _ hca)))]
            exact (hmem c.id hne).symm
      · have hne : c.id ≠ cid := hc0 ▸ hta tr' h3 c hc
        rw [hok tr'
          (by rw [hts]; exact List.mem_append.mpr (Or.inr (List.mem_cons_of_mem _ h3))) c hc]
        exact (hmem c.id hne).symm

theorem selInv_saveHistory (s : EditorStore) (h1 : SelOK s.tracks s.selectedClipIds)
    (h2 : IdsOK s.tracks s.selectedClipIds s.nextId)
    (hh : ∀ e ∈ s.history, SelOK e.tracks e.selectedClipIds ∧
      IdsOK e.tracks e.selectedClipIds s.nextId) :
    SelInv (saveHistory s) := by
  refine ⟨?_, ?_, ?_⟩
  · rw [saveHistory_tracks, saveHistory_sel]
    exact h1
  · rw [saveHistory_tracks, saveHistory_sel, saveHistory_nextId]
    exact h2
  · intro e he
    rw [saveHistory_nextId]
    rcases saveHistory_histMem s e he with hold | hnew
    · exact hh e hold
    · rw [hnew]
      exact ⟨h1, h2⟩

theorem selInv_deselectAll (s : EditorStore) (h : SelInv s) : SelInv (deselectAll s) := by
  refine ⟨selOK_clear s.tracks, ⟨?_, List.nodup_nil, ?_, ?_⟩, h.2.2⟩
  · show (clipIds (clearAllFlags s.tracks)).Nodup
    rw [clipIds_clearAllFlags]
    exact h.2.1.1
  · intro x hx
    have hx2 : x ∈ clipIds s.tracks := by
      rw [← clipIds_clearAllFlags]
      exact hx
    exact h.2.1.2.2.1 x hx2
  · intro x hx
    exact absurd hx (List.not_mem_nil x)

theorem selInv_selectAllClips (s : EditorStore) (h : SelInv s) :
    SelInv (selectAllClips s) := by
  have hmap := clipIds_mapClips (fun c => { c with isSelected := true }) (fun c => rfl) s.tracks
  refine ⟨?_, ⟨?_, ?_, ?_, ?_⟩, h.2.2⟩
  · intro tr htr c hc
    obtain ⟨tr0, htr0, rfl⟩ := List.mem_map.mp htr
    obtain ⟨c0, hc0, rfl⟩ := List.mem_map.mp hc
    constructor
    · intro _
      exact selectAllTracksFold_self s.tracks s.selectedClipIds tr0 htr0 c0 hc0
    · intro _
      rfl
  · show (clipIds (s.tracks.map fun tr =>
        { tr with clips := tr.clips.map fun c => { c with isSelected := true } })).Nodup
    rw [hmap]
    exact h.2.1.1
  · exact nodup_selectAllTracksFold s.tracks s.selectedClipIds h.2.1.2.1
  · intro x hx
    have hx2 : x ∈ clipIds s.tracks := by
      rw [← hmap]
      exact hx
    exact h.2.1.2.2.1 x hx2
  · intro x hx
    rcases mem_of_selectAllTracksFold s.tracks s.selectedClipIds x hx with
      h1 | ⟨tr, htr, c, hc, rfl⟩
    · exact h.2.1.2.2.2 x h1
    · exact h.2.1.2.2.1 c.id (mem_clipIds_of s.tracks tr c htr hc)

theorem selInv_selectClip_aux (s1 : EditorStore) (cid : Option Nat) (h1 : SelInv s1) :
    SelInv
      (match getClipById s1.tracks cid with
       | none => s1
       | some _ =>
         { s1 with
             tracks := modifyClipInTracks cid (fun c => { c with isSelected := true }) s1.tracks
             selectedClipIds :=
               if cid ∈ s1.selectedClipIds then s1.selectedClipIds
               else s1.selectedClipIds ++ [cid] }) := by
  split
  · exact h1
  · rename_i c0 heq
    have hc0 : c0.id = cid := getClipById_id cid s1.tracks c0 heq
    obtain ⟨tr, htr, hcmem⟩ := getClipById_mem cid s1.tracks c0 heq
    have hcbound : idBound s1.nextId cid := by
      rw [← hc0]
      exact h1.2.1.2.2.1 c0.id (mem_clipIds_of s1.tracks tr c0 htr hcmem)
    refine ⟨?_, ⟨?_, ?_, ?_, ?_⟩, h1.2.2⟩
    · refine selOK_setFlag cid true s1.tracks s1.selectedClipIds _ h1.2.1.1 h1.1 ?_ ?_
      · intro i hne
        split
        · exact Iff.rfl
        · constructor
          · intro hmm
            rcases List.mem_append.mp hmm with h2 | h3
            · exact h2
            · exact absurd (List.mem_singleton.mp h3) hne
          · intro h2
            exact List.mem_append.mpr (Or.inl h2)
      · split
        · rename_i hm
          exact iff_of_true rfl hm
        · exact iff_of_true rfl (List.mem_append.mpr (Or.inr (List.mem_singleton.mpr rfl)))
    · show (clipIds (modifyClipInTracks cid
          (fun c => { c with isSelected := true }) s1.tracks)).Nodup
      rw [clipIds_modify cid (fun c => { c with isSelected := true }) s1.tracks (fun c => rfl)]
      exact h1.2.1.1
    · show (if cid ∈ s1.selectedClipIds then s1.selectedClipIds
        else s1.selectedClipIds ++ [cid]).Nodup
      split
      · exact h1.2.1.2.1
      · rename_i hm
        rw [List.nodup_append]
        refine ⟨h1.2.1.2.1, List.nodup_singleton _, ?_⟩
        intro i hi hi2
        rw [List.mem_singleton.mp hi2] at hi
        exact hm hi
    · intro x hx
      have hx2 : x ∈ clipIds s1.tracks := by
        rw [← clipIds_modify cid (fun c => { c with isSelected := true }) s1.tracks
          (fun c => rfl)]
        exact hx
      exact h1.2.1.2.2.1 x hx2
    · intro x hx
      have hx' : x ∈ (if cid ∈ s1.selectedClipIds then s1.selectedClipIds
          else s1.selectedClipIds ++ [cid]) := hx
      split at hx'
      · exact h1.2.1.2.2.2 x hx'
      · rcases List.mem_append.mp hx' with h2 | h3
        · exact h1.2.1.2.2.2 x h2
        · rw [List.mem_singleton.mp h3]
          exact hcbound

theorem selInv_selectClip (s : EditorStore) (cid : Option Nat) (a : Bool) (h : SelInv s) :
    SelInv (selectClip s cid a) := by
  have h1 : SelInv (if a = true then s
      else { s with tracks := clearAllFlags s.tracks, selectedClipIds := [] }) := by
    split
    · exact h
    · refine ⟨selOK_clear s.tracks, ⟨?_, List.nodup_nil, ?_, ?_⟩, h.2.2⟩
      · show (clipIds (clearAllFlags s.tracks)).Nodup
        rw [clipIds_clearAllFlags]
        exact h.2.1.1
      · intro x hx
        have hx2 : x ∈ clipIds s.tracks := by
          rw [← clipIds_clearAllFlags]
          exact hx
        exact h.2.1.2.2.1 x hx2
      · intro x hx
        exact absurd hx (List.not_mem_nil x)
  simp only [selectClip]
  exact selInv_selectClip_aux _ cid h1

theorem selInv_deselectClip (s : EditorStore) (cid : Option Nat) (h : SelInv s) :
    SelInv (deselectClip s cid) := by
  unfold deselectClip
  split
  · exact h
  · refine ⟨?_, ⟨?_, ?_, ?_, ?_⟩, h.2.2⟩
    · refine selOK_setFlag cid false s.tracks s.selectedClipIds _ h.2.1.1 h.1 ?_ ?_
      · intro i hne
        exact mem_removeFirstId_ne cid i s.selectedClipIds hne
      · exact iff_of_false (by simp) (not_mem_removeFirstId cid s.selectedClipIds h.2.1.2.1)
    · show (clipIds (modifyClipInTracks cid
          (fun c => { c with isSelected := false }) s.tracks)).Nodup
      rw [clipIds_modify cid (fun c => { c with isSelected := false }) s.tracks (fun c => rfl)]
      exact h.2.1.1
    · exact List.Nodup.sublist (removeFirstId_sublist cid s.selectedClipIds) h.2.1.2.1
    · intro x hx
      have hx2 : x ∈ clipIds s.tracks := by
        rw [← clipIds_modify cid (fun c => { c with isSelected := false }) s.tracks
          (fun c => rfl)]
        exact hx
      exact h.2.1.2.2.1 x hx2
    · intro x hx
      exact h.2.1.2.2.2 x ((removeFirstId_sublist cid s.selectedClipIds).subset hx)

theorem selInv_removeClip (s : EditorStore) (cid : Option Nat) (h : SelInv s) :
    SelInv (removeClip s cid) := by
  unfold removeClip
  cases hrem : removeClipFromTracks cid s.tracks with
  | none => exact h
  | some ts' =>
    obtain ⟨tb, tr0, ta, b0, c0, a0, hts, hpre, htr0, hb0, hc0, hts'⟩ :=
      removeClipFromTracks_decomp cid s.tracks ts' hrem
    have hndT : (clipIds (tb ++ tr0 :: ta)).Nodup := by rw [← hts]; exact h.2.1.1
    obtain ⟨ha0, hta⟩ := nodup_ne_facts tb tr0 ta b0 c0 a0 htr0 hndT
    have hselOK : SelOK ts' (removeFirstId cid s.selectedClipIds) := by
      intro tr' htr' c hc
      rw [hts'] at htr'
      rcases List.mem_append.mp htr' with h1 | h2
      · have hne : c.id ≠ cid := (findClip_none_iff cid tr'.clips).mp (hpre tr' h1) c hc
        rw [h.1 tr' (by rw [hts]; exact List.mem_append.mpr (Or.inl h1)) c hc]
        exact (mem_removeFirstId_ne cid c.id s.selectedClipIds hne).symm
      · rcases List.mem_cons.mp h2 with rfl | h3
        · have hmemtr : tr0 ∈ s.tracks := by
            rw [hts]
            exact List.mem_append.mpr (Or.inr (List.mem_cons_self _ _))
          have hcin : c ∈ tr0.clips := by
            rw [htr0]
            rcases List.mem_append.mp hc with h4 | h5
            · exact List.mem_append.mpr (Or.inl h4)
            · exact List.mem_append.mpr (Or.inr (List.mem_cons_of_mem _ h5))
          have hne : c.id ≠ cid := by
            rcases List.mem_append.mp hc with h4 | h5
            · exact hb0 c h4
            · exact hc0 ▸ ha0 c h5
          rw [h.1 tr0 hmemtr c hcin]
          exact (mem_removeFirstId_ne cid c.id s.selectedClipIds hne).symm
        · have hmemtr : tr' ∈ s.tracks := by
            rw [hts]
            exact List.mem_append.mpr (Or.inr (List.mem_cons_of_mem _ h3))
          have hne : c.id ≠ cid := hc0 ▸ hta tr' h3 c hc
          rw [h.1 tr' hmemtr c hc]
          exact (mem_removeFirstId_ne cid c.id s.selectedClipIds hne).symm
    have hids : IdsOK ts' (removeFirstId cid s.selectedClipIds) s.nextId := by
      refine ⟨?_, ?_, ?_, ?_⟩
      · exact List.Nodup.sublist (clipIds_remove_sublist cid s.tracks ts' hrem) h.2.1.1
      · exact List.Nodup.sublist (removeFirstId_sublist cid s.selectedClipIds) h.2.1.2.1
      · intro x hx
        exact h.2.1.2.2.1 x ((clipIds_remove_sublist cid s.tracks ts' hrem).subset hx)
      · intro x hx
        exact h.2.1.2.2.2 x ((removeFirstId_sublist cid s.selectedClipIds).subset hx)
    exact selInv_saveHistory _ hselOK hids h.2.2

theorem selInv_removeTrack (s : EditorStore) (tid : Nat) (h : SelInv s) :
    SelInv (removeTrack s tid) := by
  unfold removeTrack
  cases hts : findTrackSplit tid s.tracks with
  | none => exact h
  | some x =>
    obtain ⟨b, tr, a⟩ := x
    obtain ⟨he, _, _⟩ := findTrackSplit_eq tid s.tracks b tr a hts
    have hndT : (clipIds (b ++ tr :: a)).Nodup := by rw [← he]; exact h.2.1.1
    have hdis := nodup_track_disjoint b tr a hndT
    have hsub : List.Sublist (clipIds (b ++ a)) (clipIds (b ++ tr :: a)) := by
      rw [clipIds_append, clipIds_append, clipIds]
      exact List.Sublist.append (List.Sublist.refl _) (List.sublist_append_right _ _)
    have hselOK : SelOK (b ++ a) (removeClipsSel s.selectedClipIds tr.clips) := by
      intro tr' htr' c hc
      have hmemo : tr' ∈ s.tracks := by
        rw [he]
        rcases List.mem_append.mp htr' with h1 | h2
        · exact List.mem_append.mpr (Or.inl h1)
        · exact List.mem_append.mpr (Or.inr (List.mem_cons_of_mem _ h2))
      rw [h.1 tr' hmemo c hc]
      exact (mem_removeClipsSel_ne tr.clips s.selectedClipIds c.id
        (fun y hy he2 => hdis tr' htr' c hc y hy he2.symm)).symm
    have hids : IdsOK (b ++ a) (removeClipsSel s.selectedClipIds tr.clips) s.nextId := by
      refine ⟨?_, ?_, ?_, ?_⟩
      · exact List.Nodup.sublist hsub hndT
      · exact List.Nodup.sublist (removeClipsSel_sublist tr.clips s.selectedClipIds)
          h.2.1.2.1
      · intro x hx
        have hx2 : x ∈ clipIds s.tracks := by
          rw [he]
          exact hsub.subset hx
        exact h.2.1.2.2.1 x hx2
      · intro x hx
        exact h.2.1.2.2.2 x ((removeClipsSel_sublist tr.clips s.selectedClipIds).subset hx)
    exact selInv_saveHistory _ hselOK hids h.2.2

theorem selInv_splitClip (s : EditorStore) (cid : Option Nat) (m : ℚ) (h : SelInv s) :
    SelInv (splitClip s cid m).1 := by
  cases hget : getClipById s.tracks cid with
  | none =>
    have heq : splitClip s cid m = (s, none) := by
      unfold splitClip
      rw [hget]
    rw [heq]
    exact h
  | some clip =>
    cases htrk : getTrackByClipId s.tracks cid with
    | none =>
      have heq : splitClip s cid m = (s, none) := by
        unfold splitClip
        rw [hget]
        rw [htrk]
      rw [heq]
      exact h
    | some tr0 =>
      by_cases hb : m ≤ clip.startTime ∨ clip.endTime ≤ m
      · have heq : splitClip s cid m = (s, none) := by
          unfold splitClip
          simp only [hget, htrk]
          rw [if_pos hb]
        rw [heq]
        exact h
      · have heq : (splitClip s cid m).1 =
            saveHistory
              { s with nextId := s.nextId + 1
                       tracks := splitInsert cid (splitFirstClip clip m)
                         (splitSecondClip clip m s.nextId) s.tracks } := by
          unfold splitClip
          simp only [hget, htrk]
          rw [if_neg hb]
        rw [heq]
        obtain ⟨tb, tr1, ta, b0, a0, hts, hpre, htr1, hb0, hcid⟩ :=
          getClipById_decomp cid s.tracks clip hget
        have hsi2 : splitInsert cid (splitFirstClip clip m)
            (splitSecondClip clip m s.nextId) s.tracks =
            tb ++ { tr1 with clips := b0 ++ splitFirstClip clip m :: splitSecondClip clip m s.nextId :: a0 } :: ta := by
          rw [hts]
          exact splitInsert_of_decomp cid _ _ tb tr1 ta b0 clip a0 hpre htr1 hb0 hcid
        rw [hsi2]
        have hndT : (clipIds (tb ++ tr1 :: ta)).Nodup := by rw [← hts]; exact h.2.1.1
        have hcOld : clipIds s.tracks =
            clipIds tb ++ ((b0.map (fun c => c.id) ++ clip.id :: a0.map (fun c => c.id)) ++
              clipIds ta) := by
          rw [hts, clipIds_append, clipIds, htr1]
          simp
        have hfresh : (some s.nextId : Option Nat) ∉ clipIds s.tracks := by
          intro hmem
          exact absurd (h.2.1.2.2.1 _ hmem) (lt_irrefl s.nextId)
        have hcNew : clipIds (tb ++ { tr1 with clips := b0 ++ splitFirstClip clip m :: splitSecondClip clip m s.nextId :: a0 } :: ta) =
            clipIds tb ++ ((b0.map (fun c => c.id) ++ clip.id ::
              (some s.nextId : Option Nat) :: a0.map (fun c => c.id)) ++ clipIds ta) := by
          rw [clipIds_append, clipIds]
          simp [splitFirstClip, splitSecondClip]
        have hmemtr : tr1 ∈ s.tracks := by
          rw [hts]
          exact List.mem_append.mpr (Or.inr (List.mem_cons_self _ _))
        have hselOK : SelOK (tb ++ { tr1 with clips := b0 ++ splitFirstClip clip m :: splitSecondClip clip m s.nextId :: a0 } :: ta) s.selectedClipIds := by
          intro tr' htr' c hc
          rcases List.mem_append.mp htr' with h1 | h2
          · exact h.1 tr' (by rw [hts]; exact List.mem_append.mpr (Or.inl h1)) c hc
          · rcases List.mem_cons.mp h2 with rfl | h3
            · rcases List.mem_append.mp hc with h4 | h5
              · exact h.1 tr1 hmemtr c (by rw [htr1]; exact List.mem_append.mpr (Or.inl h4))
              · rcases List.mem_cons.mp h5 with rfl | h6
                · show clip.isSelected = true ↔ clip.id ∈ s.selectedClipIds
                  exact h.1 tr1 hmemtr clip (by rw [htr1]; exact List.mem_append.mpr (Or.inr (List.mem_cons_self _ _)))
                · rcases List.mem_cons.mp h6 with rfl | h7
                  · show false = true ↔ (some s.nextId : Option Nat) ∈ s.selectedClipIds
                    exact iff_of_false (by simp)
                      (fun hmem => absurd (h.2.1.2.2.2 _ hmem) (lt_irrefl s.nextId))
                  · exact h.1 tr1 hmemtr c (by rw [htr1]; exact List.mem_append.mpr (Or.inr (List.mem_cons_of_mem _ h7)))
            · exact h.1 tr' (by rw [hts]; exact List.mem_append.mpr (Or.inr (List.mem_cons_of_mem _ h3))) c hc
        have hids : IdsOK (tb ++ { tr1 with clips := b0 ++ splitFirstClip clip m :: splitSecondClip clip m s.nextId :: a0 } :: ta) s.selectedClipIds (s.nextId + 1) := by
          refine ⟨?_, h.2.1.2.1, ?_, ?_⟩
          · rw [hcNew]
            refine nodup_insert_mid (clipIds tb) (b0.map (fun c => c.id))
              (a0.map (fun c => c.id)) (clipIds ta) clip.id (some s.nextId) ?_ ?_
            · rw [← hcOld]
              exact h.2.1.1
            · rw [← hcOld]
              exact hfresh
          · intro x hx
            rw [hcNew] at hx
            have hold : x = (some s.nextId : Option Nat) ∨ x ∈ clipIds s.tracks := by
              rw [hcOld]
              rcases List.mem_append.mp hx with h1 | h2
              · exact Or.inr (List.mem_append.mpr (Or.inl h1))
              · rcases List.mem_append.mp h2 with h3 | h4
                · rcases List.mem_append.mp h3 with h5 | h6
                  · exact Or.inr (List.mem_append.mpr (Or.inr (List.mem_append.mpr (Or.inl (List.mem_append.mpr (Or.inl h5))))))
                  · rcases List.mem_cons.mp h6 with rfl | h7
                    · exact Or.inr (List.mem_append.mpr (Or.inr (List.mem_append.mpr (Or.inl (List.mem_append.mpr (Or.inr (List.mem_cons_self _ _)))))))
                    · rcases List.mem_cons.mp h7 with rfl | h8
                      · exact Or.inl rfl
                      · exact Or.inr (List.mem_append.mpr (Or.inr (List.mem_append.mpr (Or.inl (List.mem_append.mpr (Or.inr (List.mem_cons_of_mem _ h8)))))))
                · exact Or.inr (List.mem_append.mpr (Or.inr (List.mem_append.mpr (Or.inr h4))))
            rcases hold with rfl | hmem
            · show s.nextId < s.nextId + 1
              exact Nat.lt_succ_self _
            · exact idBound_mono s.nextId _ x (h.2.1.2.2.1 x hmem) (Nat.le_succ _)
          · intro x hx
            exact idBound_mono s.nextId _ x (h.2.1.2.2.2 x hx) (Nat.le_succ _)
        exact selInv_saveHistory _ hselOK hids
          (fun e he => ⟨(h.2.2 e he).1,
            idsOK_mono _ _ _ _ (h.2.2 e he).2 (Nat.le_succ _)⟩)

theorem selInv_undo (s : EditorStore) (h : SelInv s) : SelInv (undo s) := by
  unfold undo
  split
  · split
    · rename_i st heq
      have hst := h.2.2 st (List.get?_mem heq)
      exact ⟨hst.1, hst.2, h.2.2⟩
    · exact h
  · exact h

theorem selInv_redo (s : EditorStore) (h : SelInv s) : SelInv (redo s) := by
  unfold redo
  split
  · split
    · rename_i st heq
      have hst := h.2.2 st (List.get?_mem heq)
      exact ⟨hst.1, hst.2, h.2.2⟩
    · exact h
  · exact h

/-- One `safeSel` operation preserves the state-wide selection invariant. -/
theorem selInv_step (op : EditOp) (s : EditorStore) (hop : safeSel op = true)
    (h : SelInv s) : SelInv (applyOp op s) := by
  cases op with
  | addTrack ty n => exact Bool.noConfusion hop
  | removeTrack tid => exact selInv_removeTrack s tid h
  | addClip tid d => exact Bool.noConfusion hop
  | removeClip cid => exact selInv_removeClip s cid h
  | updateClip cid u => exact Bool.noConfusion hop
  | splitClip cid t => exact selInv_splitClip s cid t h
  | moveClip cid t ntid => exact Bool.noConfusion hop
  | trimClipStart cid t => exact Bool.noConfusion hop
  | trimClipEnd cid t => exact Bool.noConfusion hop
  | selectClip cid a => exact selInv_selectClip s cid a h
  | deselectClip cid => exact selInv_deselectClip s cid h
  | deselectAll => exact selInv_deselectAll s h
  | selectAllClips => exact selInv_selectAllClips s h
  | copySelectedClips => exact Bool.noConfusion hop
  | pasteClips => exact Bool.noConfusion hop
  | duplicateSelectedClips => exact Bool.noConfusion hop
  | deleteSelectedClips => exact Bool.noConfusion hop
  | undo => exact selInv_undo s h
  | redo => exact selInv_redo s h
  | updateTime t => exact Bool.noConfusion hop

theorem selInv_seq (ops : List EditOp) :
    ∀ s : EditorStore, SelInv s → SafeSelSeq ops = true → SelInv (applyOps ops s) := by
  induction ops with
  | nil => intro s h _; exact h
  | cons op rest ih =>
    intro s h hsafe
    rw [SafeSelSeq, Bool.and_eq_true] at hsafe
    exact ih _ (selInv_step op s hsafe.1 h) hsafe.2

/-- C8 (amended): from a state where every clip's `isSelected` flag agrees
with membership of its id in `selectedClipIds` (live and in every history
entry), where clip ids and selection entries are duplicate-free, and where
every real id is below the fresh-id counter, the flag/set consistency is
preserved by every sequence drawn from selectClip, deselectClip,
deselectAll, selectAllClips, removeClip, removeTrack, splitClip, undo and
redo — but NOT by pasteClips or duplicateSelectedClips, which insert copies
whose id is `undefined`: the claim's two excluded operations can leave a
clip whose flag contradicts its id's membership. -/
theorem C8_selection_invariant (s : EditorStore) (ops : List EditOp) (hinv : SelInv s)
    (hsafe : SafeSelSeq ops = true) :
    SelInv (applyOps ops s) ∧
      ∀ tr ∈ (applyOps ops s).tracks, ∀ c ∈ tr.clips,
        (c.isSelected = true ↔ c.id ∈ (applyOps ops s).selectedClipIds) := by
  have main := selInv_seq ops s hinv hsafe
  exact ⟨main, fun tr htr c hc => main.1 tr htr c hc⟩

/-- C8 counterexample: from the consistent two-clip store with both clips
selected, `duplicateSelectedClips` produces a state with a clip whose
`isSelected` is false while its id (`undefined`) is in `selectedClipIds`:
the first clone is added with the source's (cleared) flag but then
`selectClip(undefined, true)` flags the FIRST undefined-id clip and adds
`undefined` to the id set once; the second clone stays unflagged yet its
`undefined` id is a member. -/
theorem C8_counterexample :
    (∀ tr ∈ exBothSelected.tracks, ∀ c ∈ tr.clips,
        (c.isSelected = true ↔ c.id ∈ exBothSelected.selectedClipIds)) ∧
      ¬∀ tr ∈ (duplicateSelectedClips exBothSelected).tracks, ∀ c ∈ tr.clips,
          (c.isSelected = true ↔ c.id ∈
            (duplicateSelectedClips exBothSelected).selectedClipIds) := by
  with_unfolding_all decide

/-- C8 witness: a concrete consistent store, a concrete safe sequence, and
the preservation conclusion at them. -/
theorem C8_witness :
    SelInv exClipB ∧
      SafeSelSeq [EditOp.selectClip (some 1) false, EditOp.splitClip (some 1) 3,
        EditOp.undo, EditOp.removeClip (some 2)] = true ∧
      (SelInv (applyOps [EditOp.selectClip (some 1) false, EditOp.splitClip (some 1) 3,
          EditOp.undo, EditOp.removeClip (some 2)] exClipB) ∧
        ∀ tr ∈ (applyOps [EditOp.selectClip (some 1) false, EditOp.splitClip (some 1) 3,
            EditOp.undo, EditOp.removeClip (some 2)] exClipB).tracks,
          ∀ c ∈ tr.clips,
            (c.isSelected = true ↔ c.id ∈
              (applyOps [EditOp.selectClip (some 1) false, EditOp.splitClip (some 1) 3,
                EditOp.undo, EditOp.removeClip (some 2)] exClipB).selectedClipIds)) :=
  ⟨by with_unfolding_all decide, by with_unfolding_all decide,
    C8_selection_invariant exClipB
      [EditOp.selectClip (some 1) false, EditOp.splitClip (some 1) 3,
        EditOp.undo, EditOp.removeClip (some 2)]
      (by with_unfolding_all decide) (by with_unfolding_all decide)⟩

end VideoEditor
